import Mathlib

/-!
# The top-level entry point of the debugger (src/raddbg/raddbg.cpp)

A shallow embedding of `entry_point`, `main` and `WinMain`.  The entry point is
glue code: almost everything it does is a call into another layer (OS layer,
command line layer, converter, baker, debugger frontend).  Those layers are not
part of the source file, so

* every call with an observable effect is recorded as an `Event`, in program
  order, and
* every value a callee hands back is read from a `World` record (one field per
  callee), so that each theorem holds for every behaviour of the callees.

Byte strings (`String8`) are lists of bytes, `size` is the list length.
`U64` arithmetic is arithmetic on `Nat` reduced modulo `2 ^ 64`.

The few helpers of the base layer whose results the entry point computes with
(`r1u64`, `str8_list_join`, `MemoryCopy`, `MB`, `os_handle_match`) and the effect of
`os_file_write` on a file are written out here; their doc comments say so.
-/

namespace Raddbg

/-! ## Base layer types used by the entry point -/

/-- A `String8`: a sequence of bytes; the field `size` is the length of the list. -/
abbrev String8 := List Nat

/-- The literal `str8_lit("...")`.  Every literal of this file is ASCII, so each character is
one byte, its code. -/
def str8_lit (s : String) : String8 := s.toList.map Char.toNat

/-- Reduction of an unsigned 64 bit result. -/
def u64 (n : Nat) : Nat := n % 2 ^ 64

/-- Subtraction on `U64`, which wraps around below zero. -/
def u64_sub (a b : Nat) : Nat := (u64 a + 2 ^ 64 - u64 b) % 2 ^ 64

/-- Modelled from the spec: the macro `MB` of the base layer is not in the source file; it is
`n << 20` on `U64`. -/
def MB (n : Nat) : Nat := u64 (n <<< 20)

/-- The type `OS_Handle`: one `U64`. -/
structure OS_Handle where
  u64 : Nat
deriving DecidableEq, Repr

/-- Modelled from the spec: `os_handle_zero` of the OS layer is not in the source file; it is
the handle whose `U64` is zero. -/
def os_handle_zero : OS_Handle := ⟨0⟩

/-- Modelled from the spec: `os_handle_match` of the OS layer is not in the source file; it
compares the `U64` of the two handles. -/
def os_handle_match (a b : OS_Handle) : Bool := a.u64 == b.u64

/-- The type `Rng1U64`. -/
structure Rng1U64 where
  min : Nat
  max : Nat
deriving DecidableEq, Repr

/-- Modelled from the spec: `r1u64` of the base layer is not in the source file; it builds the
range of the two bounds, put in order. -/
def r1u64 (min max : Nat) : Rng1U64 :=
  if min > max then ⟨max, min⟩ else ⟨min, max⟩

/-- The type `StringJoin`: prefix, separator, suffix. -/
structure StringJoin where
  pre : String8
  sep : String8
  post : String8
deriving DecidableEq, Repr

/-- The nodes of a list, each but the last followed by the separator. -/
def str8_list_join_nodes (sep : String8) : List String8 → String8
  | [] => []
  | [s] => s
  | s :: t :: rest => s ++ sep ++ str8_list_join_nodes sep (t :: rest)

/-- Modelled from the spec: `str8_list_join` of the base layer is not in the source file.  It copies
`pre`, then every node in list order with `sep` after each node that has a successor, then
`post`. -/
def str8_list_join (list : List String8) (join : StringJoin) : String8 :=
  join.pre ++ str8_list_join_nodes join.sep list ++ join.post

/-- Modelled from the spec: the macro `MemoryCopy` of the base layer is not in the source file.
After `MemoryCopy(dst, src, n)` the first `n` bytes of `dst` are the first `n` bytes of `src`;
the bytes of `dst` from `n` on are kept. -/
def MemoryCopy (dst src : List Nat) (n : Nat) : List Nat :=
  src.take n ++ dst.drop n

/-! ## Top-level execution types -/

/-- The enumeration `ExecMode`. -/
inductive ExecMode where
  | Normal
  | IPCSender
  | Converter
  | Help
deriving DecidableEq, Repr

/-- The type `IPCInfo`, the header of the shared memory block. -/
structure IPCInfo where
  msg_size : Nat
deriving DecidableEq, Repr

/-- The size `sizeof(IPCInfo)`: one `U64`. -/
def sizeof_IPCInfo : Nat := 8

/-- The constant `IPC_SHARED_MEMORY_BUFFER_SIZE`. -/
def IPC_SHARED_MEMORY_BUFFER_SIZE : Nat := MB 16

/-- The global `ipc_shared_memory_name`. -/
def ipc_shared_memory_name : String8 := str8_lit "_raddbg_ipc_shared_memory_"

/-- The global `ipc_semaphore_name`. -/
def ipc_semaphore_name : String8 := str8_lit "_raddbg_ipc_semaphore_"

/-- The shared memory block as one process sees it: the header and the bytes that follow it
(`(U8 *)(ipc_info+1)`). -/
structure IPCShared where
  info : IPCInfo
  buffer : List Nat
deriving DecidableEq, Repr

/-! ## Types of the layers the entry point calls into -/

/-- The parsed command line `CmdLine`.  The parser is not in the source file; a command line is given
by what the three accessors used by the entry point return. -/
structure CmdLine where
  /-- The result of `cmd_line_has_flag(&cmdln, name)`. -/
  has_flag : String8 → Bool
  /-- The result of `cmd_line_string(&cmdln, name)`. -/
  string : String8 → String8
  /-- The field `cmdln.inputs`. -/
  inputs : List String8

/-- The access flags of `os_file_open`. -/
inductive OS_AccessFlag where
  | Read
  | Write
deriving DecidableEq, Repr

/-- The type `PDBCONV_Params`; the entry point reads the field `output_name` only. -/
structure PDBCONV_Params where
  output_name : String8
  other_fields : List String8
deriving DecidableEq, Repr

/-- The construction tree root `CONS_Root *`, known to the entry point by identity only. -/
structure CONS_Root where
  id : Nat
deriving DecidableEq, Repr

/-- The type `PDBCONV_Out`; the entry point reads the field `root` only. -/
structure PDBCONV_Out where
  root : CONS_Root
deriving DecidableEq, Repr

/-- The entity kinds used by the entry point. -/
inductive DF_EntityKind where
  | Target
  | Executable
  | ExecutionPath
  | Arguments
deriving DecidableEq, Repr

/-- The core command kinds used by the entry point. -/
inductive DF_CoreCmdKind where
  | LaunchAndRun
  | StepInto
  | Attach
  | Error
deriving DecidableEq, Repr

/-- A command specification `DF_CmdSpec *`, known by identity; `0` is the nil specification. -/
abbrev DF_CmdSpec := Nat

/-- Modelled from the spec: `df_cmd_spec_is_nil` of the frontend is not in the source file; it
tells whether the specification is the nil specification. -/
def df_cmd_spec_is_nil (spec : DF_CmdSpec) : Bool := spec == 0

/-- A window `DF_Window *` of the frontend: its OS handle and whether
`os_window_is_focused(window->os)` holds. -/
structure DF_Window where
  os : OS_Handle
  focused : Bool
deriving DecidableEq, Repr

/-- Where a `DF_CmdParams` value was obtained. -/
inductive DF_CmdParamsSource where
  | gfx
  | window (w : DF_Window)
  | query (w : DF_Window) (spec : DF_CmdSpec) (args : String8)
deriving DecidableEq, Repr

/-- The type `DF_CmdParams`: the source of the value and the slots the entry point fills. -/
structure DF_CmdParams where
  source : DF_CmdParamsSource
  string : Option String8
  id : Option Nat
deriving DecidableEq, Repr

/-- The value `df_cmd_params_from_gfx()`. -/
def df_cmd_params_from_gfx : DF_CmdParams := ⟨.gfx, none, none⟩

/-- The value `df_cmd_params_from_window(window)`. -/
def df_cmd_params_from_window (w : DF_Window) : DF_CmdParams := ⟨.window w, none, none⟩

/-! ## Observable calls -/

/-- One call made by the entry point into another layer, with the arguments that matter, or
one store into the shared memory block. -/
inductive Event where
  | os_init
  | ProfBeginCapture
  | os_make_directory (path : String8)
  | os_shared_memory_alloc (size : Nat) (name : String8)
  | os_shared_memory_open (name : String8)
  | os_shared_memory_view_open (range : Rng1U64)
  | os_semaphore_alloc (name : String8)
  | os_semaphore_open (name : String8)
  | os_semaphore_take
  | os_semaphore_drop
  | store_msg_size (value : Nat)
  | MemoryCopy_buffer (src : String8) (n : Nat)
  | hs_init
  | txt_init
  | dbgi_init
  | txti_init
  | demon_init
  | ctrl_init
  | dasm_init
  | os_graphical_init
  | fp_init
  | r_init
  | tex_init
  | geo_init
  | f_init
  | df_state_delta_history_alloc
  | df_core_init (user_cfg_path profile_cfg_path : String8)
  | df_gfx_init
  | os_set_cursor
  | df_entity_alloc (kind : DF_EntityKind)
  | df_entity_equip_b32 (kind : DF_EntityKind) (b32 : Nat)
  | df_entity_equip_cfg_src (kind : DF_EntityKind)
  | df_entity_equip_name (kind : DF_EntityKind) (name : String8)
  | df_push_cmd__root (params : DF_CmdParams) (spec : DF_CmdSpec)
  | update_and_render
  | pdb_convert_params_from_cmd_line
  | os_file_open (flags : List OS_AccessFlag) (path : String8)
  | pdbconv_convert (params : PDBCONV_Params)
  | cons_bake_file (root : CONS_Root)
  | os_file_write (file : OS_Handle) (range : Rng1U64) (data : String8)
  | os_file_close (file : OS_Handle)
  | os_graphical_message (title : String8)
deriving DecidableEq, Repr

/-- What one iteration of the main loop finds outside the program. -/
structure Frame where
  /-- The result of `os_semaphore_take(ipc_semaphore, max_U64)`. -/
  sem_take : Bool
  /-- The shared memory block as found when the semaphore is held. -/
  shared : IPCShared
  /-- The window list `df_gfx_state->first_window ...` when the message is read. -/
  windows : List DF_Window
  /-- Whether `df_gfx_state->first_window == 0` at the end of the iteration. -/
  no_windows_left : Bool

/-- What the callees of the entry point hand back. -/
structure World where
  /-- The result of `os_string_from_system_path(arena, OS_SystemPath_UserProgramData)`. -/
  user_program_data_path : String8
  /-- The function `try_u64_from_str8_c_rules`: the parsed value, if the string is a number. -/
  try_u64_from_str8_c_rules : String8 → Option Nat
  /-- The function `str8_chop_last_slash`. -/
  str8_chop_last_slash : String8 → String8
  /-- The function `df_cmd_spec_from_core_cmd_kind`. -/
  df_cmd_spec_from_core_cmd_kind : DF_CoreCmdKind → DF_CmdSpec
  /-- The function `df_cmd_name_part_from_string`. -/
  df_cmd_name_part_from_string : String8 → String8
  /-- The function `df_cmd_arg_part_from_string`. -/
  df_cmd_arg_part_from_string : String8 → String8
  /-- The function `df_cmd_spec_from_string`. -/
  df_cmd_spec_from_string : String8 → DF_CmdSpec
  /-- The error string returned by `df_cmd_params_apply_spec_query` for a destination window,
  a command specification and an argument string. -/
  df_cmd_params_apply_spec_query : DF_Window → DF_CmdSpec → String8 → String8
  /-- What the iterations of the main loop find, in order. -/
  frames : List Frame
  /-- In sender mode, the block behind `os_shared_memory_view_open`; `none` is a null base. -/
  sender_view : Option IPCShared
  /-- In sender mode, the result of `os_semaphore_take`. -/
  sender_sem_take : Bool
  /-- The function `pdb_convert_params_from_cmd_line`. -/
  pdb_convert_params_from_cmd_line : CmdLine → PDBCONV_Params
  /-- The function `os_file_open`; the zero handle stands for a file that did not open. -/
  os_file_open : List OS_AccessFlag → String8 → OS_Handle
  /-- The function `pdbconv_convert`; `none` is the null result. -/
  pdbconv_convert : PDBCONV_Params → Option PDBCONV_Out
  /-- The list of strings `cons_bake_file` pushes onto `baked`. -/
  cons_bake_file : CONS_Root → List String8
  /-- Modelled from the spec: the number of degraded items (unrecognised record kinds, a missing
  executable pairing, units that failed to parse) that the conversion of the given parameters
  recorded.  The converter is not in the source file; the entry point reads no such number
  from the result of `pdbconv_convert`. -/
  degraded_items : PDBCONV_Params → Nat := fun _ => 0

/-- The outcome of a run of the entry point: the calls it made, in order, and, in sender mode
with an open view, the shared memory block it leaves behind. -/
structure Run where
  events : List Event
  shared : Option IPCShared

/-! ## `entry_point`: command line arguments and default paths -/

/-- The variable `exec_mode` after the command line is parsed. -/
def exec_mode (cmdln : CmdLine) : ExecMode :=
  if cmdln.has_flag (str8_lit "ipc") then ExecMode.IPCSender
  else if cmdln.has_flag (str8_lit "convert") then ExecMode.Converter
  else if cmdln.has_flag (str8_lit "?") || cmdln.has_flag (str8_lit "help") then ExecMode.Help
  else ExecMode.Normal

/-- The local `user_data_folder`: `"%S/%S"` of the user program data path and `"raddbg"`. -/
def user_data_folder (w : World) : String8 :=
  w.user_program_data_path ++ str8_lit "/" ++ str8_lit "raddbg"

/-- The variable `user_cfg_path` after the default paths are set. -/
def user_cfg_path (w : World) (cmdln : CmdLine) : String8 :=
  let user_cfg_path := cmdln.string (str8_lit "user")
  if user_cfg_path.length == 0 then user_data_folder w ++ str8_lit "/default.raddbg_user"
  else user_cfg_path

/-- The variable `profile_cfg_path` after the default paths are set. -/
def profile_cfg_path (w : World) (cmdln : CmdLine) : String8 :=
  let profile_cfg_path := cmdln.string (str8_lit "profile")
  if profile_cfg_path.length == 0 then user_data_folder w ++ str8_lit "/default.raddbg_profile"
  else profile_cfg_path

/-- The variable written by `try_u64_from_str8_c_rules(string, &x)` with `x` initially `0`. -/
def jit_value (w : World) (cmdln : CmdLine) (name : String8) : Nat :=
  (w.try_u64_from_str8_c_rules (cmdln.string name)).getD 0

/-- The calls made before the dispatch on the execution mode. -/
def prelude_events (w : World) (cmdln : CmdLine) : List Event :=
  let capture := cmdln.has_flag (str8_lit "capture")
  [Event.os_init] ++
  (if capture then [Event.ProfBeginCapture] else []) ++
  [Event.os_make_directory (user_data_folder w)]

/-! ## `entry_point`: converter mode -/

/-- The loop over the baked list: one `os_file_write` per node, `off` advancing by the size of
the node. -/
def bake_write_loop (out_file : OS_Handle) : Nat → List String8 → List Event
  | _, [] => []
  | off, node :: rest =>
    Event.os_file_write out_file (r1u64 off (u64 (off + node.length))) node ::
      bake_write_loop out_file (u64 (off + node.length)) rest

/-- The case `ExecMode_Converter` of the dispatch. -/
def converter_events (w : World) (cmdln : CmdLine) : List Event :=
  let params := w.pdb_convert_params_from_cmd_line cmdln
  let output_name := params.output_name
  let flags := [OS_AccessFlag.Read, OS_AccessFlag.Write]
  let out_file := w.os_file_open flags output_name
  let out_file_is_good := !os_handle_match out_file os_handle_zero
  let out := if out_file_is_good then w.pdbconv_convert params else none
  [Event.pdb_convert_params_from_cmd_line, Event.os_file_open flags output_name] ++
  (if out_file_is_good then [Event.pdbconv_convert params] else []) ++
  (match out with
    | some o =>
      if params.output_name.length > 0 then
        Event.cons_bake_file o.root :: bake_write_loop out_file 0 (w.cons_bake_file o.root)
      else []
    | none => []) ++
  [Event.os_file_close out_file]

/-! ## `entry_point`: sender mode -/

/-- The case `ExecMode_IPCSender` of the dispatch. -/
def ipc_sender (w : World) (cmdln : CmdLine) : Run :=
  let open_events :=
    [Event.os_shared_memory_open ipc_shared_memory_name,
     Event.os_shared_memory_view_open (r1u64 0 (MB 16))]
  match w.sender_view with
  | none => ⟨open_events, none⟩
  | some shared =>
    if w.sender_sem_take then
      let buffer_max := u64_sub IPC_SHARED_MEMORY_BUFFER_SIZE sizeof_IPCInfo
      let join : StringJoin := ⟨str8_lit "", str8_lit " ", str8_lit ""⟩
      let msg := str8_list_join cmdln.inputs join
      let msg_size := min buffer_max msg.length
      ⟨open_events ++
        [Event.os_semaphore_open ipc_semaphore_name, Event.os_semaphore_take,
         Event.store_msg_size msg_size, Event.MemoryCopy_buffer msg msg_size,
         Event.os_semaphore_drop],
       some ⟨⟨msg_size⟩, MemoryCopy shared.buffer msg msg_size⟩⟩
    else
      ⟨open_events ++ [Event.os_semaphore_open ipc_semaphore_name, Event.os_semaphore_take],
       some shared⟩

/-! ## `entry_point`: help mode -/

/-- The case `ExecMode_Help` of the dispatch. -/
def help_events : List Event :=
  [Event.os_graphical_message (str8_lit "The RAD Debugger - Help")]

/-! ## `entry_point`: normal mode -/

/-- The block that sets up the initial target from the command line inputs. -/
def target_setup_events (w : World) (cmdln : CmdLine) : List Event :=
  match cmdln.inputs with
  | [] => []
  | first :: passthrough_args_list =>
    if first.length != 0 then
      [Event.df_entity_alloc DF_EntityKind.Target,
       Event.df_entity_equip_b32 DF_EntityKind.Target 1,
       Event.df_entity_equip_cfg_src DF_EntityKind.Target] ++
      (if first.length != 0 then
        [Event.df_entity_alloc DF_EntityKind.Executable,
         Event.df_entity_equip_name DF_EntityKind.Executable first]
       else []) ++
      (let path_part_of_arg := w.str8_chop_last_slash first
       if path_part_of_arg.length != 0 then
        [Event.df_entity_alloc DF_EntityKind.ExecutionPath,
         Event.df_entity_equip_name DF_EntityKind.ExecutionPath (path_part_of_arg ++ str8_lit "/")]
       else []) ++
      (let join : StringJoin := ⟨str8_lit "", str8_lit " ", str8_lit ""⟩
       let args_str := str8_list_join passthrough_args_list join
       if args_str.length != 0 then
        [Event.df_entity_alloc DF_EntityKind.Arguments,
         Event.df_entity_equip_name DF_EntityKind.Arguments args_str]
       else [])
    else []

/-- The destination window of a message: the first focused window, else the first window. -/
def dst_window (windows : List DF_Window) : Option DF_Window :=
  match windows.find? (fun window => window.focused) with
  | some window => some window
  | none => windows.head?

/-- The block of a main loop iteration that reads a message from the shared memory block and
pushes the command it names. -/
def ipc_receive_events (w : World) (f : Frame) : List Event :=
  Event.os_semaphore_take ::
  (if f.sem_take then
    (if f.shared.info.msg_size != 0 then
      let msg_size := f.shared.info.msg_size
      let cmd_string := f.shared.buffer.take msg_size
      Event.store_msg_size 0 ::
      (match dst_window f.windows with
        | none => []
        | some dst =>
          let cmd_spec_string := w.df_cmd_name_part_from_string cmd_string
          let cmd_spec := w.df_cmd_spec_from_string cmd_spec_string
          if !df_cmd_spec_is_nil cmd_spec then
            let args := w.df_cmd_arg_part_from_string cmd_string
            let error := w.df_cmd_params_apply_spec_query dst cmd_spec args
            if error.length == 0 then
              [Event.df_push_cmd__root ⟨DF_CmdParamsSource.query dst cmd_spec args, none, none⟩
                cmd_spec]
            else
              [Event.df_push_cmd__root
                { df_cmd_params_from_window dst with string := some error }
                (w.df_cmd_spec_from_core_cmd_kind DF_CoreCmdKind.Error)]
          else [])
     else []) ++ [Event.os_semaphore_drop]
   else [])

/-- The main application loop, one iteration per frame of the world; it ends when an iteration
finds no window left (or when the world has no more frames to offer). -/
def main_loop (w : World) (jit_pid : Nat) : List Frame → Bool → Bool → Bool → List Event
  | [], _, _, _ => []
  | f :: fs, auto_run, auto_step, jit_attach =>
    ipc_receive_events w f ++ [Event.update_and_render] ++
    (if auto_run then
      [Event.df_push_cmd__root df_cmd_params_from_gfx
        (w.df_cmd_spec_from_core_cmd_kind DF_CoreCmdKind.LaunchAndRun)]
     else []) ++
    (if auto_step then
      [Event.df_push_cmd__root df_cmd_params_from_gfx
        (w.df_cmd_spec_from_core_cmd_kind DF_CoreCmdKind.StepInto)]
     else []) ++
    (if jit_attach then
      [Event.df_push_cmd__root { df_cmd_params_from_gfx with id := some jit_pid }
        (w.df_cmd_spec_from_core_cmd_kind DF_CoreCmdKind.Attach)]
     else []) ++
    (if f.no_windows_left then []
     else main_loop w jit_pid fs (if auto_run then false else auto_run)
        (if auto_step then false else auto_step) (if jit_attach then false else jit_attach))

/-- The case `ExecMode_Normal` (and `default`) of the dispatch.  The view of the shared memory
block is taken to be open: the code stores through its base without a test. -/
def normal_events (w : World) (cmdln : CmdLine) : List Event :=
  let auto_run := cmdln.has_flag (str8_lit "auto_run")
  let auto_step := cmdln.has_flag (str8_lit "auto_step")
  let jit_pid := jit_value w cmdln (str8_lit "jit_pid")
  let jit_addr := jit_value w cmdln (str8_lit "jit_addr")
  let jit_attach := jit_addr != 0
  [Event.os_shared_memory_alloc IPC_SHARED_MEMORY_BUFFER_SIZE ipc_shared_memory_name,
   Event.os_shared_memory_view_open (r1u64 0 IPC_SHARED_MEMORY_BUFFER_SIZE),
   Event.os_semaphore_alloc ipc_semaphore_name,
   Event.store_msg_size 0,
   Event.hs_init, Event.txt_init, Event.dbgi_init, Event.txti_init, Event.demon_init,
   Event.ctrl_init, Event.dasm_init, Event.os_graphical_init, Event.fp_init, Event.r_init,
   Event.tex_init, Event.geo_init, Event.f_init,
   Event.df_state_delta_history_alloc,
   Event.df_core_init (user_cfg_path w cmdln) (profile_cfg_path w cmdln),
   Event.df_gfx_init,
   Event.os_set_cursor] ++
  target_setup_events w cmdln ++
  main_loop w jit_pid w.frames auto_run auto_step jit_attach

/-! ## `entry_point`, `main`, `WinMain` -/

/-- The function `entry_point`, on the parsed command line. -/
def entry_point (w : World) (cmdln : CmdLine) : Run :=
  match exec_mode cmdln with
  | ExecMode.Normal => ⟨prelude_events w cmdln ++ normal_events w cmdln, none⟩
  | ExecMode.IPCSender =>
    ⟨prelude_events w cmdln ++ (ipc_sender w cmdln).events, (ipc_sender w cmdln).shared⟩
  | ExecMode.Converter => ⟨prelude_events w cmdln ++ converter_events w cmdln, none⟩
  | ExecMode.Help => ⟨prelude_events w cmdln ++ help_events, none⟩

/-- The function `main` (Linux): the run of `entry_point` and the returned exit status. -/
def main (w : World) (cmdln : CmdLine) : Run × Int :=
  (entry_point w cmdln, 0)

/-- The function `WinMain`: the run of `entry_point` and the exit status.  A structured
exception raised inside `entry_point` is given as the number of calls completed before it; the
handler then shows a message box and exits the process with status `1`. -/
def WinMain (w : World) (cmdln : CmdLine) (exception : Option Nat) : Run × Int :=
  match exception with
  | none => (entry_point w cmdln, 0)
  | some completed =>
    (⟨(entry_point w cmdln).events.take completed ++
        [Event.os_graphical_message (str8_lit "Fatal Exception")], none⟩, 1)

/-! ## Reading a trace -/

/-- The arguments `(range, data)` of an event that is a call of `os_file_write`. -/
def as_file_write : Event → Option (Rng1U64 × String8)
  | Event.os_file_write _ range data => some (range, data)
  | _ => none

/-- The arguments `(range, data)` of the `os_file_write` calls of a trace, in order. -/
def file_writes (trace : List Event) : List (Rng1U64 × String8) :=
  trace.filterMap as_file_write

/-- A file: the byte at each offset, if one was written there. -/
abbrev File := Nat → Option Nat

/-- Modelled from the spec: `os_file_write` of the OS layer is not in the source file.  The
call `os_file_write(file, range, data)` stores the bytes of `data` that fit the range at the
absolute file offsets from `range.min` on. -/
def write_range (f : File) (range : Rng1U64) (data : String8) : File :=
  fun k =>
    if range.min ≤ k ∧ k < range.max then
      match data[k - range.min]? with
      | some b => some b
      | none => f k
    else f k

/-- The file after the `os_file_write` calls of a trace, starting from the file `f`. -/
def file_after (f : File) (trace : List Event) : File :=
  (file_writes trace).foldl (fun g write => write_range g write.1 write.2) f

/-- Whether an event is a call of `os_file_write`. -/
def is_os_file_write : Event → Bool
  | Event.os_file_write _ _ _ => true
  | _ => false

/-- Whether an event is a call of `pdbconv_convert`. -/
def is_pdbconv_convert : Event → Bool
  | Event.pdbconv_convert _ => true
  | _ => false

/-- Whether an event is a call of `cons_bake_file`. -/
def is_cons_bake_file : Event → Bool
  | Event.cons_bake_file _ => true
  | _ => false

/-- Whether an event is a call of `os_file_open`. -/
def is_os_file_open : Event → Bool
  | Event.os_file_open _ _ => true
  | _ => false

/-- Whether an event is a call of `os_make_directory`. -/
def is_os_make_directory : Event → Bool
  | Event.os_make_directory _ => true
  | _ => false

/-- The sum of the sizes of the nodes of a string list (`total_size`). -/
def total_size (list : List String8) : Nat := (list.map List.length).sum

/-- The offset of node `i` of a string list in the concatenation of the list. -/
def node_offset (list : List String8) (i : Nat) : Nat := total_size (list.take i)

/-- The calls of converter mode after the output file is opened. -/
def converter_events_after_open (w : World) (cmdln : CmdLine) : List Event :=
  (converter_events w cmdln).drop 2

/-- The execution mode whose code path alone makes the call: `os_shared_memory_alloc` is the
first call of normal mode, `os_shared_memory_open` of sender mode,
`pdb_convert_params_from_cmd_line` of converter mode, and `os_graphical_message` is the call of
help mode. -/
def mode_marker : Event → Option ExecMode
  | Event.os_shared_memory_alloc _ _ => some ExecMode.Normal
  | Event.os_shared_memory_open _ => some ExecMode.IPCSender
  | Event.pdb_convert_params_from_cmd_line => some ExecMode.Converter
  | Event.os_graphical_message _ => some ExecMode.Help
  | _ => none

/-- The arguments `(user_cfg_path, profile_cfg_path)` of an event that is a call of
`df_core_init`. -/
def as_df_core_init : Event → Option (String8 × String8)
  | Event.df_core_init user_cfg_path profile_cfg_path => some (user_cfg_path, profile_cfg_path)
  | _ => none

/-- Whether an event is one of the calls made while the initial target is set up or in an
iteration of the main loop. -/
def is_frontend_event : Event → Bool
  | Event.df_entity_alloc _ => true
  | Event.df_entity_equip_b32 _ _ => true
  | Event.df_entity_equip_cfg_src _ => true
  | Event.df_entity_equip_name _ _ => true
  | Event.os_semaphore_take => true
  | Event.os_semaphore_drop => true
  | Event.store_msg_size _ => true
  | Event.df_push_cmd__root _ _ => true
  | Event.update_and_render => true
  | _ => false

/-! ## Example runs -/

/-- A world in which files with a non-empty name open, conversion succeeds when an input is
named, and baking yields three nodes. -/
def example_world : World where
  user_program_data_path := str8_lit "/home/u"
  try_u64_from_str8_c_rules := fun _ => none
  str8_chop_last_slash := fun _ => []
  df_cmd_spec_from_core_cmd_kind := fun kind =>
    match kind with
    | DF_CoreCmdKind.LaunchAndRun => 1
    | DF_CoreCmdKind.StepInto => 2
    | DF_CoreCmdKind.Attach => 3
    | DF_CoreCmdKind.Error => 4
  df_cmd_name_part_from_string := fun s => s.takeWhile (fun b => b != 32)
  df_cmd_arg_part_from_string := fun s => (s.dropWhile (fun b => b != 32)).drop 1
  df_cmd_spec_from_string := fun s => if s == str8_lit "run" then 10 else 0
  df_cmd_params_apply_spec_query := fun _ _ _ => []
  frames := []
  sender_view := some ⟨⟨0⟩, [0, 0, 0, 0, 0, 0, 0, 0]⟩
  sender_sem_take := true
  pdb_convert_params_from_cmd_line := fun cmdln =>
    ⟨cmdln.string (str8_lit "out"), [cmdln.string (str8_lit "pdb")]⟩
  os_file_open := fun _ path => if path.length == 0 then ⟨0⟩ else ⟨3⟩
  pdbconv_convert := fun params => if params.other_fields == [[]] then none else some ⟨⟨1⟩⟩
  cons_bake_file := fun _ => [[1, 2], [3], [4, 5, 6]]

/-- The command line `--convert --pdb:a.pdb --out:a.rdi`. -/
def convert_cmdln : CmdLine where
  has_flag := fun name => name == str8_lit "convert"
  string := fun name =>
    if name == str8_lit "out" then str8_lit "a.rdi"
    else if name == str8_lit "pdb" then str8_lit "a.pdb"
    else []
  inputs := []

/-- The command line `--convert --pdb:a.pdb`, without an output name. -/
def convert_cmdln_no_out : CmdLine where
  has_flag := fun name => name == str8_lit "convert"
  string := fun name => if name == str8_lit "pdb" then str8_lit "a.pdb" else []
  inputs := []

/-- The command line `--convert --out:a.rdi`, without an input, on which conversion in the
example world returns no result. -/
def convert_cmdln_no_pdb : CmdLine where
  has_flag := fun name => name == str8_lit "convert"
  string := fun name => if name == str8_lit "out" then str8_lit "a.rdi" else []
  inputs := []

/-- The example world on another machine: another user folder and another value of the file
handle. -/
def example_world_2 : World :=
  { example_world with
    user_program_data_path := str8_lit "/home/v"
    os_file_open := fun _ path => if path.length == 0 then ⟨0⟩ else ⟨7⟩ }

/-- The command line `--ipc --convert --help run a.exe`. -/
def ipc_cmdln : CmdLine where
  has_flag := fun name =>
    name == str8_lit "ipc" || name == str8_lit "convert" || name == str8_lit "help"
  string := fun _ => []
  inputs := [str8_lit "run", str8_lit "a.exe"]

/-- A sender command line whose single input is 16777209 bytes long, one byte more than the
shared buffer holds. -/
def ipc_cmdln_long : CmdLine where
  has_flag := fun name => name == str8_lit "ipc"
  string := fun _ => []
  inputs := [List.replicate 16777209 97]

/-- The command line `--user:u.raddbg_user a.exe`. -/
def normal_cmdln : CmdLine where
  has_flag := fun _ => false
  string := fun name => if name == str8_lit "user" then str8_lit "u.raddbg_user" else []
  inputs := [str8_lit "a.exe"]

/-- The example world with a shared buffer of full size, all zero. -/
def example_world_ipc : World :=
  { example_world with sender_view := some ⟨⟨0⟩, List.replicate 16777208 0⟩ }

/-- The example world with one iteration of the main loop, which finds no message and leaves
no window. -/
def example_world_normal : World :=
  { example_world with frames := [⟨true, ⟨⟨0⟩, []⟩, [], true⟩] }

/-- Whether an event is a call into the GUI and control subsystems: one of the subsystem
initialisers of normal mode (`hs_init` to `df_gfx_init`, `os_set_cursor`), a call of the target
setup, a command push, or `update_and_render`, which every iteration of the main loop calls. -/
def is_gui_call : Event → Bool
  | Event.hs_init => true
  | Event.txt_init => true
  | Event.dbgi_init => true
  | Event.txti_init => true
  | Event.demon_init => true
  | Event.ctrl_init => true
  | Event.dasm_init => true
  | Event.os_graphical_init => true
  | Event.fp_init => true
  | Event.r_init => true
  | Event.tex_init => true
  | Event.geo_init => true
  | Event.f_init => true
  | Event.df_state_delta_history_alloc => true
  | Event.df_core_init _ _ => true
  | Event.df_gfx_init => true
  | Event.os_set_cursor => true
  | Event.df_entity_alloc _ => true
  | Event.df_entity_equip_b32 _ _ => true
  | Event.df_entity_equip_cfg_src _ => true
  | Event.df_entity_equip_name _ _ => true
  | Event.df_push_cmd__root _ _ => true
  | Event.update_and_render => true
  | _ => false

/-- Whether an event is a call of `os_file_close`. -/
def is_os_file_close : Event → Bool
  | Event.os_file_close _ => true
  | _ => false

/-- The calls of converter mode between the opening and the closing of the output file. -/
def converter_events_between (w : World) (cmdln : CmdLine) : List Event :=
  (converter_events_after_open w cmdln).dropLast

/-- The handle of the output file of a converter run. -/
def out_file (w : World) (cmdln : CmdLine) : OS_Handle :=
  w.os_file_open [OS_AccessFlag.Read, OS_AccessFlag.Write]
    (w.pdb_convert_params_from_cmd_line cmdln).output_name

/-- Whether an event is one of the calls made by the code path of sender mode. -/
def is_sender_call : Event → Bool
  | Event.os_shared_memory_open _ => true
  | Event.os_shared_memory_view_open _ => true
  | Event.os_semaphore_open _ => true
  | Event.os_semaphore_take => true
  | Event.store_msg_size _ => true
  | Event.MemoryCopy_buffer _ _ => true
  | Event.os_semaphore_drop => true
  | _ => false

/-- The bound kept by the stores into `msg_size`: the value stored by an event that stores
into it is at most `bound`. -/
def stores_at_most (bound : Nat) : Event → Bool
  | Event.store_msg_size value => decide (value ≤ bound)
  | _ => true

/-- The string `str8(buffer, msg_size)` a main loop iteration reads from the shared buffer. -/
def cmd_string (f : Frame) : String8 :=
  f.shared.buffer.take f.shared.info.msg_size

/-- A main loop iteration that takes the semaphore and finds the message `run` while one
unfocused and one focused window are open. -/
def example_frame_message : Frame :=
  ⟨true, ⟨⟨3⟩, str8_lit "run"⟩, [⟨⟨1⟩, false⟩, ⟨⟨2⟩, true⟩], false⟩

/-- A main loop iteration that takes the semaphore and finds the message `run` while two
windows are open, neither of them focused. -/
def example_frame_unfocused : Frame :=
  ⟨true, ⟨⟨3⟩, str8_lit "run"⟩, [⟨⟨1⟩, false⟩, ⟨⟨2⟩, false⟩], false⟩

/-- The example world with three iterations of the main loop: the first finds no message, the
second finds the message `run`, the third finds the semaphore taken by another process and no
window left. -/
def example_world_frames : World :=
  { example_world with
    frames :=
      [⟨true, ⟨⟨0⟩, []⟩, [⟨⟨1⟩, false⟩], false⟩,
       example_frame_message,
       ⟨false, ⟨⟨0⟩, []⟩, [], true⟩] }

/-- The calls of the three start-up blocks of a main loop iteration (auto run, auto step, jit
attach), for the values the three flags have when the iteration reaches them. -/
def start_up_events (w : World) (jit_pid : Nat) (auto_run auto_step jit_attach : Bool) :
    List Event :=
  (if auto_run then
    [Event.df_push_cmd__root df_cmd_params_from_gfx
      (w.df_cmd_spec_from_core_cmd_kind DF_CoreCmdKind.LaunchAndRun)]
   else []) ++
  (if auto_step then
    [Event.df_push_cmd__root df_cmd_params_from_gfx
      (w.df_cmd_spec_from_core_cmd_kind DF_CoreCmdKind.StepInto)]
   else []) ++
  (if jit_attach then
    [Event.df_push_cmd__root { df_cmd_params_from_gfx with id := some jit_pid }
      (w.df_cmd_spec_from_core_cmd_kind DF_CoreCmdKind.Attach)]
   else [])

/-- Iterations of the main loop that consist of the message block and `update_and_render`
alone, up to the first one that finds no window left. -/
def message_iterations (w : World) : List Frame → List Event
  | [] => []
  | f :: fs =>
    ipc_receive_events w f ++ Event.update_and_render ::
      (if f.no_windows_left then [] else message_iterations w fs)

/-- The command specification pushed by an event that is a call of `df_push_cmd__root`. -/
def as_pushed_spec : Event → Option DF_CmdSpec
  | Event.df_push_cmd__root _ spec => some spec
  | _ => none

/-- The command specifications pushed by the calls of a trace, in order. -/
def pushed_specs (trace : List Event) : List DF_CmdSpec :=
  trace.filterMap as_pushed_spec

/-- The calls of normal mode before the main loop: the set-up of the shared memory block, the
subsystem initialisers and the set-up of the initial target. -/
def normal_start_events (w : World) (cmdln : CmdLine) : List Event :=
  [Event.os_shared_memory_alloc IPC_SHARED_MEMORY_BUFFER_SIZE ipc_shared_memory_name,
   Event.os_shared_memory_view_open (r1u64 0 IPC_SHARED_MEMORY_BUFFER_SIZE),
   Event.os_semaphore_alloc ipc_semaphore_name,
   Event.store_msg_size 0,
   Event.hs_init, Event.txt_init, Event.dbgi_init, Event.txti_init, Event.demon_init,
   Event.ctrl_init, Event.dasm_init, Event.os_graphical_init, Event.fp_init, Event.r_init,
   Event.tex_init, Event.geo_init, Event.f_init,
   Event.df_state_delta_history_alloc,
   Event.df_core_init (user_cfg_path w cmdln) (profile_cfg_path w cmdln),
   Event.df_gfx_init,
   Event.os_set_cursor] ++
  target_setup_events w cmdln

/-- The example world in which the name `launch_and_run` resolves to the specification of the
core command `LaunchAndRun`, with two iterations of the main loop: the first finds no message,
the second finds the message `launch_and_run` while a window is open. -/
def example_world_launch : World :=
  { example_world with
    df_cmd_spec_from_string := fun s => if s == str8_lit "launch_and_run" then 1 else 0
    frames :=
      [⟨true, ⟨⟨0⟩, []⟩, [⟨⟨1⟩, true⟩], false⟩,
       ⟨true, ⟨⟨14⟩, str8_lit "launch_and_run"⟩, [⟨⟨1⟩, true⟩], true⟩] }

/-- The command line `--auto_run`. -/
def auto_run_cmdln : CmdLine where
  has_flag := fun name => name == str8_lit "auto_run"
  string := fun _ => []
  inputs := []

/-- The command line without flags, options and inputs. -/
def empty_cmdln : CmdLine where
  has_flag := fun _ => false
  string := fun _ => []
  inputs := []

/-! ## `update_and_render`: the key-binding change -/

/-- The event kinds of the OS layer that `update_and_render` tells apart; `Other` stands for
every other kind. -/
inductive OS_EventKind where
  | Press
  | Release
  | Text
  | WindowClose
  | Other
deriving DecidableEq, Repr

/-- The keys of the OS layer that `update_and_render` names; `Other code` stands for every
other key of the enumeration. -/
inductive OS_Key where
  | Esc
  | Return
  | Backspace
  | Delete
  | LeftMouseButton
  | RightMouseButton
  | Ctrl
  | Alt
  | Shift
  | Other (code : Nat)
deriving DecidableEq, Repr

/-- The fields of an `OS_Event` that `update_and_render` reads. -/
structure OS_Event where
  kind : OS_EventKind
  key : OS_Key
  flags : Nat
  window : OS_Handle
  character : Nat
  is_repeat : Bool
deriving DecidableEq, Repr

/-- The type `DF_Binding`: a key and modifier flags. -/
structure DF_Binding where
  key : OS_Key
  flags : Nat
deriving DecidableEq, Repr

/-- The fields of `df_gfx_state` that describe a key-binding change. -/
structure DF_GfxState where
  bind_change_active : Bool
  bind_change_cmd_spec : DF_CmdSpec
  bind_change_binding : DF_Binding
deriving DecidableEq, Repr

/-- One call made by the bind change block of `update_and_render`. -/
inductive GfxCall where
  | df_unbind_spec (spec : DF_CmdSpec) (binding : DF_Binding)
  | df_bind_spec (spec : DF_CmdSpec) (binding : DF_Binding)
  | os_text (codepoint : Nat)
  | os_eat_event (event : OS_Event)
  | df_push_cmd__root (params : DF_CmdParams) (spec : DF_CmdSpec)
deriving DecidableEq, Repr

/-- What the callees of the bind change block hand back.  An event list `OS_EventList` is the
list of its events from `first` on; a pointer into it is the rest of the list from the event
it points to, and the null pointer is the empty list. -/
structure GfxWorld where
  /-- The call `os_key_press(&events, os_handle_zero(), 0, key)`: `none` when it returns zero
  and leaves the list as it is, `some rest` when it returns one and leaves the list `rest`. -/
  os_key_press : List OS_Event → OS_Key → Option (List OS_Event)
  /-- The function `os_codepoint_from_event_flags_and_key`. -/
  os_codepoint_from_event_flags_and_key : Nat → OS_Key → Nat
  /-- The event list after `os_text(&events, os_handle_zero(), codepoint)`. -/
  os_text : List OS_Event → Nat → List OS_Event
  /-- The event list after `os_eat_event(&events, event)`. -/
  os_eat_event : List OS_Event → OS_Event → List OS_Event
  /-- The specification
  `df_cmd_spec_from_core_cmd_kind(df_g_cfg_src_write_cmd_kind_table[DF_CfgSrc_User])`. -/
  cfg_write_cmd_spec : DF_CmdSpec

/-- The state after the bind change block: the binding change state, the event list, and the
calls made, in order. -/
structure BindChange where
  gfx : DF_GfxState
  events : List OS_Event
  calls : List GfxCall
deriving DecidableEq, Repr

/-- The condition of the `if` in the loop of the bind change block. -/
def is_bindable_press (event : OS_Event) : Bool :=
  event.kind == OS_EventKind.Press &&
  event.key != OS_Key.Esc &&
  event.key != OS_Key.Return &&
  event.key != OS_Key.Backspace &&
  event.key != OS_Key.Delete &&
  event.key != OS_Key.LeftMouseButton &&
  event.key != OS_Key.RightMouseButton &&
  event.key != OS_Key.Ctrl &&
  event.key != OS_Key.Alt &&
  event.key != OS_Key.Shift

/-- The loop `for(OS_Event *event = events.first, *next = 0; event != 0; event = next)` of the
bind change block.  The arguments `event` and `next` are the two loop variables; the body does
not assign `next`, so each pass hands `next` on as it found it.  The first argument bounds the
number of passes. -/
def bind_change_loop (g : GfxWorld) (gfx : DF_GfxState) (events : List OS_Event) :
    Nat → List OS_Event → List OS_Event → BindChange
  | 0, _, _ => ⟨gfx, events, []⟩
  | passes + 1, event, next =>
    match event with
    | [] => ⟨gfx, events, []⟩
    | e :: _ =>
      if is_bindable_press e then
        let binding : DF_Binding := ⟨e.key, e.flags⟩
        let codepoint := g.os_codepoint_from_event_flags_and_key e.flags e.key
        ⟨{ gfx with bind_change_active := false },
          g.os_eat_event (g.os_text events codepoint) e,
          [GfxCall.df_unbind_spec gfx.bind_change_cmd_spec gfx.bind_change_binding,
           GfxCall.df_bind_spec gfx.bind_change_cmd_spec binding,
           GfxCall.os_text codepoint,
           GfxCall.os_eat_event e,
           GfxCall.df_push_cmd__root df_cmd_params_from_gfx g.cfg_write_cmd_spec]⟩
      else bind_change_loop g gfx events passes next next

/-- The bind change block of `update_and_render`. -/
def bind_change (g : GfxWorld) (gfx : DF_GfxState) (events : List OS_Event) : BindChange :=
  if gfx.bind_change_active then
    let esc := g.os_key_press events OS_Key.Esc
    let gfx1 := if esc.isSome then { gfx with bind_change_active := false } else gfx
    let events1 := esc.getD events
    let delete := g.os_key_press events1 OS_Key.Delete
    let gfx2 := if delete.isSome then { gfx1 with bind_change_active := false } else gfx1
    let events2 := delete.getD events1
    let calls2 :=
      if delete.isSome then
        [GfxCall.df_unbind_spec gfx1.bind_change_cmd_spec gfx1.bind_change_binding,
         GfxCall.df_push_cmd__root df_cmd_params_from_gfx g.cfg_write_cmd_spec]
      else []
    let done := bind_change_loop g gfx2 events2 (events2.length + 1) events2 []
    ⟨done.gfx, done.events, calls2 ++ done.calls⟩
  else ⟨gfx, events, []⟩

/-- An OS layer for the examples: `os_key_press` takes the first press of the key without
modifiers out of the list, `os_text` takes the first text event with the codepoint out, and
`os_eat_event` takes the event out. -/
def example_gfx_world : GfxWorld where
  os_key_press := fun events key =>
    match events.find? (fun e => e.kind == OS_EventKind.Press && e.key == key && e.flags == 0)
    with
    | some e => some (events.erase e)
    | none => none
  os_codepoint_from_event_flags_and_key := fun _ key =>
    match key with
    | OS_Key.Other code => code
    | _ => 0
  os_text := fun events codepoint =>
    match events.find? (fun e => e.kind == OS_EventKind.Text && e.character == codepoint) with
    | some e => events.erase e
    | none => events
  os_eat_event := fun events event => events.erase event
  cfg_write_cmd_spec := 20

/-- A binding change in progress: the command 7, bound to the key 66 so far. -/
def example_bind_change : DF_GfxState :=
  ⟨true, 7, ⟨OS_Key.Other 66, 0⟩⟩

/-- A press of the key 65 in window 1. -/
def example_press : OS_Event :=
  ⟨OS_EventKind.Press, OS_Key.Other 65, 0, ⟨1⟩, 0, false⟩

/-- A mouse move in window 1 (an event of another kind, without a key). -/
def example_mouse_move : OS_Event :=
  ⟨OS_EventKind.Other, OS_Key.Other 0, 0, ⟨1⟩, 0, false⟩

/-- The example world, when the conversion records one degraded item. -/
def example_world_degraded : World :=
  { example_world with degraded_items := fun _ => 1 }

/-! ## The type graph builder -/

/-- Modelled from the spec: the kinds of a decoded type (data model, `TypeNode`); the converter
is not in the source file. -/
inductive TypeKind where
  | primitive
  | pointer
  | array
  | function
  | aggregate
  | enumeration
deriving DecidableEq, Repr

/-- Modelled from the spec: the indirection kinds (pointer, array-of, function-pointer), the
only kinds that may refer to a record that has not been seen yet. -/
def TypeKind.is_indirection : TypeKind → Bool
  | TypeKind.pointer => true
  | TypeKind.array => true
  | TypeKind.function => true
  | _ => false

/-- Modelled from the spec: a type record of a stream: its kind, its name (empty for an
anonymous type) and the records it refers to, by index in the stream. -/
structure TypeRecord where
  kind : TypeKind
  name : String8
  children : List Nat
deriving DecidableEq, Repr

/-- Modelled from the spec: a `TypeNode`: kind, name and the identifiers of the child nodes. -/
structure TypeNode where
  kind : TypeKind
  name : String8
  children : List Nat
deriving DecidableEq, Repr

/-- Modelled from the spec: the state of the forward pass of the type graph builder: the
mapping from record index to `TypeNode` identifier and the table of nodes by identifier, in
which a placeholder that awaits its record is `none`. -/
structure TypeGraph where
  ids : List (Nat × Nat)
  nodes : List (Option TypeNode)
deriving DecidableEq, Repr

/-- Modelled from the spec: the identifier of a record index: the one already assigned to it,
or else a placeholder allocated now. -/
def TypeGraph.assign (g : TypeGraph) (index : Nat) : TypeGraph × Nat :=
  match g.ids.lookup index with
  | some id => (g, id)
  | none => (⟨(index, g.nodes.length) :: g.ids, g.nodes ++ [none]⟩, g.nodes.length)

/-- Modelled from the spec: the child references of a record of the given kind, when `seen`
records have been processed: a reference to a record seen before is replaced by its
identifier; a reference to a record not seen yet gets a placeholder if the kind is an
indirection kind and is an error otherwise. -/
def resolve_children (kind : TypeKind) (seen : Nat) :
    TypeGraph → List Nat → Option (TypeGraph × List Nat)
  | g, [] => some (g, [])
  | g, child :: rest =>
    if child < seen || kind.is_indirection then
      match resolve_children kind seen (g.assign child).1 rest with
      | some (g2, ids) => some (g2, (g.assign child).2 :: ids)
      | none => none
    else none

/-- Modelled from the spec: the processing of the record with the given index: its children
are resolved, and its node is stored under the identifier of the index, which patches the
placeholder if one was allocated for it. -/
def add_record (g : TypeGraph) (index : Nat) (record : TypeRecord) : Option TypeGraph :=
  match resolve_children record.kind index g record.children with
  | none => none
  | some (g1, ids) =>
    some ⟨(g1.assign index).1.ids,
      (g1.assign index).1.nodes.set (g1.assign index).2 (some ⟨record.kind, record.name, ids⟩)⟩

/-- Modelled from the spec: the single forward pass over the records of a stream, the first of
which has the given index. -/
def build_from : TypeGraph → Nat → List TypeRecord → Option TypeGraph
  | g, _, [] => some g
  | g, index, record :: rest =>
    match add_record g index record with
    | none => none
    | some g1 => build_from g1 (index + 1) rest

/-- Modelled from the spec: the forward pass over a whole stream. -/
def build (records : List TypeRecord) : Option TypeGraph :=
  build_from ⟨[], []⟩ 0 records

/-- Modelled from the spec: the state of deduplication: the canonical identifier of each node
handled so far, and the identifier under which each structural encoding (kind, name, ordered
canonical child identifiers) was first seen. -/
structure Dedup where
  canon : List (Nat × Nat)
  table : List (TypeNode × Nat)
deriving DecidableEq, Repr

/-- Modelled from the spec: the canonical identifier of a node; a node that has not been
handled yet (the target of a forward reference) stands for itself. -/
def Dedup.canon_of (d : Dedup) (id : Nat) : Nat :=
  (d.canon.lookup id).getD id

/-- Modelled from the spec: the structural encoding of a node: its kind, its name and the
ordered list of the canonical identifiers of its children. -/
def Dedup.encoding (d : Dedup) (node : TypeNode) : TypeNode :=
  { node with children := node.children.map d.canon_of }

/-- Modelled from the spec: the deduplication of one node: its structural encoding is looked
up, and the node is merged with the node of the same encoding if there is one. -/
def Dedup.add (d : Dedup) (id : Nat) (node : TypeNode) : Dedup :=
  match d.table.lookup (d.encoding node) with
  | some canonical => ⟨(id, canonical) :: d.canon, d.table⟩
  | none => ⟨(id, id) :: d.canon, (d.encoding node, id) :: d.table⟩

/-- Modelled from the spec: the deduplication of the node of the record with the given
index. -/
def dedup_step (g : TypeGraph) (d : Dedup) (index : Nat) : Dedup :=
  match g.ids.lookup index with
  | some id =>
    match g.nodes[id]? with
    | some (some node) => d.add id node
    | _ => d
  | none => d

/-- Modelled from the spec: deduplication after the pass, bottom-up: the nodes are handled in
the order of their records, so that a node comes after the nodes it refers to, except through
a forward reference of an indirection node. -/
def dedup (g : TypeGraph) (count : Nat) : Dedup :=
  (List.range count).foldl (dedup_step g) ⟨[], []⟩

/-- Modelled from the spec: the result of the type graph builder: the graph of the forward
pass and its deduplication. -/
structure TypeTable where
  graph : TypeGraph
  dedup : Dedup
deriving DecidableEq, Repr

/-- Modelled from the spec: the type graph builder: forward pass, then deduplication. -/
def convert_types (records : List TypeRecord) : Option TypeTable :=
  match build records with
  | none => none
  | some g => some ⟨g, dedup g records.length⟩

/-- Modelled from the spec: the `TypeNode` identifier of the record with the given index, after
deduplication. -/
def TypeTable.identifier (t : TypeTable) (index : Nat) : Option Nat :=
  (t.graph.ids.lookup index).map t.dedup.canon_of

/-- Modelled from the spec: the `TypeNode` with the given identifier, all referrers
repointed to canonical identifiers. -/
def TypeTable.node (t : TypeTable) (id : Nat) : Option TypeNode :=
  (t.dedup.table.find? (fun entry => entry.2 == id)).map
    (fun entry => t.dedup.encoding entry.1)

/-- The number of `TypeNode`s of the table that have the given identifier. -/
def TypeTable.count (t : TypeTable) (id : Nat) : Nat :=
  (t.dedup.table.filter (fun entry => entry.2 == id)).length

/-- A stream of three records: the primitive `int`, a pointer to the struct that follows, and
the struct `S` with an `int` field and a field of that pointer type. -/
def example_self_struct : List TypeRecord :=
  [⟨TypeKind.primitive, str8_lit "int", []⟩,
   ⟨TypeKind.pointer, [], [2]⟩,
   ⟨TypeKind.aggregate, str8_lit "S", [0, 1]⟩]

/-- A stream with two anonymous structs of one `int` field and two structs of that layout with
the names `A` and `B`. -/
def example_dedup_structs : List TypeRecord :=
  [⟨TypeKind.primitive, str8_lit "int", []⟩,
   ⟨TypeKind.aggregate, [], [0]⟩,
   ⟨TypeKind.aggregate, [], [0]⟩,
   ⟨TypeKind.aggregate, str8_lit "A", [0]⟩,
   ⟨TypeKind.aggregate, str8_lit "B", [0]⟩]

/-- The invariant of the forward pass: every assigned identifier names a slot of the node
table, and no identifier is assigned to two record indices. -/
def TypeGraph.wf (g : TypeGraph) : Prop :=
  (∀ entry ∈ g.ids, entry.2 < g.nodes.length) ∧ (g.ids.map Prod.snd).Nodup

/-- The graph `g2` keeps the identifiers assigned in the graph `g1`. -/
def TypeGraph.keeps (g1 g2 : TypeGraph) : Prop :=
  ∀ index id, g1.ids.lookup index = some id → g2.ids.lookup index = some id

/-- The invariant of deduplication, for the set of the nodes handled so far: only handled
nodes have a canonical identifier recorded; every identifier of the table is handled and is
its own canonical identifier; and no identifier occurs twice in the table. -/
def Dedup.inv (d : Dedup) (handled : Nat → Prop) : Prop :=
  (∀ entry ∈ d.canon, handled entry.1) ∧
  (∀ entry ∈ d.table, handled entry.2 ∧ d.canon.lookup entry.2 = some entry.2) ∧
  (d.table.map Prod.snd).Nodup

/-- The nodes handled by the deduplication of the first `count` records: the nodes of those
records. -/
def TypeGraph.handled (g : TypeGraph) (count : Nat) (id : Nat) : Prop :=
  ∃ index, index < count ∧ g.ids.lookup index = some id

/-- Modelled from the spec: a stream in which no record refers to a record that has not been
seen yet, except through an indirection kind. -/
def legal_stream (records : List TypeRecord) : Prop :=
  ∀ (index : Nat) (record : TypeRecord), records[index]? = some record →
    ∀ child ∈ record.children, child < index ∨ record.kind.is_indirection = true

/-! ## The construction tree, the baker and the output format -/

/-- Modelled from the spec: the baker is not in the source file.  The spec gives no width for a
scalar of the output file; offsets of the entry point are `U64`, so a scalar is written as the
given number of bytes, lowest byte first. -/
def le_bytes : Nat → Nat → String8
  | 0, _ => []
  | width + 1, value => value % 256 :: le_bytes width (value / 256)

/-- The number that a sequence of bytes holds, lowest byte first. -/
def le_value : String8 → Nat
  | [] => 0
  | byte :: rest => byte + 256 * le_value rest

/-- Modelled from the spec: a node of the construction tree, one of a scalar, a fixed byte
blob, an ordered list of nodes and an internal reference to another node.  The tree is not in
the source file; the target of a reference is named by its path from the root, the list of
child positions to follow. -/
inductive ConsNode where
  | scalar (value : Nat)
  | blob (bytes : String8)
  | list (children : List ConsNode)
  | ref (target : List Nat)
deriving Repr

mutual
/-- Modelled from the spec: pass 1 of the baker, the size of a node, computed bottom-up.  A
scalar and a resolved reference take eight bytes. -/
def ConsNode.size : ConsNode → Nat
  | .scalar _ => 8
  | .blob bytes => bytes.length
  | .list children => ConsNode.sizes children
  | .ref _ => 8
/-- Modelled from the spec: pass 1 of the baker, the size of a list of nodes. -/
def ConsNode.sizes : List ConsNode → Nat
  | [] => 0
  | child :: rest => child.size + ConsNode.sizes rest
end

/-- The node at a path. -/
def ConsNode.node_at : ConsNode → List Nat → Option ConsNode
  | node, [] => some node
  | .list children, i :: rest =>
    match children[i]? with
    | some child => child.node_at rest
    | none => none
  | _, _ :: _ => none

/-- Modelled from the spec: pass 1 of the baker, the offset assigned to the node at a path.
Nodes are laid out in emission order, the children of a list one after the other from the
offset of the list; a path that names no node of the tree has no offset. -/
def ConsNode.offset_at : ConsNode → Nat → List Nat → Option Nat
  | _, base, [] => some base
  | .list children, base, i :: rest =>
    match children[i]? with
    | some child => child.offset_at (base + ConsNode.sizes (children.take i)) rest
    | none => none
  | _, _, _ :: _ => none

/-- Modelled from the spec: the error of the baker. -/
inductive BakeError where
  | DanglingReference
deriving DecidableEq, Repr

mutual
/-- Modelled from the spec: pass 2 of the baker, which walks the tree in emission order and
writes bytes; for an internal reference it writes the offset that pass 1 assigned to the
target, and a target without an offset is a `DanglingReference`. -/
def ConsNode.emit (offsets : List Nat → Option Nat) : ConsNode → Except BakeError (List String8)
  | .scalar value => .ok [le_bytes 8 value]
  | .blob bytes => .ok [bytes]
  | .list children => ConsNode.emit_list offsets children
  | .ref target =>
    match offsets target with
    | some offset => .ok [le_bytes 8 offset]
    | none => .error BakeError.DanglingReference
/-- Modelled from the spec: pass 2 of the baker on a list of nodes. -/
def ConsNode.emit_list (offsets : List Nat → Option Nat) :
    List ConsNode → Except BakeError (List String8)
  | [] => .ok []
  | child :: rest =>
    match child.emit offsets with
    | .error e => .error e
    | .ok head =>
      match ConsNode.emit_list offsets rest with
      | .error e => .error e
      | .ok tail => .ok (head ++ tail)
end

mutual
/-- The targets of the internal references of a node, in emission order. -/
def ConsNode.targets : ConsNode → List (List Nat)
  | .scalar _ => []
  | .blob _ => []
  | .list children => ConsNode.targets_list children
  | .ref target => [target]
/-- The targets of the internal references of a list of nodes, in emission order. -/
def ConsNode.targets_list : List ConsNode → List (List Nat)
  | [] => []
  | child :: rest => child.targets ++ ConsNode.targets_list rest
end

/-- Modelled from the spec: a `BakedBlob`, the final flat byte sequence, here in the pieces
that `cons_bake_file` pushes onto `baked`, plus a table mapping every resolved internal
reference to its target offset. -/
structure BakedBlob where
  pieces : List String8
  table : List (List Nat × Nat)
deriving DecidableEq, Repr

/-- The bytes of a baked blob. -/
def BakedBlob.bytes (blob : BakedBlob) : String8 := blob.pieces.flatten

/-- Modelled from the spec: `cons_bake_file` is not in the source file.  Baking is two-pass:
pass 1 assigns offsets from offset zero, pass 2 emits the bytes. -/
def cons_bake (root : ConsNode) : Except BakeError BakedBlob :=
  match root.emit (root.offset_at 0) with
  | .error e => .error e
  | .ok pieces =>
    .ok ⟨pieces, root.targets.filterMap
      (fun target => (root.offset_at 0 target).map (fun offset => (target, offset)))⟩

/-- Modelled from the spec: a procedure or a variable after conversion: its name, the
identifier of its type, and its link-time offset, whose absence is recorded. -/
structure ConvertedSymbol where
  name : String8
  type_id : Nat
  address : Option Nat
deriving DecidableEq, Repr

/-- Modelled from the spec: a compilation unit after conversion, which owns its procedures and
variables.  Line tables are left out. -/
structure ConvertedUnit where
  procs : List ConvertedSymbol
  vars : List ConvertedSymbol
deriving DecidableEq, Repr

/-- Modelled from the spec: the result of `pdbconv_convert`, which is not in the source file:
the type nodes and the units.  A procedure or variable is keyed by its unit and its index in
the unit. -/
structure ConversionResult where
  types : TypeTable
  units : List ConvertedUnit

/-- The number of slots of the type-node table: one for every identifier of the graph. -/
def ConversionResult.type_count (out : ConversionResult) : Nat :=
  out.types.graph.nodes.length

/-- Modelled from the spec: the spec gives no value for the magic number of the output file;
this is `raddbg` followed by two zero bytes, read as a `U64`. -/
def cons_magic : Nat := 0x0000676264646172

/-- Modelled from the spec: the spec gives no value for the format version. -/
def cons_version : Nat := 1

/-- Modelled from the spec: the kind tag of a type node in the type-node table; the tag zero
marks a slot without a node. -/
def TypeKind.tag : TypeKind → Nat
  | .primitive => 1
  | .pointer => 2
  | .array => 3
  | .function => 4
  | .aggregate => 5
  | .enumeration => 6

/-- The kind of a kind tag. -/
def TypeKind.of_tag : Nat → Option TypeKind
  | 1 => some .primitive
  | 2 => some .pointer
  | 3 => some .array
  | 4 => some .function
  | 5 => some .aggregate
  | 6 => some .enumeration
  | _ => none

/-- Modelled from the spec: the stride of the records of the type-node table and of the tables
of a unit: five scalars. -/
def cons_stride : Nat := 40

/-- Modelled from the spec: the fixed-stride record of a slot of the type-node table: the kind
tag, the offset of the name in the string table, the size of the name, the number of children
and the offset of the child offsets in the index table. -/
def cons_type_record (id : Nat) : Option TypeNode → ConsNode
  | none => .list [.scalar 0, .scalar 0, .scalar 0, .scalar 0, .scalar 0]
  | some node =>
    .list [.scalar node.kind.tag, .ref [2, 0, id], .scalar node.name.length,
      .scalar node.children.length, .ref [4, id]]

/-- The name of a slot of the type-node table. -/
def cons_type_name : Option TypeNode → ConsNode
  | none => .blob []
  | some node => .blob node.name

/-- Modelled from the spec: the child offsets of a slot of the type-node table: for each child
the offset of the record of the child. -/
def cons_type_children : Option TypeNode → ConsNode
  | none => .list []
  | some node => .list (node.children.map (fun child => .ref [3, child]))

/-- Modelled from the spec: the fixed-stride record of a procedure or variable: the offset of
the name in the string table, the size of the name, the identifier of the type, whether there
is a link-time offset, and the link-time offset. -/
def cons_symbol_record (names : List Nat) (entry : Nat × ConvertedSymbol) : ConsNode :=
  .list [.ref (names ++ [entry.1]), .scalar entry.2.name.length, .scalar entry.2.type_id,
    .scalar (if entry.2.address.isSome then 1 else 0), .scalar (entry.2.address.getD 0)]

/-- The table of the procedures or of the variables of a unit. -/
def cons_symbol_table (names : List Nat) (symbols : List ConvertedSymbol) : ConsNode :=
  .list (symbols.enum.map (cons_symbol_record names))

/-- The names of the procedures or of the variables of a unit. -/
def cons_symbol_names (symbols : List ConvertedSymbol) : ConsNode :=
  .list (symbols.map (fun symbol => .blob symbol.name))

/-- The two tables of a unit. -/
def cons_unit (entry : Nat × ConvertedUnit) : ConsNode :=
  .list [cons_symbol_table [2, 1, entry.1, 0] entry.2.procs,
    cons_symbol_table [2, 1, entry.1, 1] entry.2.vars]

/-- The names of a unit. -/
def cons_unit_names (unit : ConvertedUnit) : ConsNode :=
  .list [cons_symbol_names unit.procs, cons_symbol_names unit.vars]

/-- Modelled from the spec: a section directory entry: kind tag, byte offset, byte length. -/
def cons_directory_entry (tag : Nat) (target : List Nat) (length : Nat) : ConsNode :=
  .list [.scalar tag, .ref target, .scalar length]

/-- The two section directory entries of a unit. -/
def cons_unit_entries (entry : Nat × ConvertedUnit) : List ConsNode :=
  [cons_directory_entry 4 [5, entry.1, 0] (cons_stride * entry.2.procs.length),
   cons_directory_entry 5 [5, entry.1, 1] (cons_stride * entry.2.vars.length)]

/-- The slots of the type-node table. -/
def ConversionResult.slots (out : ConversionResult) : List (Option TypeNode) :=
  (List.range out.type_count).map out.types.node

/-- The string table: the names of the type nodes, then the names of the units. -/
def cons_strings (out : ConversionResult) : ConsNode :=
  .list [.list (out.slots.map cons_type_name), .list (out.units.map cons_unit_names)]

/-- The type-node table. -/
def cons_types (out : ConversionResult) : ConsNode :=
  .list (out.slots.enum.map (fun entry => cons_type_record entry.1 entry.2))

/-- The index table. -/
def cons_index (out : ConversionResult) : ConsNode :=
  .list (out.slots.map cons_type_children)

/-- Modelled from the spec: the entries of the section directory: the string table, the
type-node table, the index table and, for every unit, its table of procedures and its table of
variables. -/
def cons_directory_entries (out : ConversionResult) : List ConsNode :=
  [cons_directory_entry 1 [2] (cons_strings out).size,
    cons_directory_entry 2 [3] (cons_stride * out.type_count),
    cons_directory_entry 3 [4] (cons_index out).size] ++
  out.units.enum.flatMap cons_unit_entries

/-- Modelled from the spec: the section directory. -/
def cons_directory (out : ConversionResult) : ConsNode :=
  .list (cons_directory_entries out)

/-- Modelled from the spec: the fixed header: magic, format version, section directory offset
and count. -/
def cons_header (out : ConversionResult) : ConsNode :=
  .list [.scalar cons_magic, .scalar cons_version, .ref [1],
    .scalar (3 + 2 * out.units.length)]

/-- Modelled from the spec: the construction tree that the conversion hands to the baker, the
field `root` of the result of `pdbconv_convert`: header, section directory and sections. -/
def cons_root (out : ConversionResult) : ConsNode :=
  .list [cons_header out, cons_directory out, cons_strings out, cons_types out,
    cons_index out, .list (out.units.enum.map cons_unit)]

/-- The bytes of a file from an offset on, when the file holds that many bytes there. -/
def read_bytes (file : String8) (offset size : Nat) : Option String8 :=
  if offset + size ≤ file.length then some ((file.drop offset).take size) else none

/-- The scalar of a file at an offset. -/
def read_u64 (file : String8) (offset : Nat) : Option Nat :=
  (read_bytes file offset 8).map le_value

/-- The scalars of a file from an offset on. -/
def read_u64s (file : String8) : Nat → Nat → Option (List Nat)
  | _, 0 => some []
  | offset, count + 1 =>
    match read_u64 file offset with
    | none => none
    | some value =>
      match read_u64s file (offset + 8) count with
      | none => none
      | some values => some (value :: values)

/-- A section of a file: kind tag, byte offset and byte length. -/
structure Section where
  tag : Nat
  offset : Nat
  length : Nat
deriving DecidableEq, Repr

/-- Modelled from the spec: the loader is an external component, known by the output format
only.  This is the entry of the section directory at an index, read after the header is
checked. -/
def reader_section (file : String8) (index : Nat) : Option Section :=
  match read_u64s file 0 4 with
  | some [magic, version, directory, count] =>
    if magic = cons_magic ∧ version = cons_version ∧ index < count then
      match read_u64s file (directory + 24 * index) 3 with
      | some [tag, offset, length] => some ⟨tag, offset, length⟩
      | _ => none
    else none
  | _ => none

/-- Modelled from the spec: the five scalars of the record at an index of an index-addressed
table with fixed stride. -/
def reader_record (file : String8) (table : Section) (index : Nat) : Option (List Nat) :=
  if cons_stride * (index + 1) ≤ table.length then
    read_u64s file (table.offset + cons_stride * index) 5
  else none

/-- Modelled from the spec: the type node of an identifier, read from a file: the record of
the identifier in the type-node table, the name from the string table, and the children, each
child offset turned back into the identifier of the record it points to. -/
def reader_type_node (file : String8) (id : Nat) : Option TypeNode :=
  match reader_section file 1 with
  | none => none
  | some table =>
    if table.tag = 2 then
      match reader_record file table id with
      | some [tag, name, size, count, children] =>
        match TypeKind.of_tag tag, read_bytes file name size, read_u64s file children count with
        | some kind, some bytes, some offsets =>
          some ⟨kind, bytes, offsets.map (fun offset => (offset - table.offset) / cons_stride)⟩
        | _, _, _ => none
      | _ => none
    else none

/-- Modelled from the spec: the symbol at an index of a table of a unit, read from a file. -/
def reader_symbol (file : String8) (slot tag index : Nat) : Option ConvertedSymbol :=
  match reader_section file slot with
  | none => none
  | some table =>
    if table.tag = tag then
      match reader_record file table index with
      | some [name, size, type_id, has_address, address] =>
        match read_bytes file name size with
        | some bytes => some ⟨bytes, type_id, if has_address = 0 then none else some address⟩
        | none => none
      | _ => none
    else none

/-- Modelled from the spec: the procedure of a unit at an index, read from a file. -/
def reader_procedure (file : String8) (unit index : Nat) : Option ConvertedSymbol :=
  reader_symbol file (3 + 2 * unit) 4 index

/-- Modelled from the spec: the variable of a unit at an index, read from a file. -/
def reader_variable (file : String8) (unit index : Nat) : Option ConvertedSymbol :=
  reader_symbol file (3 + 2 * unit + 1) 5 index

/-- The symbols of a conversion result, procedures and variables. -/
def ConversionResult.symbols (out : ConversionResult) : List ConvertedSymbol :=
  out.units.flatMap (fun unit => unit.procs ++ unit.vars)

/-- The file holds the given bytes at the given offset. -/
def holds_at (file : String8) (offset : Nat) (bytes : String8) : Prop :=
  ∃ before after, file = before ++ bytes ++ after ∧ before.length = offset

/-- The blob holds the tree: it has the size of the tree and holds, for every node of the tree,
the bytes of the node at the offset of the node. -/
def BakedBlob.holds (blob : BakedBlob) (root : ConsNode) : Prop :=
  blob.bytes.length = root.size ∧
  ∀ path node, root.node_at path = some node →
    ∃ offset part, root.offset_at 0 path = some offset ∧
      node.emit (root.offset_at 0) = .ok part ∧
      holds_at blob.bytes offset part.flatten ∧ offset + node.size ≤ root.size

/-- A conversion result whose type nodes name slots of the type-node table: the identifier of
every node and of every child of a node is below the number of slots. -/
def ConversionResult.wf (out : ConversionResult) : Prop :=
  ∀ entry ∈ out.types.dedup.table,
    entry.2 < out.type_count ∧
    ∀ child ∈ (out.types.dedup.encoding entry.1).children, child < out.type_count

/-- A conversion result that fits the scalars of the output file: the file is shorter than
`2 ^ 64` bytes, and the type identifier and the link-time offset of every symbol are below
`2 ^ 64`. -/
def ConversionResult.fits (out : ConversionResult) : Prop :=
  (cons_root out).size < 2 ^ 64 ∧
  ∀ symbol ∈ out.symbols, symbol.type_id < 2 ^ 64 ∧ symbol.address.getD 0 < 2 ^ 64

/-- The type nodes of the stream with the self-referential struct: the result of `convert_types`
on `example_self_struct`. -/
def example_types : TypeTable :=
  ⟨⟨[(1, 2), (2, 1), (0, 0)],
      [some ⟨TypeKind.primitive, str8_lit "int", []⟩,
       some ⟨TypeKind.aggregate, str8_lit "S", [0, 2]⟩,
       some ⟨TypeKind.pointer, [], [1]⟩]⟩,
    ⟨[(1, 1), (2, 2), (0, 0)],
      [(⟨TypeKind.aggregate, str8_lit "S", [0, 2]⟩, 1),
       (⟨TypeKind.pointer, [], [1]⟩, 2),
       (⟨TypeKind.primitive, str8_lit "int", []⟩, 0)]⟩⟩

/-- An example result: the type nodes of the stream with the self-referential struct, and one
unit with the procedure `main` and the variables `head`, without a link-time offset, and
`count`. -/
def example_result : ConversionResult :=
  ⟨example_types, [⟨[⟨str8_lit "main", 0, some 4096⟩],
    [⟨str8_lit "head", 2, none⟩, ⟨str8_lit "count", 0, some 8192⟩]⟩]⟩

/-! ## The hotkey block of `update_and_render` -/

/-- What the callees of the hotkey block hand back, besides those of the bind change block. -/
structure HotkeyWorld extends GfxWorld where
  /-- The function `df_window_from_os_handle`; `none` is the null pointer. -/
  df_window_from_os_handle : OS_Handle → Option DF_Window
  /-- The list `df_cmd_spec_list_from_binding(scratch.arena, binding)`: the specifications of
  its nodes, from `first` on. -/
  df_cmd_spec_list_from_binding : DF_Binding → List DF_CmdSpec
  /-- The flag `OS_EventFlag_Alt` of the OS layer, whose value is not in the source file. -/
  OS_EventFlag_Alt : Nat
  /-- The string `str8_from_32(scratch.arena, str32(&event->character, 1))`. -/
  str8_from_32 : Nat → String8
  /-- The specification `df_cmd_spec_from_core_cmd_kind(DF_CoreCmdKind_CommandFastPath)`. -/
  command_fast_path_cmd_spec : DF_CmdSpec
  /-- The specification `df_cmd_spec_from_core_cmd_kind(DF_CoreCmdKind_InsertText)`. -/
  insert_text_cmd_spec : DF_CmdSpec

/-- One call or store made by the hotkey block of `update_and_render`.  The slot `cmd_spec` of
the pushed parameters, which the parameters of the entry point do not carry, is the second
argument of `df_push_cmd__root`. -/
inductive HotkeyCall where
  | os_eat_event (event : OS_Event)
  | df_push_cmd__root (params : DF_CmdParams) (cmd_spec : Option DF_CmdSpec) (spec : DF_CmdSpec)
  | store_menu_bar_focus_press_started (window : DF_Window) (value : Nat)
  | df_gfx_request_frame
deriving DecidableEq, Repr

/-- The state after the hotkey block: the event list, the calls and stores made, in order, and
the event, if any, at which the block stores to `window->menu_bar_focus_press_started` with
`window` the null pointer.  The behaviour of the program is undefined from such a store on, so
the calls end there. -/
structure Hotkeys where
  events : List OS_Event
  calls : List HotkeyCall
  null_window_store : Option OS_Event
deriving DecidableEq, Repr

/-- The calls made before the rest of the loop runs. -/
def Hotkeys.after (calls : List HotkeyCall) (rest : Hotkeys) : Hotkeys :=
  { rest with calls := calls ++ rest.calls }

/-- The condition `spec_candidates.first != 0 && !df_cmd_spec_is_nil(spec_candidates.first->spec)`
with the specification `spec_candidates.first->spec` when it holds. -/
def hotkey_spec (candidates : List DF_CmdSpec) : Option DF_CmdSpec :=
  match candidates with
  | spec :: _ => if df_cmd_spec_is_nil spec then none else some spec
  | [] => none

/-- The loop `for(OS_Event *event = events.first, *next = 0; event != 0; event = next)` of the
hotkey block, whose body starts with `next = event->next;`.  The first list is the loop
variable `event`, the second is the event list `events`.  The value `hit_char` is computed and
not used. -/
def take_hotkeys_loop (h : HotkeyWorld) : List OS_Event → List OS_Event → Hotkeys
  | [], events => ⟨events, [], none⟩
  | e :: next, events =>
    let window := h.df_window_from_os_handle e.window
    let params :=
      match window with
      | some w => df_cmd_params_from_window w
      | none => df_cmd_params_from_gfx
    if e.kind = OS_EventKind.Press then
      match hotkey_spec (h.df_cmd_spec_list_from_binding ⟨e.key, e.flags⟩) with
      | some spec =>
        let eaten := h.os_eat_event events e
        let calls :=
          [HotkeyCall.os_eat_event e,
           HotkeyCall.df_push_cmd__root params (some spec) h.command_fast_path_cmd_spec]
        if e.flags &&& h.OS_EventFlag_Alt ≠ 0 then
          match window with
          | some w =>
            (take_hotkeys_loop h next eaten).after
              (calls ++ [HotkeyCall.store_menu_bar_focus_press_started w 0,
                HotkeyCall.df_gfx_request_frame])
          | none => ⟨eaten, calls, some e⟩
        else
          (take_hotkeys_loop h next eaten).after (calls ++ [HotkeyCall.df_gfx_request_frame])
      | none => (take_hotkeys_loop h next events).after [HotkeyCall.df_gfx_request_frame]
    else if e.kind = OS_EventKind.Text then
      (take_hotkeys_loop h next events).after
        [HotkeyCall.df_push_cmd__root
           { params with string := some (h.str8_from_32 e.character) } none
           h.insert_text_cmd_spec,
         HotkeyCall.df_gfx_request_frame]
    else take_hotkeys_loop h next events

/-- The hotkey block of `update_and_render`. -/
def take_hotkeys (h : HotkeyWorld) (events : List OS_Event) : Hotkeys :=
  take_hotkeys_loop h events events

/-- Whether the hotkey block, at this event, reaches the store to
`window->menu_bar_focus_press_started`: the event is a press that matches a bound command and
has the flag `OS_EventFlag_Alt`. -/
def reaches_window_store (h : HotkeyWorld) (e : OS_Event) : Bool :=
  e.kind == OS_EventKind.Press &&
  (hotkey_spec (h.df_cmd_spec_list_from_binding ⟨e.key, e.flags⟩)).isSome &&
  (e.flags &&& h.OS_EventFlag_Alt != 0)

/-- A frontend for the examples, on the OS layer of the examples: one window, of the OS window
1; the key 70 with the modifier Alt is bound to the command 30; the flag `OS_EventFlag_Alt` is
the third bit. -/
def example_hotkey_world : HotkeyWorld where
  toGfxWorld := example_gfx_world
  df_window_from_os_handle := fun handle => if handle.u64 = 1 then some ⟨⟨1⟩, true⟩ else none
  df_cmd_spec_list_from_binding := fun binding =>
    if binding = ⟨OS_Key.Other 70, 4⟩ then [30] else []
  OS_EventFlag_Alt := 4
  str8_from_32 := fun character => [character]
  command_fast_path_cmd_spec := 40
  insert_text_cmd_spec := 41

/-- A press of the key 70 with the modifier Alt in the OS window 2, which is not a window of the
frontend. -/
def example_alt_press : OS_Event :=
  ⟨OS_EventKind.Press, OS_Key.Other 70, 4, ⟨2⟩, 0, false⟩

/-- The same press in the OS window 1, the window of the frontend. -/
def example_alt_press_in_window : OS_Event :=
  ⟨OS_EventKind.Press, OS_Key.Other 70, 4, ⟨1⟩, 0, false⟩

/-- A stream with two anonymous structs of the same structure, each with one field, a pointer
to the struct itself; each pointer record comes before its struct record. -/
def example_twin_structs : List TypeRecord :=
  [⟨TypeKind.pointer, [], [1]⟩,
   ⟨TypeKind.aggregate, [], [0]⟩,
   ⟨TypeKind.pointer, [], [3]⟩,
   ⟨TypeKind.aggregate, [], [2]⟩]

/-! ## Facts about traces -/

theorem file_writes_append (a b : List Event) :
    file_writes (a ++ b) = file_writes a ++ file_writes b := by
  simp [file_writes]

theorem file_writes_cons_write (out_file : OS_Handle) (range : Rng1U64) (data : String8)
    (rest : List Event) :
    file_writes (Event.os_file_write out_file range data :: rest) =
      (range, data) :: file_writes rest := by
  simp [file_writes, as_file_write]

theorem file_after_append (f : File) (a b : List Event) :
    file_after f (a ++ b) = file_after (file_after f a) b := by
  simp [file_after, file_writes_append]

theorem as_file_write_eq_none (e : Event) (h : is_os_file_write e = false) :
    as_file_write e = none := by
  cases e <;> first | rfl | simp [is_os_file_write] at h

theorem file_writes_of_no_write (a : List Event)
    (h : ∀ e ∈ a, is_os_file_write e = false) : file_writes a = [] := by
  simp only [file_writes, List.filterMap_eq_nil_iff]
  exact fun e he => as_file_write_eq_none e (h e he)

theorem file_after_of_no_write (f : File) (a : List Event)
    (h : ∀ e ∈ a, is_os_file_write e = false) : file_after f a = f := by
  simp [file_after, file_writes_of_no_write a h]

theorem prelude_no_write (w : World) (cmdln : CmdLine) :
    ∀ e ∈ prelude_events w cmdln, is_os_file_write e = false := by
  intro e he
  unfold prelude_events at he
  by_cases hc : cmdln.has_flag (str8_lit "capture") = true
  · simp [hc] at he
    rcases he with rfl | rfl | rfl <;> rfl
  · simp [hc] at he
    rcases he with rfl | rfl <;> rfl

theorem os_handle_match_zero (h : OS_Handle) :
    os_handle_match h os_handle_zero = true ↔ h = os_handle_zero := by
  cases h with
  | mk n => simp [os_handle_match, os_handle_zero]

theorem u64_of_lt (n : Nat) (h : n < 2 ^ 64) : u64 n = n :=
  Nat.mod_eq_of_lt h

theorem total_size_cons (first : String8) (rest : List String8) :
    total_size (first :: rest) = first.length + total_size rest := by
  simp [total_size]

/-- The write loop, while no offset overflows: node after node, each at the offset where the
previous one ended. -/
theorem file_writes_bake_write_loop (out_file : OS_Handle) (off : Nat) (list : List String8)
    (h : off + total_size list < 2 ^ 64) (i : Nat) (node : String8)
    (hi : list[i]? = some node) :
    (file_writes (bake_write_loop out_file off list))[i]? =
      some (⟨off + node_offset list i, off + node_offset list i + node.length⟩, node) := by
  induction list generalizing off i with
  | nil => simp at hi
  | cons first rest ih =>
    rw [total_size_cons] at h
    have hmod : u64 (off + first.length) = off + first.length := u64_of_lt _ (by omega)
    cases i with
    | zero =>
      simp at hi
      subst hi
      simp [bake_write_loop, file_writes_cons_write, hmod, r1u64, node_offset, total_size]
    | succ j =>
      simp at hi
      have := ih (off + first.length) (by omega) j hi
      simp only [bake_write_loop, file_writes_cons_write, hmod, List.getElem?_cons_succ, this,
        node_offset, List.take_succ_cons, total_size_cons]
      simp only [Nat.add_assoc]

theorem length_file_writes_bake_write_loop (out_file : OS_Handle) (off : Nat)
    (list : List String8) :
    (file_writes (bake_write_loop out_file off list)).length = list.length := by
  induction list generalizing off with
  | nil => rfl
  | cons first rest ih => simp [bake_write_loop, file_writes_cons_write, ih]

theorem file_after_cons_write (f : File) (out_file : OS_Handle) (range : Rng1U64)
    (data : String8) (rest : List Event) :
    file_after f (Event.os_file_write out_file range data :: rest) =
      file_after (write_range f range data) rest := by
  simp [file_after, file_writes_cons_write]

/-- The file after the write loop, while no offset overflows: the concatenation of the list,
from offset `off` on. -/
theorem file_after_bake_write_loop (out_file : OS_Handle) (off : Nat) (list : List String8)
    (h : off + total_size list < 2 ^ 64) (f : File) (k : Nat) :
    file_after f (bake_write_loop out_file off list) k =
      if off ≤ k ∧ k < off + total_size list then list.flatten[k - off]? else f k := by
  induction list generalizing off f with
  | nil =>
    have h0 : ¬ (off ≤ k ∧ k < off + total_size []) := by simp [total_size]
    simp [bake_write_loop, file_after, file_writes, h0]
  | cons first rest ih =>
    rw [total_size_cons] at h
    have hmod : u64 (off + first.length) = off + first.length := u64_of_lt _ (by omega)
    have hmin : (r1u64 off (off + first.length)).min = off := by simp [r1u64]
    have hmax : (r1u64 off (off + first.length)).max = off + first.length := by simp [r1u64]
    have hrest : off + first.length + total_size rest < 2 ^ 64 := by omega
    simp only [bake_write_loop, file_after_cons_write, hmod]
    rw [ih _ hrest]
    simp only [total_size_cons, List.flatten_cons, write_range, hmin, hmax]
    by_cases h1 : off + first.length ≤ k
    · have h6 : ¬ (off ≤ k ∧ k < off + first.length) := by omega
      by_cases h2 : k < off + first.length + total_size rest
      · have h3 : first.length ≤ k - off := by omega
        have h4 : off ≤ k ∧ k < off + (first.length + total_size rest) := by omega
        have h5 : off + first.length ≤ k ∧ k < off + first.length + total_size rest := by omega
        rw [if_pos h5, if_pos h4, List.getElem?_append_right h3]
        congr 1
        omega
      · have h4 : ¬ (off ≤ k ∧ k < off + (first.length + total_size rest)) := by omega
        have h5 : ¬ (off + first.length ≤ k ∧ k < off + first.length + total_size rest) := by
          omega
        rw [if_neg h5, if_neg h4, if_neg h6]
    · have h5 : ¬ (off + first.length ≤ k ∧ k < off + first.length + total_size rest) := by
        omega
      rw [if_neg h5]
      by_cases h0 : off ≤ k
      · have h4 : off ≤ k ∧ k < off + (first.length + total_size rest) := by omega
        have h6 : off ≤ k ∧ k < off + first.length := by omega
        have h7 : k - off < first.length := by omega
        rw [if_pos h4, if_pos h6, List.getElem?_append_left h7, List.getElem?_eq_getElem h7]
      · have h4 : ¬ (off ≤ k ∧ k < off + (first.length + total_size rest)) := by omega
        have h6 : ¬ (off ≤ k ∧ k < off + first.length) := by omega
        rw [if_neg h4, if_neg h6]

/-! ## Converter mode -/

theorem entry_point_converter (w : World) (cmdln : CmdLine)
    (hmode : exec_mode cmdln = ExecMode.Converter) :
    (entry_point w cmdln).events = prelude_events w cmdln ++ converter_events w cmdln := by
  simp [entry_point, hmode]

/-- The calls of converter mode when the output file opens, conversion returns a result and
the output name is not empty. -/
theorem converter_events_of_success (w : World) (cmdln : CmdLine) (out : PDBCONV_Out)
    (hopen : w.os_file_open [OS_AccessFlag.Read, OS_AccessFlag.Write]
      (w.pdb_convert_params_from_cmd_line cmdln).output_name ≠ os_handle_zero)
    (hout : w.pdbconv_convert (w.pdb_convert_params_from_cmd_line cmdln) = some out)
    (hname : (w.pdb_convert_params_from_cmd_line cmdln).output_name.length > 0) :
    converter_events w cmdln =
      [Event.pdb_convert_params_from_cmd_line,
       Event.os_file_open [OS_AccessFlag.Read, OS_AccessFlag.Write]
        (w.pdb_convert_params_from_cmd_line cmdln).output_name,
       Event.pdbconv_convert (w.pdb_convert_params_from_cmd_line cmdln),
       Event.cons_bake_file out.root] ++
      bake_write_loop (w.os_file_open [OS_AccessFlag.Read, OS_AccessFlag.Write]
        (w.pdb_convert_params_from_cmd_line cmdln).output_name) 0 (w.cons_bake_file out.root) ++
      [Event.os_file_close (w.os_file_open [OS_AccessFlag.Read, OS_AccessFlag.Write]
        (w.pdb_convert_params_from_cmd_line cmdln).output_name)] := by
  have hmatch : os_handle_match (w.os_file_open [OS_AccessFlag.Read, OS_AccessFlag.Write]
      (w.pdb_convert_params_from_cmd_line cmdln).output_name) os_handle_zero = false := by
    rw [Bool.eq_false_iff]
    exact fun h => hopen ((os_handle_match_zero _).1 h)
  simp [converter_events, hmatch, hout, hname]

/-- C1: in converter mode, when `pdbconv_convert` is reached and returns a result and the output
name is not empty, there is one `os_file_write` per node of the list produced by
`cons_bake_file`, in list order; node `i` is written at the range from `off_i` to
`off_i + size_i`, where `off_0 = 0` and `off_(i+1) = off_i + size_i`; and after the run byte `k`
of the concatenation of the baked list is at file offset `k`, for every `k` below the total
baked size.  (The total baked size is below `2 ^ 64`, as for every list held in memory.) -/
theorem converter_writes_baked_nodes_contiguously (w : World) (cmdln : CmdLine)
    (out : PDBCONV_Out)
    (hmode : exec_mode cmdln = ExecMode.Converter)
    (hopen : w.os_file_open [OS_AccessFlag.Read, OS_AccessFlag.Write]
      (w.pdb_convert_params_from_cmd_line cmdln).output_name ≠ os_handle_zero)
    (hout : w.pdbconv_convert (w.pdb_convert_params_from_cmd_line cmdln) = some out)
    (hname : (w.pdb_convert_params_from_cmd_line cmdln).output_name.length > 0)
    (hsize : total_size (w.cons_bake_file out.root) < 2 ^ 64) :
    (file_writes (entry_point w cmdln).events).length = (w.cons_bake_file out.root).length ∧
    (∀ (i : Nat) (node : String8), (w.cons_bake_file out.root)[i]? = some node →
      (file_writes (entry_point w cmdln).events)[i]? =
        some (⟨node_offset (w.cons_bake_file out.root) i,
               node_offset (w.cons_bake_file out.root) i + node.length⟩, node) ∧
      node_offset (w.cons_bake_file out.root) (i + 1) =
        node_offset (w.cons_bake_file out.root) i + node.length) ∧
    node_offset (w.cons_bake_file out.root) 0 = 0 ∧
    (∀ (f : File) (k : Nat) (hk : k < (w.cons_bake_file out.root).flatten.length),
      file_after f (entry_point w cmdln).events k =
        some ((w.cons_bake_file out.root).flatten[k])) := by
  have hev := entry_point_converter w cmdln hmode
  rw [converter_events_of_success w cmdln out hopen hout hname] at hev
  have hw : file_writes (entry_point w cmdln).events =
      file_writes (bake_write_loop (w.os_file_open [OS_AccessFlag.Read, OS_AccessFlag.Write]
        (w.pdb_convert_params_from_cmd_line cmdln).output_name) 0
        (w.cons_bake_file out.root)) := by
    rw [hev, file_writes_append, file_writes_append, file_writes_append,
      file_writes_of_no_write _ (prelude_no_write w cmdln)]
    simp [file_writes, as_file_write]
  have hsize0 : 0 + total_size (w.cons_bake_file out.root) < 2 ^ 64 := by omega
  refine ⟨?_, ?_, ?_, ?_⟩
  · rw [hw, length_file_writes_bake_write_loop]
  · intro i node hi
    constructor
    · rw [hw, file_writes_bake_write_loop _ 0 _ hsize0 i node hi]
      simp
    · have hlt : i < (w.cons_bake_file out.root).length := by
        rcases List.getElem?_eq_some_iff.1 hi with ⟨h, _⟩
        exact h
      have hnode : (w.cons_bake_file out.root)[i] = node := by
        rcases List.getElem?_eq_some_iff.1 hi with ⟨_, h⟩
        exact h
      simp [node_offset, total_size, List.take_succ, List.getElem?_eq_getElem hlt, hnode]
  · simp [node_offset, total_size]
  · intro f k hk
    have hk2 : 0 ≤ k ∧ k < 0 + total_size (w.cons_bake_file out.root) := by
      simp [total_size, List.length_flatten] at hk ⊢
      exact hk
    have hfa : file_after f (entry_point w cmdln).events =
        file_after f (bake_write_loop (w.os_file_open [OS_AccessFlag.Read, OS_AccessFlag.Write]
          (w.pdb_convert_params_from_cmd_line cmdln).output_name) 0
          (w.cons_bake_file out.root)) := by
      simp only [file_after, hw]
    rw [hfa, file_after_bake_write_loop _ 0 _ hsize0 f k, if_pos hk2]
    simp [List.getElem?_eq_getElem hk]

/-- C1, on an example: three baked nodes of sizes 2, 1 and 3. -/
theorem converter_writes_baked_nodes_contiguously_witness :
    (exec_mode convert_cmdln = ExecMode.Converter ∧
     example_world.os_file_open [OS_AccessFlag.Read, OS_AccessFlag.Write]
      (example_world.pdb_convert_params_from_cmd_line convert_cmdln).output_name
        ≠ os_handle_zero ∧
     example_world.pdbconv_convert (example_world.pdb_convert_params_from_cmd_line convert_cmdln)
        = some ⟨⟨1⟩⟩ ∧
     (example_world.pdb_convert_params_from_cmd_line convert_cmdln).output_name.length > 0 ∧
     total_size (example_world.cons_bake_file ⟨1⟩) < 2 ^ 64) ∧
    file_writes (entry_point example_world convert_cmdln).events =
      [(⟨0, 2⟩, [1, 2]), (⟨2, 3⟩, [3]), (⟨3, 6⟩, [4, 5, 6])] ∧
    (file_writes (entry_point example_world convert_cmdln).events).length = 3 :=
  ⟨⟨by decide, by decide, by decide, by decide, by decide⟩, by decide,
    (converter_writes_baked_nodes_contiguously example_world convert_cmdln ⟨⟨1⟩⟩
      (by decide) (by decide) (by decide) (by decide) (by decide)).1⟩

theorem mem_prelude_events (w : World) (cmdln : CmdLine) (e : Event)
    (he : e ∈ prelude_events w cmdln) :
    e = Event.os_init ∨ e = Event.ProfBeginCapture ∨
      e = Event.os_make_directory (user_data_folder w) := by
  unfold prelude_events at he
  by_cases hc : cmdln.has_flag (str8_lit "capture") = true
  · simp [hc] at he
    exact he
  · simp [hc] at he
    rcases he with h | h
    · exact Or.inl h
    · exact Or.inr (Or.inr h)

/-- The calls of converter mode when the output file does not open. -/
theorem converter_events_of_not_open (w : World) (cmdln : CmdLine)
    (hopen : w.os_file_open [OS_AccessFlag.Read, OS_AccessFlag.Write]
      (w.pdb_convert_params_from_cmd_line cmdln).output_name = os_handle_zero) :
    converter_events w cmdln =
      [Event.pdb_convert_params_from_cmd_line,
       Event.os_file_open [OS_AccessFlag.Read, OS_AccessFlag.Write]
        (w.pdb_convert_params_from_cmd_line cmdln).output_name,
       Event.os_file_close os_handle_zero] := by
  have hmatch : os_handle_match os_handle_zero os_handle_zero = true := by decide
  simp [converter_events, hopen, hmatch]

/-- The calls of converter mode when the output file opens and either conversion returns no
result or the output name is empty. -/
theorem converter_events_of_no_bake (w : World) (cmdln : CmdLine)
    (hopen : w.os_file_open [OS_AccessFlag.Read, OS_AccessFlag.Write]
      (w.pdb_convert_params_from_cmd_line cmdln).output_name ≠ os_handle_zero)
    (hfail : w.pdbconv_convert (w.pdb_convert_params_from_cmd_line cmdln) = none ∨
      (w.pdb_convert_params_from_cmd_line cmdln).output_name.length = 0) :
    converter_events w cmdln =
      [Event.pdb_convert_params_from_cmd_line,
       Event.os_file_open [OS_AccessFlag.Read, OS_AccessFlag.Write]
        (w.pdb_convert_params_from_cmd_line cmdln).output_name,
       Event.pdbconv_convert (w.pdb_convert_params_from_cmd_line cmdln),
       Event.os_file_close (w.os_file_open [OS_AccessFlag.Read, OS_AccessFlag.Write]
        (w.pdb_convert_params_from_cmd_line cmdln).output_name)] := by
  have hmatch : os_handle_match (w.os_file_open [OS_AccessFlag.Read, OS_AccessFlag.Write]
      (w.pdb_convert_params_from_cmd_line cmdln).output_name) os_handle_zero = false := by
    rw [Bool.eq_false_iff]
    exact fun h => hopen ((os_handle_match_zero _).1 h)
  rcases hfail with hnone | hname
  · simp [converter_events, hmatch, hnone]
  · cases hout : w.pdbconv_convert (w.pdb_convert_params_from_cmd_line cmdln) with
    | none => simp [converter_events, hmatch, hout]
    | some out => simp [converter_events, hmatch, hout, hname]

/-- C2: in converter mode, when there is no valid output path (the output name is empty, which
no file system opens, or the output file cannot be opened), neither `pdbconv_convert` nor
`cons_bake_file` is called. -/
theorem converter_no_valid_output_no_parsing (w : World) (cmdln : CmdLine)
    (hmode : exec_mode cmdln = ExecMode.Converter)
    (hos : w.os_file_open [OS_AccessFlag.Read, OS_AccessFlag.Write] [] = os_handle_zero)
    (hbad : (w.pdb_convert_params_from_cmd_line cmdln).output_name = [] ∨
      w.os_file_open [OS_AccessFlag.Read, OS_AccessFlag.Write]
        (w.pdb_convert_params_from_cmd_line cmdln).output_name = os_handle_zero) :
    ∀ e ∈ (entry_point w cmdln).events,
      is_pdbconv_convert e = false ∧ is_cons_bake_file e = false := by
  have hzero : w.os_file_open [OS_AccessFlag.Read, OS_AccessFlag.Write]
      (w.pdb_convert_params_from_cmd_line cmdln).output_name = os_handle_zero := by
    rcases hbad with hempty | hz
    · rw [hempty]; exact hos
    · exact hz
  intro e he
  rw [entry_point_converter w cmdln hmode, converter_events_of_not_open w cmdln hzero,
    List.mem_append] at he
  rcases he with he | he
  · rcases mem_prelude_events w cmdln e he with rfl | rfl | rfl <;> exact ⟨rfl, rfl⟩
  · simp at he
    rcases he with rfl | rfl | rfl <;> exact ⟨rfl, rfl⟩

/-- C2, on an example: a converter command line without an output name. -/
theorem converter_no_valid_output_no_parsing_witness :
    (exec_mode convert_cmdln_no_out = ExecMode.Converter ∧
     example_world.os_file_open [OS_AccessFlag.Read, OS_AccessFlag.Write] [] = os_handle_zero ∧
     (example_world.pdb_convert_params_from_cmd_line convert_cmdln_no_out).output_name = []) ∧
    ∀ e ∈ (entry_point example_world convert_cmdln_no_out).events,
      is_pdbconv_convert e = false ∧ is_cons_bake_file e = false :=
  ⟨⟨by decide, by decide, by decide⟩,
    converter_no_valid_output_no_parsing example_world convert_cmdln_no_out
      (by decide) (by decide) (Or.inl (by decide))⟩

/-- C3, refuted as stated: a converter run whose output file cannot be opened, and one in which
`pdbconv_convert` returns no result, both end with exit status zero. -/
theorem converter_exit_status_counterexample :
    exec_mode convert_cmdln_no_out = ExecMode.Converter ∧
    example_world.os_file_open [OS_AccessFlag.Read, OS_AccessFlag.Write]
      (example_world.pdb_convert_params_from_cmd_line convert_cmdln_no_out).output_name
        = os_handle_zero ∧
    ¬ ((main example_world convert_cmdln_no_out).2 ≠ 0) ∧
    ¬ ((WinMain example_world convert_cmdln_no_out none).2 ≠ 0) ∧
    exec_mode convert_cmdln_no_pdb = ExecMode.Converter ∧
    example_world.pdbconv_convert
      (example_world.pdb_convert_params_from_cmd_line convert_cmdln_no_pdb) = none ∧
    Event.pdbconv_convert (example_world.pdb_convert_params_from_cmd_line convert_cmdln_no_pdb)
      ∈ (entry_point example_world convert_cmdln_no_pdb).events ∧
    ¬ ((main example_world convert_cmdln_no_pdb).2 ≠ 0) := by
  refine ⟨by decide, by decide, by decide, by decide, by decide, by decide, by decide, by decide⟩

/-- C3, amended: the exit status does not depend on the outcome of the conversion.  `main`
returns zero on every run; `WinMain` returns zero whenever `entry_point` returns, and the
process exits with status one exactly when a structured exception was raised inside
`entry_point`. -/
theorem exit_status_ignores_conversion_outcome (w : World) (cmdln : CmdLine) :
    (main w cmdln).2 = 0 ∧ (main w cmdln).1.events = (entry_point w cmdln).events ∧
    (WinMain w cmdln none).2 = 0 ∧
    (WinMain w cmdln none).1.events = (entry_point w cmdln).events ∧
    ∀ completed : Nat, (WinMain w cmdln (some completed)).2 = 1 := by
  refine ⟨rfl, rfl, rfl, rfl, fun _ => rfl⟩

/-- A converter run without a call of `pdbconv_convert` is one whose output file did not
open. -/
theorem not_open_of_no_pdbconv_convert (w : World) (cmdln : CmdLine)
    (hmode : exec_mode cmdln = ExecMode.Converter)
    (h : ∀ e ∈ (entry_point w cmdln).events, is_pdbconv_convert e = false) :
    w.os_file_open [OS_AccessFlag.Read, OS_AccessFlag.Write]
      (w.pdb_convert_params_from_cmd_line cmdln).output_name = os_handle_zero := by
  by_contra hopen
  have hmatch : os_handle_match (w.os_file_open [OS_AccessFlag.Read, OS_AccessFlag.Write]
      (w.pdb_convert_params_from_cmd_line cmdln).output_name) os_handle_zero = false := by
    rw [Bool.eq_false_iff]
    exact fun h => hopen ((os_handle_match_zero _).1 h)
  have hmem : Event.pdbconv_convert (w.pdb_convert_params_from_cmd_line cmdln) ∈
      (entry_point w cmdln).events := by
    rw [entry_point_converter w cmdln hmode]
    simp [converter_events, hmatch]
  have := h _ hmem
  simp [is_pdbconv_convert] at this

/-- The converter writes nothing and bakes nothing when the output file does not open, when
conversion returns no result and when the output name is empty. -/
theorem converter_no_write_of_failure (w : World) (cmdln : CmdLine)
    (hmode : exec_mode cmdln = ExecMode.Converter)
    (hfail : w.os_file_open [OS_AccessFlag.Read, OS_AccessFlag.Write]
        (w.pdb_convert_params_from_cmd_line cmdln).output_name = os_handle_zero ∨
      w.pdbconv_convert (w.pdb_convert_params_from_cmd_line cmdln) = none ∨
      (w.pdb_convert_params_from_cmd_line cmdln).output_name.length = 0) :
    ∀ e ∈ (entry_point w cmdln).events,
      is_os_file_write e = false ∧ is_cons_bake_file e = false := by
  intro e he
  rw [entry_point_converter w cmdln hmode, List.mem_append] at he
  rcases he with he | he
  · rcases mem_prelude_events w cmdln e he with rfl | rfl | rfl <;> exact ⟨rfl, rfl⟩
  · by_cases hopen : w.os_file_open [OS_AccessFlag.Read, OS_AccessFlag.Write]
        (w.pdb_convert_params_from_cmd_line cmdln).output_name = os_handle_zero
    · rw [converter_events_of_not_open w cmdln hopen] at he
      simp at he
      rcases he with rfl | rfl | rfl <;> exact ⟨rfl, rfl⟩
    · have hfail2 : w.pdbconv_convert (w.pdb_convert_params_from_cmd_line cmdln) = none ∨
          (w.pdb_convert_params_from_cmd_line cmdln).output_name.length = 0 := by
        rcases hfail with h | h | h
        · exact absurd h hopen
        · exact Or.inl h
        · exact Or.inr h
      rw [converter_events_of_no_bake w cmdln hopen hfail2] at he
      simp at he
      rcases he with rfl | rfl | rfl | rfl <;> exact ⟨rfl, rfl⟩

/-- C4: in converter mode, when conversion fails (`pdbconv_convert` is not called, or it returns
no result), `os_file_write` is called zero times, the file is left as it was, and
`cons_bake_file` is not called. -/
theorem converter_failure_writes_nothing (w : World) (cmdln : CmdLine)
    (hmode : exec_mode cmdln = ExecMode.Converter)
    (hfail : (∀ e ∈ (entry_point w cmdln).events, is_pdbconv_convert e = false) ∨
      w.pdbconv_convert (w.pdb_convert_params_from_cmd_line cmdln) = none) :
    (file_writes (entry_point w cmdln).events).length = 0 ∧
    (∀ e ∈ (entry_point w cmdln).events, is_os_file_write e = false) ∧
    (∀ f : File, file_after f (entry_point w cmdln).events = f) ∧
    (∀ e ∈ (entry_point w cmdln).events, is_cons_bake_file e = false) := by
  have hall := converter_no_write_of_failure w cmdln hmode
    (hfail.elim (fun h => Or.inl (not_open_of_no_pdbconv_convert w cmdln hmode h))
      (fun h => Or.inr (Or.inl h)))
  have hnw : ∀ e ∈ (entry_point w cmdln).events, is_os_file_write e = false :=
    fun e he => (hall e he).1
  refine ⟨?_, hnw, ?_, fun e he => (hall e he).2⟩
  · rw [file_writes_of_no_write _ hnw]; rfl
  · exact fun f => file_after_of_no_write f _ hnw

/-- C4, on an example: conversion returns no result. -/
theorem converter_failure_writes_nothing_witness :
    (exec_mode convert_cmdln_no_pdb = ExecMode.Converter ∧
     example_world.pdbconv_convert
      (example_world.pdb_convert_params_from_cmd_line convert_cmdln_no_pdb) = none) ∧
    (file_writes (entry_point example_world convert_cmdln_no_pdb).events).length = 0 :=
  ⟨⟨by decide, by decide⟩,
    (converter_failure_writes_nothing example_world convert_cmdln_no_pdb (by decide)
      (Or.inr (by decide))).1⟩

theorem mem_bake_write_loop (out_file : OS_Handle) (off : Nat) (list : List String8)
    (e : Event) (he : e ∈ bake_write_loop out_file off list) :
    ∃ range data, e = Event.os_file_write out_file range data := by
  induction list generalizing off with
  | nil => simp [bake_write_loop] at he
  | cons first rest ih =>
    simp only [bake_write_loop, List.mem_cons] at he
    rcases he with rfl | he
    · exact ⟨_, _, rfl⟩
    · exact ih _ he

theorem converter_events_eq_open_append (w : World) (cmdln : CmdLine) :
    converter_events w cmdln =
      [Event.pdb_convert_params_from_cmd_line,
       Event.os_file_open [OS_AccessFlag.Read, OS_AccessFlag.Write]
        (w.pdb_convert_params_from_cmd_line cmdln).output_name] ++
      converter_events_after_open w cmdln := by
  simp [converter_events_after_open, converter_events]

theorem mem_converter_events_after_open (w : World) (cmdln : CmdLine) (e : Event)
    (he : e ∈ converter_events_after_open w cmdln) :
    e = Event.pdbconv_convert (w.pdb_convert_params_from_cmd_line cmdln) ∨
    (∃ root, e = Event.cons_bake_file root) ∨
    (∃ range data, e = Event.os_file_write (w.os_file_open
      [OS_AccessFlag.Read, OS_AccessFlag.Write]
      (w.pdb_convert_params_from_cmd_line cmdln).output_name) range data) ∨
    e = Event.os_file_close (w.os_file_open [OS_AccessFlag.Read, OS_AccessFlag.Write]
      (w.pdb_convert_params_from_cmd_line cmdln).output_name) := by
  by_cases hopen : w.os_file_open [OS_AccessFlag.Read, OS_AccessFlag.Write]
      (w.pdb_convert_params_from_cmd_line cmdln).output_name = os_handle_zero
  · rw [converter_events_after_open, converter_events_of_not_open w cmdln hopen] at he
    simp at he
    rw [hopen]
    exact Or.inr (Or.inr (Or.inr he))
  · cases hout : w.pdbconv_convert (w.pdb_convert_params_from_cmd_line cmdln) with
    | none =>
      rw [converter_events_after_open,
        converter_events_of_no_bake w cmdln hopen (Or.inl hout)] at he
      simp at he
      rcases he with rfl | rfl
      · exact Or.inl rfl
      · exact Or.inr (Or.inr (Or.inr rfl))
    | some out =>
      by_cases hname : (w.pdb_convert_params_from_cmd_line cmdln).output_name.length = 0
      · rw [converter_events_after_open,
          converter_events_of_no_bake w cmdln hopen (Or.inr hname)] at he
        simp at he
        rcases he with rfl | rfl
        · exact Or.inl rfl
        · exact Or.inr (Or.inr (Or.inr rfl))
      · rw [converter_events_after_open,
          converter_events_of_success w cmdln out hopen hout (by omega)] at he
        simp at he
        rcases he with rfl | rfl | he | rfl
        · exact Or.inl rfl
        · exact Or.inr (Or.inl ⟨_, rfl⟩)
        · exact Or.inr (Or.inr (Or.inl (mem_bake_write_loop _ _ _ e he)))
        · exact Or.inr (Or.inr (Or.inr rfl))

/-- C5, refuted as stated: in a run in which conversion returns no result, the file at the
user-given output path `a.rdi` is opened for reading and writing, before `pdbconv_convert` is
called. -/
theorem converter_opens_output_first_counterexample :
    (example_world.pdb_convert_params_from_cmd_line convert_cmdln_no_pdb).output_name
      = str8_lit "a.rdi" ∧
    example_world.pdbconv_convert
      (example_world.pdb_convert_params_from_cmd_line convert_cmdln_no_pdb) = none ∧
    (entry_point example_world convert_cmdln_no_pdb).events =
      [Event.os_init,
       Event.os_make_directory (str8_lit "/home/u/raddbg"),
       Event.pdb_convert_params_from_cmd_line,
       Event.os_file_open [OS_AccessFlag.Read, OS_AccessFlag.Write] (str8_lit "a.rdi"),
       Event.pdbconv_convert ⟨str8_lit "a.rdi", [[]]⟩,
       Event.os_file_close ⟨3⟩] := by
  refine ⟨by decide, by decide, by decide⟩

/-- C5, amended: in converter mode the output is written in place.  The first file operation
of the converter is `os_file_open` with read and write access on the user-given output name,
before any call of `pdbconv_convert`, `cons_bake_file` or `os_file_write`; no other file is
opened; every `os_file_write` goes to the handle that call returned; and a run in which the
file does not open or conversion returns no result makes no `os_file_write`. -/
theorem converter_writes_output_in_place (w : World) (cmdln : CmdLine)
    (hmode : exec_mode cmdln = ExecMode.Converter) :
    (entry_point w cmdln).events =
      prelude_events w cmdln ++
      [Event.pdb_convert_params_from_cmd_line,
       Event.os_file_open [OS_AccessFlag.Read, OS_AccessFlag.Write]
        (w.pdb_convert_params_from_cmd_line cmdln).output_name] ++
      converter_events_after_open w cmdln ∧
    (∀ e ∈ prelude_events w cmdln,
      is_os_file_open e = false ∧ is_pdbconv_convert e = false ∧
      is_cons_bake_file e = false ∧ is_os_file_write e = false) ∧
    (∀ e ∈ converter_events_after_open w cmdln, is_os_file_open e = false) ∧
    (∀ e ∈ (entry_point w cmdln).events, ∀ file range data,
      e = Event.os_file_write file range data →
        file = w.os_file_open [OS_AccessFlag.Read, OS_AccessFlag.Write]
          (w.pdb_convert_params_from_cmd_line cmdln).output_name) ∧
    ((w.os_file_open [OS_AccessFlag.Read, OS_AccessFlag.Write]
        (w.pdb_convert_params_from_cmd_line cmdln).output_name = os_handle_zero ∨
      w.pdbconv_convert (w.pdb_convert_params_from_cmd_line cmdln) = none) →
      ∀ e ∈ (entry_point w cmdln).events, is_os_file_write e = false) := by
  have hev : (entry_point w cmdln).events =
      prelude_events w cmdln ++
      [Event.pdb_convert_params_from_cmd_line,
       Event.os_file_open [OS_AccessFlag.Read, OS_AccessFlag.Write]
        (w.pdb_convert_params_from_cmd_line cmdln).output_name] ++
      converter_events_after_open w cmdln := by
    rw [entry_point_converter w cmdln hmode, converter_events_eq_open_append, List.append_assoc]
  refine ⟨hev, ?_, ?_, ?_, ?_⟩
  · intro e he
    rcases mem_prelude_events w cmdln e he with rfl | rfl | rfl <;> exact ⟨rfl, rfl, rfl, rfl⟩
  · intro e he
    rcases mem_converter_events_after_open w cmdln e he with
      rfl | ⟨_, rfl⟩ | ⟨_, _, rfl⟩ | rfl <;> rfl
  · intro e he file range data heq
    rw [hev, List.mem_append, List.mem_append] at he
    rcases he with (he | he) | he
    · rcases mem_prelude_events w cmdln e he with h | h | h <;> rw [h] at heq <;> cases heq
    · simp at he
      rcases he with h | h <;> rw [h] at heq <;> cases heq
    · rcases mem_converter_events_after_open w cmdln e he with
        h | ⟨_, h⟩ | ⟨_, _, h⟩ | h <;> rw [h] at heq <;> cases heq
      rfl
  · intro hfail e he
    exact (converter_no_write_of_failure w cmdln hmode
      (hfail.elim Or.inl (fun h => Or.inr (Or.inl h))) e he).1

/-- C5 as amended, on an example: a run in which conversion returns no result. -/
theorem converter_writes_output_in_place_witness :
    exec_mode convert_cmdln_no_pdb = ExecMode.Converter ∧
    ∀ e ∈ converter_events_after_open example_world convert_cmdln_no_pdb,
      is_os_file_open e = false :=
  ⟨by decide,
    (converter_writes_output_in_place example_world convert_cmdln_no_pdb (by decide)).2.2.1⟩

/-- C6, refuted as stated: with an empty output name the entry point still calls
`os_make_directory` and `os_file_open`. -/
theorem converter_empty_output_counterexample :
    exec_mode convert_cmdln_no_out = ExecMode.Converter ∧
    (example_world.pdb_convert_params_from_cmd_line convert_cmdln_no_out).output_name = [] ∧
    (entry_point example_world convert_cmdln_no_out).events =
      [Event.os_init,
       Event.os_make_directory (str8_lit "/home/u/raddbg"),
       Event.pdb_convert_params_from_cmd_line,
       Event.os_file_open [OS_AccessFlag.Read, OS_AccessFlag.Write] [],
       Event.os_file_close ⟨0⟩] ∧
    ¬ (∀ e ∈ (entry_point example_world convert_cmdln_no_out).events,
        is_os_make_directory e = false ∧ is_os_file_open e = false ∧
        is_os_file_write e = false) := by
  refine ⟨by decide, by decide, by decide, by decide⟩

/-- C6, amended: for every converter command line with an empty output name the entry point
calls `os_make_directory` on the user data folder (before the dispatch) and `os_file_open` on
the empty name; it calls neither `cons_bake_file` nor `os_file_write`. -/
theorem converter_empty_output_no_write (w : World) (cmdln : CmdLine)
    (hmode : exec_mode cmdln = ExecMode.Converter)
    (hname : (w.pdb_convert_params_from_cmd_line cmdln).output_name = []) :
    Event.os_make_directory (user_data_folder w) ∈ (entry_point w cmdln).events ∧
    Event.os_file_open [OS_AccessFlag.Read, OS_AccessFlag.Write] []
      ∈ (entry_point w cmdln).events ∧
    (∀ e ∈ (entry_point w cmdln).events,
      is_os_file_write e = false ∧ is_cons_bake_file e = false) := by
  refine ⟨?_, ?_, ?_⟩
  · rw [entry_point_converter w cmdln hmode]
    apply List.mem_append_left
    unfold prelude_events
    simp
  · rw [entry_point_converter w cmdln hmode, converter_events_eq_open_append, hname]
    simp
  · exact converter_no_write_of_failure w cmdln hmode (Or.inr (Or.inr (by simp [hname])))

/-- C6 as amended, on an example: a converter command line without an output name. -/
theorem converter_empty_output_no_write_witness :
    (exec_mode convert_cmdln_no_out = ExecMode.Converter ∧
     (example_world.pdb_convert_params_from_cmd_line convert_cmdln_no_out).output_name = []) ∧
    Event.os_make_directory (user_data_folder example_world)
      ∈ (entry_point example_world convert_cmdln_no_out).events :=
  ⟨⟨by decide, by decide⟩,
    (converter_empty_output_no_write example_world convert_cmdln_no_out
      (by decide) (by decide)).1⟩

theorem file_writes_bake_write_loop_handle (file1 file2 : OS_Handle) (off : Nat)
    (list : List String8) :
    file_writes (bake_write_loop file1 off list) =
      file_writes (bake_write_loop file2 off list) := by
  induction list generalizing off with
  | nil => rfl
  | cons first rest ih => simp [bake_write_loop, file_writes_cons_write, ih]

/-- The `os_file_write` calls of a converter run in terms of what the callees hand back. -/
theorem file_writes_converter (w : World) (cmdln : CmdLine)
    (hmode : exec_mode cmdln = ExecMode.Converter) :
    file_writes (entry_point w cmdln).events =
      if w.os_file_open [OS_AccessFlag.Read, OS_AccessFlag.Write]
          (w.pdb_convert_params_from_cmd_line cmdln).output_name = os_handle_zero then []
      else
        match w.pdbconv_convert (w.pdb_convert_params_from_cmd_line cmdln) with
        | none => []
        | some out =>
          if (w.pdb_convert_params_from_cmd_line cmdln).output_name.length = 0 then []
          else file_writes (bake_write_loop os_handle_zero 0 (w.cons_bake_file out.root)) := by
  by_cases hopen : w.os_file_open [OS_AccessFlag.Read, OS_AccessFlag.Write]
      (w.pdb_convert_params_from_cmd_line cmdln).output_name = os_handle_zero
  · rw [if_pos hopen]
    exact file_writes_of_no_write _ (fun e he =>
      (converter_no_write_of_failure w cmdln hmode (Or.inl hopen) e he).1)
  · rw [if_neg hopen]
    cases hout : w.pdbconv_convert (w.pdb_convert_params_from_cmd_line cmdln) with
    | none =>
      exact file_writes_of_no_write _ (fun e he =>
        (converter_no_write_of_failure w cmdln hmode (Or.inr (Or.inl hout)) e he).1)
    | some out =>
      by_cases hname : (w.pdb_convert_params_from_cmd_line cmdln).output_name.length = 0
      · simp only [hname, if_true]
        exact file_writes_of_no_write _ (fun e he =>
          (converter_no_write_of_failure w cmdln hmode (Or.inr (Or.inr hname)) e he).1)
      · simp only [hname, if_false]
        rw [entry_point_converter w cmdln hmode,
          converter_events_of_success w cmdln out hopen hout (by omega),
          file_writes_append, file_writes_append, file_writes_append,
          file_writes_of_no_write _ (prelude_no_write w cmdln),
          file_writes_bake_write_loop_handle _ os_handle_zero]
        simp [file_writes, as_file_write]

/-- C7: two converter runs with the same command line over the same input, that is, runs in
which the parsed parameters, the result of `pdbconv_convert` and the lists produced by
`cons_bake_file` are equal and the output file opens in both or in neither, pass the same
sequence of (range, bytes) to `os_file_write` and leave byte-identical files; every other
callee result, the value of the file handle included, may differ between the runs. -/
theorem converter_driver_deterministic (w1 w2 : World) (cmdln : CmdLine)
    (hmode : exec_mode cmdln = ExecMode.Converter)
    (hparams : w1.pdb_convert_params_from_cmd_line cmdln =
      w2.pdb_convert_params_from_cmd_line cmdln)
    (hconv : w1.pdbconv_convert (w1.pdb_convert_params_from_cmd_line cmdln) =
      w2.pdbconv_convert (w2.pdb_convert_params_from_cmd_line cmdln))
    (hbake : ∀ root, w1.cons_bake_file root = w2.cons_bake_file root)
    (hopen : w1.os_file_open [OS_AccessFlag.Read, OS_AccessFlag.Write]
        (w1.pdb_convert_params_from_cmd_line cmdln).output_name = os_handle_zero ↔
      w2.os_file_open [OS_AccessFlag.Read, OS_AccessFlag.Write]
        (w2.pdb_convert_params_from_cmd_line cmdln).output_name = os_handle_zero) :
    file_writes (entry_point w1 cmdln).events = file_writes (entry_point w2 cmdln).events ∧
    ∀ f : File, file_after f (entry_point w1 cmdln).events =
      file_after f (entry_point w2 cmdln).events := by
  have hw : file_writes (entry_point w1 cmdln).events =
      file_writes (entry_point w2 cmdln).events := by
    rw [file_writes_converter w1 cmdln hmode, file_writes_converter w2 cmdln hmode]
    rw [hparams] at hopen hconv
    rw [hparams, hconv]
    simp only [hopen, hbake]
  exact ⟨hw, fun f => by simp only [file_after, hw]⟩

/-- C7, on an example: two runs that differ in the user folder and in the value of the file
handle. -/
theorem converter_driver_deterministic_witness :
    (exec_mode convert_cmdln = ExecMode.Converter ∧
     example_world.os_file_open [OS_AccessFlag.Read, OS_AccessFlag.Write] (str8_lit "a.rdi") ≠
      example_world_2.os_file_open [OS_AccessFlag.Read, OS_AccessFlag.Write]
        (str8_lit "a.rdi")) ∧
    file_writes (entry_point example_world convert_cmdln).events =
      file_writes (entry_point example_world_2 convert_cmdln).events :=
  ⟨⟨by decide, by decide⟩,
    (converter_driver_deterministic example_world example_world_2 convert_cmdln
      (by decide) rfl rfl (fun _ => rfl) (by decide)).1⟩

/-! ## Dispatch on the execution mode -/

theorem ipc_receive_events_frontend (w : World) (f : Frame) :
    ∀ e ∈ ipc_receive_events w f, is_frontend_event e = true := by
  intro e he
  unfold ipc_receive_events at he
  simp only [List.mem_cons] at he
  rcases he with rfl | he
  · rfl
  · revert he
    repeat' split
    all_goals simp
    all_goals (try rintro (rfl | rfl | rfl))
    all_goals rfl

theorem main_loop_frontend (w : World) (jit_pid : Nat) (frames : List Frame)
    (auto_run auto_step jit_attach : Bool) :
    ∀ e ∈ main_loop w jit_pid frames auto_run auto_step jit_attach,
      is_frontend_event e = true := by
  induction frames generalizing auto_run auto_step jit_attach with
  | nil => intro e he; simp [main_loop] at he
  | cons f fs ih =>
    intro e he
    simp only [main_loop, List.mem_append] at he
    rcases he with ((((he | he) | he) | he) | he) | he
    · exact ipc_receive_events_frontend w f e he
    · simp at he; subst he; rfl
    · split at he
      · simp at he; subst he; rfl
      · simp at he
    · split at he
      · simp at he; subst he; rfl
      · simp at he
    · split at he
      · simp at he; subst he; rfl
      · simp at he
    · split at he
      · simp at he
      · exact ih _ _ _ e he

theorem target_setup_events_frontend (w : World) (cmdln : CmdLine) :
    ∀ e ∈ target_setup_events w cmdln, is_frontend_event e = true := by
  intro e he
  unfold target_setup_events at he
  revert he
  repeat' split
  all_goals simp
  rintro (rfl | rfl | rfl | rfl | rfl | ⟨_, (rfl | rfl)⟩ | ⟨_, (rfl | rfl)⟩) <;> rfl

theorem mode_marker_of_frontend (e : Event) (h : is_frontend_event e = true) :
    mode_marker e = none := by
  cases e <;> first | rfl | simp [is_frontend_event] at h

theorem as_df_core_init_of_frontend (e : Event) (h : is_frontend_event e = true) :
    as_df_core_init e = none := by
  cases e <;> first | rfl | simp [is_frontend_event] at h

theorem filterMap_mode_marker_prelude (w : World) (cmdln : CmdLine) :
    (prelude_events w cmdln).filterMap mode_marker = [] := by
  rw [List.filterMap_eq_nil_iff]
  intro e he
  rcases mem_prelude_events w cmdln e he with rfl | rfl | rfl <;> rfl

theorem filterMap_mode_marker_normal (w : World) (cmdln : CmdLine) :
    (normal_events w cmdln).filterMap mode_marker = [ExecMode.Normal] := by
  have h1 : (target_setup_events w cmdln).filterMap mode_marker = [] := by
    rw [List.filterMap_eq_nil_iff]
    exact fun e he => mode_marker_of_frontend e (target_setup_events_frontend w cmdln e he)
  have h2 : ∀ a b c d, (main_loop w a w.frames b c d).filterMap mode_marker = [] := by
    intro a b c d
    rw [List.filterMap_eq_nil_iff]
    exact fun e he => mode_marker_of_frontend e (main_loop_frontend w a w.frames b c d e he)
  simp [normal_events, List.filterMap_append, h1, h2, mode_marker]

theorem filterMap_mode_marker_ipc_sender (w : World) (cmdln : CmdLine) :
    (ipc_sender w cmdln).events.filterMap mode_marker = [ExecMode.IPCSender] := by
  unfold ipc_sender
  repeat' split
  all_goals simp [mode_marker]

theorem filterMap_mode_marker_converter (w : World) (cmdln : CmdLine) :
    (converter_events w cmdln).filterMap mode_marker = [ExecMode.Converter] := by
  have h : (converter_events_after_open w cmdln).filterMap mode_marker = [] := by
    rw [List.filterMap_eq_nil_iff]
    intro e he
    rcases mem_converter_events_after_open w cmdln e he with
      rfl | ⟨_, rfl⟩ | ⟨_, _, rfl⟩ | rfl <;> rfl
  rw [converter_events_eq_open_append, List.filterMap_append, h]
  simp [mode_marker]

/-- C8: the execution mode is a function of the flags: sender mode if `ipc` is present,
otherwise converter mode if `convert` is present, otherwise help mode if `?` or `help` is
present, otherwise normal mode; the entry point then runs the calls made before the dispatch
followed by the code path of that mode only, so that of the four calls that begin the four
code paths exactly the one of the selected mode is made, once. -/
theorem entry_point_runs_exactly_one_mode (w : World) (cmdln : CmdLine) :
    (cmdln.has_flag (str8_lit "ipc") = true → exec_mode cmdln = ExecMode.IPCSender) ∧
    (cmdln.has_flag (str8_lit "ipc") = false → cmdln.has_flag (str8_lit "convert") = true →
      exec_mode cmdln = ExecMode.Converter) ∧
    (cmdln.has_flag (str8_lit "ipc") = false → cmdln.has_flag (str8_lit "convert") = false →
      (cmdln.has_flag (str8_lit "?") = true ∨ cmdln.has_flag (str8_lit "help") = true) →
      exec_mode cmdln = ExecMode.Help) ∧
    (cmdln.has_flag (str8_lit "ipc") = false → cmdln.has_flag (str8_lit "convert") = false →
      cmdln.has_flag (str8_lit "?") = false → cmdln.has_flag (str8_lit "help") = false →
      exec_mode cmdln = ExecMode.Normal) ∧
    (exec_mode cmdln = ExecMode.IPCSender →
      (entry_point w cmdln).events = prelude_events w cmdln ++ (ipc_sender w cmdln).events) ∧
    (exec_mode cmdln = ExecMode.Converter →
      (entry_point w cmdln).events = prelude_events w cmdln ++ converter_events w cmdln) ∧
    (exec_mode cmdln = ExecMode.Help →
      (entry_point w cmdln).events = prelude_events w cmdln ++ help_events) ∧
    (exec_mode cmdln = ExecMode.Normal →
      (entry_point w cmdln).events = prelude_events w cmdln ++ normal_events w cmdln) ∧
    (entry_point w cmdln).events.filterMap mode_marker = [exec_mode cmdln] := by
  refine ⟨?_, ?_, ?_, ?_, ?_, ?_, ?_, ?_, ?_⟩
  · intro h; simp [exec_mode, h]
  · intro h1 h2; simp [exec_mode, h1, h2]
  · intro h1 h2 h3
    rcases h3 with h3 | h3 <;> simp [exec_mode, h1, h2, h3]
  · intro h1 h2 h3 h4; simp [exec_mode, h1, h2, h3, h4]
  · intro h; simp [entry_point, h]
  · intro h; simp [entry_point, h]
  · intro h; simp [entry_point, h]
  · intro h; simp [entry_point, h]
  · cases h : exec_mode cmdln with
    | Normal =>
      simp [entry_point, h, List.filterMap_append, filterMap_mode_marker_prelude,
        filterMap_mode_marker_normal]
    | IPCSender =>
      simp [entry_point, h, List.filterMap_append, filterMap_mode_marker_prelude,
        filterMap_mode_marker_ipc_sender]
    | Converter =>
      simp [entry_point, h, List.filterMap_append, filterMap_mode_marker_prelude,
        filterMap_mode_marker_converter]
    | Help =>
      simp [entry_point, h, List.filterMap_append, filterMap_mode_marker_prelude,
        help_events, mode_marker]

/-- C8, on an example: a command line with the flags `ipc`, `convert` and `help` runs sender
mode. -/
theorem entry_point_runs_exactly_one_mode_witness :
    (ipc_cmdln.has_flag (str8_lit "ipc") = true ∧
     ipc_cmdln.has_flag (str8_lit "convert") = true ∧
     ipc_cmdln.has_flag (str8_lit "help") = true) ∧
    exec_mode ipc_cmdln = ExecMode.IPCSender ∧
    (entry_point example_world ipc_cmdln).events.filterMap mode_marker =
      [ExecMode.IPCSender] :=
  ⟨⟨by decide, by decide, by decide⟩,
    (entry_point_runs_exactly_one_mode example_world ipc_cmdln).1 (by decide),
    (entry_point_runs_exactly_one_mode example_world ipc_cmdln).1 (by decide) ▸
      (entry_point_runs_exactly_one_mode example_world ipc_cmdln).2.2.2.2.2.2.2.2⟩

/-! ## Configuration paths -/

theorem user_cfg_path_eq (w : World) (cmdln : CmdLine) :
    user_cfg_path w cmdln =
      if cmdln.string (str8_lit "user") = [] then
        w.user_program_data_path ++ str8_lit "/raddbg/default.raddbg_user"
      else cmdln.string (str8_lit "user") := by
  have h : str8_lit "/" ++ (str8_lit "raddbg" ++ str8_lit "/default.raddbg_user") =
      str8_lit "/raddbg/default.raddbg_user" := by decide
  by_cases hu : cmdln.string (str8_lit "user") = []
  · simp [user_cfg_path, user_data_folder, hu, h]
  · simp [user_cfg_path, hu]

theorem profile_cfg_path_eq (w : World) (cmdln : CmdLine) :
    profile_cfg_path w cmdln =
      if cmdln.string (str8_lit "profile") = [] then
        w.user_program_data_path ++ str8_lit "/raddbg/default.raddbg_profile"
      else cmdln.string (str8_lit "profile") := by
  have h : str8_lit "/" ++ (str8_lit "raddbg" ++ str8_lit "/default.raddbg_profile") =
      str8_lit "/raddbg/default.raddbg_profile" := by decide
  by_cases hu : cmdln.string (str8_lit "profile") = []
  · simp [profile_cfg_path, user_data_folder, hu, h]
  · simp [profile_cfg_path, hu]

theorem filterMap_as_df_core_init_normal (w : World) (cmdln : CmdLine)
    (hmode : exec_mode cmdln = ExecMode.Normal) :
    (entry_point w cmdln).events.filterMap as_df_core_init =
      [(user_cfg_path w cmdln, profile_cfg_path w cmdln)] := by
  have h0 : (prelude_events w cmdln).filterMap as_df_core_init = [] := by
    rw [List.filterMap_eq_nil_iff]
    intro e he
    rcases mem_prelude_events w cmdln e he with rfl | rfl | rfl <;> rfl
  have h1 : (target_setup_events w cmdln).filterMap as_df_core_init = [] := by
    rw [List.filterMap_eq_nil_iff]
    exact fun e he => as_df_core_init_of_frontend e (target_setup_events_frontend w cmdln e he)
  have h2 : ∀ a b c d, (main_loop w a w.frames b c d).filterMap as_df_core_init = [] := by
    intro a b c d
    rw [List.filterMap_eq_nil_iff]
    exact fun e he => as_df_core_init_of_frontend e (main_loop_frontend w a w.frames b c d e he)
  simp [entry_point, hmode, normal_events, List.filterMap_append, h0, h1, h2, as_df_core_init]

/-- C9: in normal mode `df_core_init` is called once, and the user and profile paths handed to
it are the values of the options `user` and `profile` where those are not empty, and
`<user program data>/raddbg/default.raddbg_user` (respectively `default.raddbg_profile`)
where the option is absent or empty; neither path is empty; and the user path is the same for
two command lines that agree on the option `user`, the profile path for two that agree on the
option `profile`. -/
theorem df_core_init_gets_option_or_default_paths (w : World) (cmdln : CmdLine)
    (hmode : exec_mode cmdln = ExecMode.Normal) :
    (entry_point w cmdln).events.filterMap as_df_core_init =
      [(if cmdln.string (str8_lit "user") = [] then
          w.user_program_data_path ++ str8_lit "/raddbg/default.raddbg_user"
        else cmdln.string (str8_lit "user"),
        if cmdln.string (str8_lit "profile") = [] then
          w.user_program_data_path ++ str8_lit "/raddbg/default.raddbg_profile"
        else cmdln.string (str8_lit "profile"))] ∧
    (∀ user profile, Event.df_core_init user profile ∈ (entry_point w cmdln).events →
      user ≠ [] ∧ profile ≠ []) ∧
    (∀ cmdln2 : CmdLine, exec_mode cmdln2 = ExecMode.Normal →
      cmdln2.string (str8_lit "user") = cmdln.string (str8_lit "user") →
      ((entry_point w cmdln2).events.filterMap as_df_core_init).map Prod.fst =
        ((entry_point w cmdln).events.filterMap as_df_core_init).map Prod.fst) ∧
    (∀ cmdln2 : CmdLine, exec_mode cmdln2 = ExecMode.Normal →
      cmdln2.string (str8_lit "profile") = cmdln.string (str8_lit "profile") →
      ((entry_point w cmdln2).events.filterMap as_df_core_init).map Prod.snd =
        ((entry_point w cmdln).events.filterMap as_df_core_init).map Prod.snd) := by
  have hune : user_cfg_path w cmdln ≠ [] := by
    rw [user_cfg_path_eq]
    split
    · simp [str8_lit]
    · assumption
  have hpne : profile_cfg_path w cmdln ≠ [] := by
    rw [profile_cfg_path_eq]
    split
    · simp [str8_lit]
    · assumption
  refine ⟨?_, ?_, ?_, ?_⟩
  · rw [filterMap_as_df_core_init_normal w cmdln hmode, user_cfg_path_eq, profile_cfg_path_eq]
  · intro user profile hmem
    have hin : (user, profile) ∈ (entry_point w cmdln).events.filterMap as_df_core_init :=
      List.mem_filterMap.2 ⟨_, hmem, rfl⟩
    rw [filterMap_as_df_core_init_normal w cmdln hmode] at hin
    simp at hin
    rw [hin.1, hin.2]
    exact ⟨hune, hpne⟩
  · intro cmdln2 hmode2 hsame
    rw [filterMap_as_df_core_init_normal w cmdln hmode,
      filterMap_as_df_core_init_normal w cmdln2 hmode2, user_cfg_path_eq, user_cfg_path_eq,
      hsame]
    rfl
  · intro cmdln2 hmode2 hsame
    rw [filterMap_as_df_core_init_normal w cmdln hmode,
      filterMap_as_df_core_init_normal w cmdln2 hmode2, profile_cfg_path_eq,
      profile_cfg_path_eq, hsame]
    rfl

/-- C9, on an example: the option `user` is given, the option `profile` is not. -/
theorem df_core_init_gets_option_or_default_paths_witness :
    exec_mode normal_cmdln = ExecMode.Normal ∧
    (entry_point example_world_normal normal_cmdln).events.filterMap as_df_core_init =
      [(str8_lit "u.raddbg_user", str8_lit "/home/u/raddbg/default.raddbg_profile")] :=
  ⟨by decide,
    (df_core_init_gets_option_or_default_paths example_world_normal normal_cmdln
      (by decide)).1.trans (by decide)⟩

/-! ## Sender mode -/

theorem str8_list_join_nodes_eq_intercalate (sep : String8) (list : List String8) :
    str8_list_join_nodes sep list = List.intercalate sep list := by
  induction list with
  | nil => rfl
  | cons first rest ih =>
    cases rest with
    | nil => simp [str8_list_join_nodes, List.intercalate]
    | cons second rest2 =>
      simp only [str8_list_join_nodes, ih]
      simp [List.intercalate, List.intersperse]

theorem str8_list_join_space (list : List String8) :
    str8_list_join list ⟨str8_lit "", str8_lit " ", str8_lit ""⟩ =
      List.intercalate [32] list := by
  have h1 : str8_lit "" = [] := by decide
  have h2 : str8_lit " " = [32] := by decide
  simp [str8_list_join, h1, h2, str8_list_join_nodes_eq_intercalate]

theorem buffer_max_eq : u64_sub IPC_SHARED_MEMORY_BUFFER_SIZE sizeof_IPCInfo = 16777208 := by
  decide

/-- The run of sender mode when the view opens and the semaphore is taken. -/
theorem ipc_sender_of_take (w : World) (cmdln : CmdLine) (shared : IPCShared)
    (hview : w.sender_view = some shared) (hsem : w.sender_sem_take = true) :
    (ipc_sender w cmdln).shared =
      some ⟨⟨min 16777208 (List.intercalate [32] cmdln.inputs).length⟩,
        MemoryCopy shared.buffer (List.intercalate [32] cmdln.inputs)
          (min 16777208 (List.intercalate [32] cmdln.inputs).length)⟩ ∧
    (ipc_sender w cmdln).events =
      [Event.os_shared_memory_open ipc_shared_memory_name,
       Event.os_shared_memory_view_open (r1u64 0 (MB 16)),
       Event.os_semaphore_open ipc_semaphore_name,
       Event.os_semaphore_take,
       Event.store_msg_size (min 16777208 (List.intercalate [32] cmdln.inputs).length),
       Event.MemoryCopy_buffer (List.intercalate [32] cmdln.inputs)
        (min 16777208 (List.intercalate [32] cmdln.inputs).length),
       Event.os_semaphore_drop] := by
  constructor <;> simp [ipc_sender, hview, hsem, buffer_max_eq, str8_list_join_space]

/-- C10, refuted as stated: for a command of 16777209 bytes, with the shared memory open and
the semaphore acquired, the sender stores the message size 16777208, which is not the length
of the command. -/
theorem ipc_sender_truncates_counterexample :
    exec_mode ipc_cmdln_long = ExecMode.IPCSender ∧
    example_world_ipc.sender_view = some ⟨⟨0⟩, List.replicate 16777208 0⟩ ∧
    example_world_ipc.sender_sem_take = true ∧
    (List.intercalate [32] ipc_cmdln_long.inputs).length = 16777209 ∧
    (entry_point example_world_ipc ipc_cmdln_long).shared.map (fun sent => sent.info.msg_size)
      = some 16777208 := by
  have hone : ∀ s : String8, (List.intercalate [32] [s]).length = s.length := by
    intro s
    simp [List.intercalate, List.intersperse]
  have hlen : (List.intercalate [32] ipc_cmdln_long.inputs).length = 16777209 :=
    (hone _).trans (List.length_replicate _ _)
  have hmode : exec_mode ipc_cmdln_long = ExecMode.IPCSender := by decide
  refine ⟨hmode, rfl, rfl, hlen, ?_⟩
  simp only [entry_point, hmode]
  rw [(ipc_sender_of_take example_world_ipc ipc_cmdln_long _ rfl rfl).1, hlen]
  show some (min 16777208 16777209) = some 16777208
  rfl

/-- C10, amended: in sender mode, when the shared memory opens and the semaphore is acquired,
the sender stores as `msg_size` the smaller of 16777208 (the buffer size) and the length of the
command line inputs joined by single spaces (no prefix, no suffix), and copies that many bytes
of the joined string to the start of the shared buffer; so a command of at most 16777208 bytes
is sent whole, with `msg_size` its length.  The sender then releases the semaphore and returns;
apart from the calls made before the dispatch it makes no other call. -/
theorem ipc_sender_sends_command_up_to_buffer_size (w : World) (cmdln : CmdLine)
    (shared : IPCShared)
    (hmode : exec_mode cmdln = ExecMode.IPCSender)
    (hview : w.sender_view = some shared) (hsem : w.sender_sem_take = true) :
    ∃ sent : IPCShared, (entry_point w cmdln).shared = some sent ∧
      sent.info.msg_size = min 16777208 (List.intercalate [32] cmdln.inputs).length ∧
      sent.buffer.take sent.info.msg_size =
        (List.intercalate [32] cmdln.inputs).take sent.info.msg_size ∧
      ((List.intercalate [32] cmdln.inputs).length ≤ 16777208 →
        sent.info.msg_size = (List.intercalate [32] cmdln.inputs).length ∧
        sent.buffer.take sent.info.msg_size = List.intercalate [32] cmdln.inputs) ∧
      (entry_point w cmdln).events =
        prelude_events w cmdln ++
        [Event.os_shared_memory_open ipc_shared_memory_name,
         Event.os_shared_memory_view_open (r1u64 0 (MB 16)),
         Event.os_semaphore_open ipc_semaphore_name,
         Event.os_semaphore_take,
         Event.store_msg_size sent.info.msg_size,
         Event.MemoryCopy_buffer (List.intercalate [32] cmdln.inputs) sent.info.msg_size,
         Event.os_semaphore_drop] := by
  have hrun := ipc_sender_of_take w cmdln shared hview hsem
  have htake : ∀ (dst src : List Nat) (n : Nat), n ≤ src.length →
      (MemoryCopy dst src n).take n = src.take n := by
    intro dst src n hn
    simp [MemoryCopy, List.take_append_eq_append_take, List.length_take, Nat.min_eq_left hn]
  refine ⟨⟨⟨min 16777208 (List.intercalate [32] cmdln.inputs).length⟩,
    MemoryCopy shared.buffer (List.intercalate [32] cmdln.inputs)
      (min 16777208 (List.intercalate [32] cmdln.inputs).length)⟩, ?_, rfl, ?_, ?_, ?_⟩
  · simp only [entry_point, hmode]
    exact hrun.1
  · exact htake _ _ _ (Nat.min_le_right _ _)
  · intro hle
    have hmin : min 16777208 (List.intercalate [32] cmdln.inputs).length =
        (List.intercalate [32] cmdln.inputs).length := Nat.min_eq_right hle
    refine ⟨hmin, ?_⟩
    show (MemoryCopy _ _ _).take _ = _
    rw [hmin, htake _ _ _ (Nat.le_refl _), List.take_length]
  · simp only [entry_point, hmode]
    rw [hrun.2]

/-- C10 as amended, on an example: the command `run a.exe`. -/
theorem ipc_sender_sends_command_up_to_buffer_size_witness :
    (exec_mode ipc_cmdln = ExecMode.IPCSender ∧
     example_world.sender_view = some ⟨⟨0⟩, [0, 0, 0, 0, 0, 0, 0, 0]⟩ ∧
     example_world.sender_sem_take = true) ∧
    (entry_point example_world ipc_cmdln).shared = some ⟨⟨9⟩, str8_lit "run a.exe"⟩ ∧
    ∃ sent : IPCShared, (entry_point example_world ipc_cmdln).shared = some sent ∧
      sent.info.msg_size = min 16777208 (List.intercalate [32] ipc_cmdln.inputs).length :=
  ⟨⟨by decide, rfl, rfl⟩, by decide,
    (ipc_sender_sends_command_up_to_buffer_size example_world ipc_cmdln _
      (by decide) rfl rfl).imp (fun _ h => ⟨h.1, h.2.1⟩)⟩

/-- One iteration of the main loop: the message block, `update_and_render`, the start-up
blocks, and then the remaining iterations, in which the three start-up flags are clear. -/
theorem main_loop_cons (w : World) (jit_pid : Nat) (f : Frame) (fs : List Frame)
    (auto_run auto_step jit_attach : Bool) :
    main_loop w jit_pid (f :: fs) auto_run auto_step jit_attach =
      ipc_receive_events w f ++ Event.update_and_render ::
        (start_up_events w jit_pid auto_run auto_step jit_attach ++
          (if f.no_windows_left then [] else main_loop w jit_pid fs false false false)) := by
  cases auto_run <;> cases auto_step <;> cases jit_attach <;>
    simp [main_loop, start_up_events]

/-! ## What converter mode and sender mode leave alone -/

theorem ipc_sender_events_sender_call (w : World) (cmdln : CmdLine) :
    ∀ e ∈ (ipc_sender w cmdln).events, is_sender_call e = true := by
  intro e he
  unfold ipc_sender at he
  revert he
  repeat' split
  all_goals simp
  all_goals rintro (rfl | rfl | rfl | rfl | rfl | rfl | rfl)
  all_goals rfl

theorem not_gui_call_of_sender_call (e : Event) (h : is_sender_call e = true) :
    is_gui_call e = false := by
  cases e <;> first | rfl | simp [is_sender_call] at h

/-- The calls of converter mode, one by one. -/
theorem mem_converter_events (w : World) (cmdln : CmdLine) (e : Event)
    (he : e ∈ converter_events w cmdln) :
    e = Event.pdb_convert_params_from_cmd_line ∨
    e = Event.os_file_open [OS_AccessFlag.Read, OS_AccessFlag.Write]
      (w.pdb_convert_params_from_cmd_line cmdln).output_name ∨
    e = Event.pdbconv_convert (w.pdb_convert_params_from_cmd_line cmdln) ∨
    (∃ root, e = Event.cons_bake_file root) ∨
    (∃ range data, e = Event.os_file_write (out_file w cmdln) range data) ∨
    e = Event.os_file_close (out_file w cmdln) := by
  rw [converter_events_eq_open_append, List.mem_append] at he
  rcases he with he | he
  · simp at he
    rcases he with h | h
    · exact Or.inl h
    · exact Or.inr (Or.inl h)
  · exact Or.inr (Or.inr (mem_converter_events_after_open w cmdln e he))

/-- C16: in converter mode and in sender mode the entry point makes no call into the GUI and
control subsystems: none of the subsystem initialisers of normal mode, no call of the target
setup, no command push and no `update_and_render`, hence no iteration of the main loop.  In
converter mode the run leaves no shared memory block behind, and apart from the calls made
before the dispatch its calls are the parsing of the parameters, the opening of the output
file, `pdbconv_convert`, `cons_bake_file`, writes to the output file and its closing. -/
theorem converter_and_sender_hand_nothing_to_gui (w : World) (cmdln : CmdLine)
    (hmode : exec_mode cmdln = ExecMode.Converter ∨ exec_mode cmdln = ExecMode.IPCSender) :
    (∀ e ∈ (entry_point w cmdln).events, is_gui_call e = false) ∧
    (exec_mode cmdln = ExecMode.Converter →
      (entry_point w cmdln).shared = none ∧
      ∀ e ∈ (entry_point w cmdln).events,
        e ∈ prelude_events w cmdln ∨
        e = Event.pdb_convert_params_from_cmd_line ∨
        e = Event.os_file_open [OS_AccessFlag.Read, OS_AccessFlag.Write]
          (w.pdb_convert_params_from_cmd_line cmdln).output_name ∨
        e = Event.pdbconv_convert (w.pdb_convert_params_from_cmd_line cmdln) ∨
        (∃ root, e = Event.cons_bake_file root) ∨
        (∃ range data, e = Event.os_file_write (out_file w cmdln) range data) ∨
        e = Event.os_file_close (out_file w cmdln)) := by
  constructor
  · intro e he
    rcases hmode with hmode | hmode
    · rw [entry_point_converter w cmdln hmode, List.mem_append] at he
      rcases he with he | he
      · rcases mem_prelude_events w cmdln e he with rfl | rfl | rfl <;> rfl
      · rcases mem_converter_events w cmdln e he with
          rfl | rfl | rfl | ⟨_, rfl⟩ | ⟨_, _, rfl⟩ | rfl <;> rfl
    · have hev : (entry_point w cmdln).events =
          prelude_events w cmdln ++ (ipc_sender w cmdln).events := by
        simp [entry_point, hmode]
      rw [hev, List.mem_append] at he
      rcases he with he | he
      · rcases mem_prelude_events w cmdln e he with rfl | rfl | rfl <;> rfl
      · exact not_gui_call_of_sender_call e (ipc_sender_events_sender_call w cmdln e he)
  · intro hmode
    constructor
    · simp [entry_point, hmode]
    · intro e he
      rw [entry_point_converter w cmdln hmode, List.mem_append] at he
      rcases he with he | he
      · exact Or.inl he
      · exact Or.inr (mem_converter_events w cmdln e he)

/-- C16, on an example: a converter run and a sender run. -/
theorem converter_and_sender_hand_nothing_to_gui_witness :
    (exec_mode convert_cmdln = ExecMode.Converter ∧ exec_mode ipc_cmdln = ExecMode.IPCSender) ∧
    (∀ e ∈ (entry_point example_world convert_cmdln).events, is_gui_call e = false) ∧
    (∀ e ∈ (entry_point example_world ipc_cmdln).events, is_gui_call e = false) :=
  ⟨⟨by decide, by decide⟩,
    (converter_and_sender_hand_nothing_to_gui example_world convert_cmdln
      (Or.inl (by decide))).1,
    (converter_and_sender_hand_nothing_to_gui example_world ipc_cmdln
      (Or.inr (by decide))).1⟩

/-! ## The output handle of converter mode -/

theorem converter_events_after_open_eq_between (w : World) (cmdln : CmdLine) :
    converter_events_after_open w cmdln =
      converter_events_between w cmdln ++ [Event.os_file_close (out_file w cmdln)] := by
  simp only [converter_events_between, converter_events_after_open, converter_events, out_file]
  simp [List.dropLast_concat, ← List.append_assoc]

theorem mem_converter_events_between (w : World) (cmdln : CmdLine) (e : Event)
    (he : e ∈ converter_events_between w cmdln) :
    e = Event.pdbconv_convert (w.pdb_convert_params_from_cmd_line cmdln) ∨
    (∃ root, e = Event.cons_bake_file root) ∨
    (∃ range data, e = Event.os_file_write (out_file w cmdln) range data) := by
  have hmem : e ∈ converter_events_after_open w cmdln := List.mem_of_mem_dropLast he
  simp only [converter_events_between, converter_events_after_open, converter_events] at he
  simp [List.dropLast_concat, ← List.append_assoc] at he
  rcases mem_converter_events_after_open w cmdln e hmem with h | h | h | h
  · exact Or.inl h
  · exact Or.inr (Or.inl h)
  · exact Or.inr (Or.inr h)
  · exfalso
    subst h
    revert he
    repeat' split
    all_goals simp
    intro h
    obtain ⟨_, _, h⟩ := mem_bake_write_loop _ _ _ _ h
    cases h
/-- C17: in converter mode, on every path, `os_file_open` is called exactly once, before
`pdbconv_convert`, and `os_file_close` exactly once, as the last call of the run, on the handle
that the open returned; every `os_file_write` lies between the two and goes to that handle, so
no write follows the close. -/
theorem converter_owns_output_handle (w : World) (cmdln : CmdLine)
    (hmode : exec_mode cmdln = ExecMode.Converter) :
    (entry_point w cmdln).events =
      prelude_events w cmdln ++ [Event.pdb_convert_params_from_cmd_line] ++
      [Event.os_file_open [OS_AccessFlag.Read, OS_AccessFlag.Write]
        (w.pdb_convert_params_from_cmd_line cmdln).output_name] ++
      converter_events_between w cmdln ++
      [Event.os_file_close (out_file w cmdln)] ∧
    (∀ e ∈ prelude_events w cmdln ++ [Event.pdb_convert_params_from_cmd_line],
      is_os_file_open e = false ∧ is_os_file_close e = false ∧
      is_os_file_write e = false ∧ is_pdbconv_convert e = false) ∧
    (∀ e ∈ converter_events_between w cmdln,
      is_os_file_open e = false ∧ is_os_file_close e = false ∧
      ∀ file range data, e = Event.os_file_write file range data → file = out_file w cmdln) ∧
    ((entry_point w cmdln).events.filter is_os_file_open).length = 1 ∧
    ((entry_point w cmdln).events.filter is_os_file_close).length = 1 := by
  have hev : (entry_point w cmdln).events =
      prelude_events w cmdln ++ [Event.pdb_convert_params_from_cmd_line] ++
      [Event.os_file_open [OS_AccessFlag.Read, OS_AccessFlag.Write]
        (w.pdb_convert_params_from_cmd_line cmdln).output_name] ++
      converter_events_between w cmdln ++
      [Event.os_file_close (out_file w cmdln)] := by
    rw [entry_point_converter w cmdln hmode, converter_events_eq_open_append,
      converter_events_after_open_eq_between]
    simp
  have hpre : ∀ e ∈ prelude_events w cmdln ++ [Event.pdb_convert_params_from_cmd_line],
      is_os_file_open e = false ∧ is_os_file_close e = false ∧
      is_os_file_write e = false ∧ is_pdbconv_convert e = false := by
    intro e he
    rw [List.mem_append] at he
    rcases he with he | he
    · rcases mem_prelude_events w cmdln e he with rfl | rfl | rfl <;> exact ⟨rfl, rfl, rfl, rfl⟩
    · simp at he
      subst he
      exact ⟨rfl, rfl, rfl, rfl⟩
  have hbetween : ∀ e ∈ converter_events_between w cmdln,
      is_os_file_open e = false ∧ is_os_file_close e = false ∧
      ∀ file range data, e = Event.os_file_write file range data →
        file = out_file w cmdln := by
    intro e he
    rcases mem_converter_events_between w cmdln e he with rfl | ⟨_, rfl⟩ | ⟨_, _, rfl⟩
    · exact ⟨rfl, rfl, fun _ _ _ h => by cases h⟩
    · exact ⟨rfl, rfl, fun _ _ _ h => by cases h⟩
    · exact ⟨rfl, rfl, fun _ _ _ h => by cases h; rfl⟩
  have h1 : (prelude_events w cmdln ++ [Event.pdb_convert_params_from_cmd_line]).filter
      is_os_file_open = [] :=
    List.filter_eq_nil_iff.2 (fun e he => by simp [(hpre e he).1])
  have h2 : (prelude_events w cmdln ++ [Event.pdb_convert_params_from_cmd_line]).filter
      is_os_file_close = [] :=
    List.filter_eq_nil_iff.2 (fun e he => by simp [(hpre e he).2.1])
  have h3 : (converter_events_between w cmdln).filter is_os_file_open = [] :=
    List.filter_eq_nil_iff.2 (fun e he => by simp [(hbetween e he).1])
  have h4 : (converter_events_between w cmdln).filter is_os_file_close = [] :=
    List.filter_eq_nil_iff.2 (fun e he => by simp [(hbetween e he).2.1])
  refine ⟨hev, hpre, hbetween, ?_, ?_⟩
  · rw [hev]
    simp only [List.filter_append, h1, h3]
    simp [is_os_file_open]
  · rw [hev]
    simp only [List.filter_append, h2, h4]
    simp [is_os_file_close]

/-- C17, on an example: a run that writes three nodes. -/
theorem converter_owns_output_handle_witness :
    exec_mode convert_cmdln = ExecMode.Converter ∧
    (entry_point example_world convert_cmdln).events =
      [Event.os_init,
       Event.os_make_directory (str8_lit "/home/u/raddbg"),
       Event.pdb_convert_params_from_cmd_line,
       Event.os_file_open [OS_AccessFlag.Read, OS_AccessFlag.Write] (str8_lit "a.rdi"),
       Event.pdbconv_convert ⟨str8_lit "a.rdi", [str8_lit "a.pdb"]⟩,
       Event.cons_bake_file ⟨1⟩,
       Event.os_file_write ⟨3⟩ ⟨0, 2⟩ [1, 2],
       Event.os_file_write ⟨3⟩ ⟨2, 3⟩ [3],
       Event.os_file_write ⟨3⟩ ⟨3, 6⟩ [4, 5, 6],
       Event.os_file_close ⟨3⟩] ∧
    ((entry_point example_world convert_cmdln).events.filter is_os_file_open).length = 1 :=
  ⟨by decide, by decide,
    (converter_owns_output_handle example_world convert_cmdln (by decide)).2.2.2.1⟩

/-! ## Messages in the shared memory block -/

theorem dst_window_eq_none (windows : List DF_Window) :
    dst_window windows = none ↔ windows = [] := by
  unfold dst_window
  cases windows with
  | nil => simp
  | cons first rest =>
    cases h : List.find? (fun window => window.focused) (first :: rest) <;> simp

/-- The destination window is the first focused window of the list, or the first window when
none is focused. -/
theorem dst_window_spec (windows : List DF_Window) (dst : DF_Window)
    (h : dst_window windows = some dst) :
    (dst.focused = true ∧ ∃ before after, windows = before ++ dst :: after ∧
      ∀ window ∈ before, window.focused = false) ∨
    ((∀ window ∈ windows, window.focused = false) ∧ windows.head? = some dst) := by
  unfold dst_window at h
  cases hfind : List.find? (fun window => window.focused) windows with
  | none =>
    rw [hfind] at h
    right
    refine ⟨?_, h⟩
    intro window hmem
    have := List.find?_eq_none.1 hfind window hmem
    simpa using this
  | some found =>
    rw [hfind] at h
    simp at h
    subst h
    left
    obtain ⟨hp, before, after, hw, hbefore⟩ := List.find?_eq_some.1 hfind
    refine ⟨by simpa using hp, before, after, hw, ?_⟩
    intro window hmem
    simpa using hbefore window hmem

/-- C18: every iteration of the main loop begins with the message block, and an iteration that
takes the semaphore and finds a non-zero `msg_size` consumes the message once.  It stores zero into `msg_size` before it drops the semaphore; it
pushes at most one root command: none when there is no window or the name of the command does
not resolve, the named command when the name resolves and the arguments parse without error,
and otherwise the `Error` command with the error text; whenever there is a window there is a
destination, which is the first focused window, or the first window when none is focused; and
the semaphore is dropped exactly once
when it was taken (also when `msg_size` is zero), and not at all when it was not taken. -/
theorem ipc_message_consumed_once (w : World) (f : Frame) :
    (f.sem_take = false → ipc_receive_events w f = [Event.os_semaphore_take]) ∧
    (f.sem_take = true → f.shared.info.msg_size = 0 →
      ipc_receive_events w f = [Event.os_semaphore_take, Event.os_semaphore_drop]) ∧
    (f.sem_take = true → f.shared.info.msg_size ≠ 0 →
      ∃ pushes : List Event,
        ipc_receive_events w f =
          [Event.os_semaphore_take, Event.store_msg_size 0] ++ pushes ++
          [Event.os_semaphore_drop] ∧
        pushes.length ≤ 1 ∧
        (f.windows = [] → pushes = []) ∧
        (f.windows ≠ [] → ∃ dst, dst_window f.windows = some dst ∧
          (w.df_cmd_spec_from_string (w.df_cmd_name_part_from_string (cmd_string f)) = 0 →
            pushes = []) ∧
          (w.df_cmd_spec_from_string (w.df_cmd_name_part_from_string (cmd_string f)) ≠ 0 →
            w.df_cmd_params_apply_spec_query dst
              (w.df_cmd_spec_from_string (w.df_cmd_name_part_from_string (cmd_string f)))
              (w.df_cmd_arg_part_from_string (cmd_string f)) = [] →
            pushes = [Event.df_push_cmd__root
              ⟨DF_CmdParamsSource.query dst
                (w.df_cmd_spec_from_string (w.df_cmd_name_part_from_string (cmd_string f)))
                (w.df_cmd_arg_part_from_string (cmd_string f)), none, none⟩
              (w.df_cmd_spec_from_string (w.df_cmd_name_part_from_string (cmd_string f)))]) ∧
          (w.df_cmd_spec_from_string (w.df_cmd_name_part_from_string (cmd_string f)) ≠ 0 →
            w.df_cmd_params_apply_spec_query dst
              (w.df_cmd_spec_from_string (w.df_cmd_name_part_from_string (cmd_string f)))
              (w.df_cmd_arg_part_from_string (cmd_string f)) ≠ [] →
            pushes = [Event.df_push_cmd__root
              ⟨DF_CmdParamsSource.window dst,
                some (w.df_cmd_params_apply_spec_query dst
                  (w.df_cmd_spec_from_string (w.df_cmd_name_part_from_string (cmd_string f)))
                  (w.df_cmd_arg_part_from_string (cmd_string f))), none⟩
              (w.df_cmd_spec_from_core_cmd_kind DF_CoreCmdKind.Error)]) ∧
          ((dst.focused = true ∧ ∃ before after, f.windows = before ++ dst :: after ∧
              ∀ window ∈ before, window.focused = false) ∨
            ((∀ window ∈ f.windows, window.focused = false) ∧
              f.windows.head? = some dst)))) ∧
    (∀ (jit_pid : Nat) (frames : List Frame) (auto_run auto_step jit_attach : Bool),
      ∃ rest, main_loop w jit_pid (f :: frames) auto_run auto_step jit_attach =
        ipc_receive_events w f ++ Event.update_and_render :: rest) := by
  refine ⟨?_, ?_, ?_, fun _ _ _ _ _ => ⟨_, main_loop_cons w _ f _ _ _ _⟩⟩
  · intro h
    simp [ipc_receive_events, h]
  · intro h h0
    simp [ipc_receive_events, h, h0]
  · intro h h0
    cases hdst : dst_window f.windows with
    | none =>
      refine ⟨[], ?_, by simp, fun _ => rfl,
        fun hwindows => absurd ((dst_window_eq_none f.windows).1 hdst) hwindows⟩
      simp [ipc_receive_events, h, h0, hdst]
    | some dst =>
      have hne : f.windows ≠ [] := by
        intro hnil
        rw [(dst_window_eq_none f.windows).2 hnil] at hdst
        cases hdst
      by_cases hspec :
          w.df_cmd_spec_from_string (w.df_cmd_name_part_from_string (cmd_string f)) = 0
      · refine ⟨[], ?_, by simp, fun _ => rfl, ?_⟩
        · unfold cmd_string at hspec
          simp [ipc_receive_events, h, h0, hdst, df_cmd_spec_is_nil, hspec]
        · intro _
          exact ⟨dst, rfl, fun _ => rfl, fun hn => absurd hspec hn, fun hn => absurd hspec hn,
            dst_window_spec f.windows dst hdst⟩
      · by_cases herr : w.df_cmd_params_apply_spec_query dst
            (w.df_cmd_spec_from_string (w.df_cmd_name_part_from_string (cmd_string f)))
            (w.df_cmd_arg_part_from_string (cmd_string f)) = []
        · refine ⟨[Event.df_push_cmd__root
              ⟨DF_CmdParamsSource.query dst
                (w.df_cmd_spec_from_string (w.df_cmd_name_part_from_string (cmd_string f)))
                (w.df_cmd_arg_part_from_string (cmd_string f)), none, none⟩
              (w.df_cmd_spec_from_string (w.df_cmd_name_part_from_string (cmd_string f)))],
            ?_, ?_, fun hnil => absurd hnil hne, ?_⟩
          rotate_left
          · exact Nat.le_refl 1
          · intro _
            exact ⟨dst, rfl, fun hz => absurd hz hspec, fun _ _ => rfl, fun _ hn => absurd herr hn,
              dst_window_spec f.windows dst hdst⟩
          · unfold cmd_string at hspec herr
            simp [ipc_receive_events, h, h0, hdst, df_cmd_spec_is_nil, hspec, herr, cmd_string]
        · refine ⟨[Event.df_push_cmd__root
              ⟨DF_CmdParamsSource.window dst,
                some (w.df_cmd_params_apply_spec_query dst
                  (w.df_cmd_spec_from_string (w.df_cmd_name_part_from_string (cmd_string f)))
                  (w.df_cmd_arg_part_from_string (cmd_string f))), none⟩
              (w.df_cmd_spec_from_core_cmd_kind DF_CoreCmdKind.Error)],
            ?_, ?_, fun hnil => absurd hnil hne, ?_⟩
          rotate_left
          · exact Nat.le_refl 1
          · intro _
            exact ⟨dst, rfl, fun hz => absurd hz hspec, fun _ he => absurd he herr, fun _ _ => rfl,
              dst_window_spec f.windows dst hdst⟩
          · unfold cmd_string at hspec herr
            simp [ipc_receive_events, h, h0, hdst, df_cmd_spec_is_nil, hspec, herr, cmd_string,
              df_cmd_params_from_window]
/-- C18, on two examples: the message `run` with an unfocused and a focused window, which goes
to the focused window, and the same message with two unfocused windows, which goes to the
first window. -/
theorem ipc_message_consumed_once_witness :
    (example_frame_unfocused.sem_take = true ∧
      example_frame_unfocused.shared.info.msg_size ≠ 0 ∧
      example_frame_unfocused.windows ≠ []) ∧
    ipc_receive_events example_world example_frame_message =
      [Event.os_semaphore_take, Event.store_msg_size 0,
       Event.df_push_cmd__root ⟨DF_CmdParamsSource.query ⟨⟨2⟩, true⟩ 10 [], none, none⟩ 10,
       Event.os_semaphore_drop] ∧
    ipc_receive_events example_world example_frame_unfocused =
      [Event.os_semaphore_take, Event.store_msg_size 0,
       Event.df_push_cmd__root ⟨DF_CmdParamsSource.query ⟨⟨1⟩, false⟩ 10 [], none, none⟩ 10,
       Event.os_semaphore_drop] ∧
    ∃ pushes : List Event,
      ipc_receive_events example_world example_frame_unfocused =
        [Event.os_semaphore_take, Event.store_msg_size 0] ++ pushes ++
        [Event.os_semaphore_drop] ∧
      pushes.length ≤ 1 ∧
      ∃ dst, dst_window example_frame_unfocused.windows = some dst ∧
        (∀ window ∈ example_frame_unfocused.windows, window.focused = false) ∧
        dst = ⟨⟨1⟩, false⟩ :=
  ⟨⟨by decide, by decide, by decide⟩, by decide, by decide,
    ((ipc_message_consumed_once example_world example_frame_unfocused).2.2.1
      (by decide) (by decide)).imp
      (fun _ h => ⟨h.1, h.2.1,
        (h.2.2.2 (by decide)).imp (fun _ hd =>
          ⟨hd.1, by decide, Option.some.inj (hd.1.symm.trans (by decide))⟩)⟩)⟩

theorem ipc_receive_events_stores (w : World) (f : Frame) (bound : Nat) :
    ∀ e ∈ ipc_receive_events w f, stores_at_most bound e = true := by
  intro e he
  unfold ipc_receive_events at he
  simp only [List.mem_cons] at he
  rcases he with rfl | he
  · rfl
  · revert he
    repeat' split
    all_goals simp
    all_goals (try rintro (rfl | rfl | rfl))
    all_goals simp [stores_at_most]

theorem main_loop_stores (w : World) (jit_pid : Nat) (frames : List Frame)
    (auto_run auto_step jit_attach : Bool) (bound : Nat) :
    ∀ e ∈ main_loop w jit_pid frames auto_run auto_step jit_attach,
      stores_at_most bound e = true := by
  induction frames generalizing auto_run auto_step jit_attach with
  | nil => intro e he; simp [main_loop] at he
  | cons f fs ih =>
    intro e he
    simp only [main_loop, List.mem_append] at he
    rcases he with ((((he | he) | he) | he) | he) | he
    · exact ipc_receive_events_stores w f bound e he
    · simp at he; subst he; rfl
    · split at he
      · simp at he; subst he; rfl
      · simp at he
    · split at he
      · simp at he; subst he; rfl
      · simp at he
    · split at he
      · simp at he; subst he; rfl
      · simp at he
    · split at he
      · simp at he
      · exact ih _ _ _ e he

theorem target_setup_events_stores (w : World) (cmdln : CmdLine) (bound : Nat) :
    ∀ e ∈ target_setup_events w cmdln, stores_at_most bound e = true := by
  intro e he
  unfold target_setup_events at he
  revert he
  repeat' split
  all_goals simp
  rintro (rfl | rfl | rfl | rfl | rfl | ⟨_, (rfl | rfl)⟩ | ⟨_, (rfl | rfl)⟩) <;> rfl

theorem entry_point_stores (w : World) (cmdln : CmdLine) :
    ∀ e ∈ (entry_point w cmdln).events,
      stores_at_most (u64_sub IPC_SHARED_MEMORY_BUFFER_SIZE sizeof_IPCInfo) e = true := by
  intro e he
  have hpre : ∀ x ∈ prelude_events w cmdln,
      stores_at_most (u64_sub IPC_SHARED_MEMORY_BUFFER_SIZE sizeof_IPCInfo) x = true := by
    intro x hx
    rcases mem_prelude_events w cmdln x hx with rfl | rfl | rfl <;> rfl
  cases hmode : exec_mode cmdln with
  | Normal =>
    simp only [entry_point, hmode, normal_events, List.mem_append] at he
    rcases he with he | (he | he) | he
    · exact hpre e he
    · simp at he
      rcases he with h | h | h | h | h | h | h | h | h | h | h | h | h | h | h | h | h | h |
        h | h | h <;> subst h <;> simp [stores_at_most]
    · exact target_setup_events_stores w cmdln _ e he
    · exact main_loop_stores w _ _ _ _ _ _ e he
  | IPCSender =>
    simp only [entry_point, hmode, List.mem_append] at he
    rcases he with he | he
    · exact hpre e he
    · unfold ipc_sender at he
      revert he
      repeat' split
      all_goals simp
      all_goals rintro (rfl | rfl | rfl | rfl | rfl | rfl | rfl)
      all_goals simp [stores_at_most]
  | Converter =>
    rw [entry_point_converter w cmdln hmode, List.mem_append] at he
    rcases he with he | he
    · exact hpre e he
    · rcases mem_converter_events w cmdln e he with
        rfl | rfl | rfl | ⟨_, rfl⟩ | ⟨_, _, rfl⟩ | rfl <;> rfl
  | Help =>
    simp only [entry_point, hmode, help_events, List.mem_append] at he
    rcases he with he | he
    · exact hpre e he
    · simp at he; subst he; rfl

/-- C19: the size of the shared buffer, `IPC_SHARED_MEMORY_BUFFER_SIZE - sizeof(IPCInfo)`, does
not wrap around and is positive; the sender stores as `msg_size` the smaller of that size and
the length of the message and copies exactly that many bytes; every store of this program into
`msg_size` (zero at start-up, the send, the reset after a message is received) stores a value
that is at most the size of the buffer; and while `msg_size` is at most the size of the buffer,
the string of `msg_size` bytes read by the receiver lies inside the buffer. -/
theorem ipc_msg_size_within_buffer (w : World) (cmdln : CmdLine) :
    (sizeof_IPCInfo < IPC_SHARED_MEMORY_BUFFER_SIZE ∧
      u64_sub IPC_SHARED_MEMORY_BUFFER_SIZE sizeof_IPCInfo =
        IPC_SHARED_MEMORY_BUFFER_SIZE - sizeof_IPCInfo ∧
      0 < u64_sub IPC_SHARED_MEMORY_BUFFER_SIZE sizeof_IPCInfo) ∧
    (∀ shared : IPCShared, exec_mode cmdln = ExecMode.IPCSender →
      w.sender_view = some shared → w.sender_sem_take = true →
      ∃ sent : IPCShared, (entry_point w cmdln).shared = some sent ∧
        sent.info.msg_size =
          min (u64_sub IPC_SHARED_MEMORY_BUFFER_SIZE sizeof_IPCInfo)
            (str8_list_join cmdln.inputs ⟨str8_lit "", str8_lit " ", str8_lit ""⟩).length ∧
        sent.buffer = MemoryCopy shared.buffer
          (str8_list_join cmdln.inputs ⟨str8_lit "", str8_lit " ", str8_lit ""⟩)
          sent.info.msg_size ∧
        Event.MemoryCopy_buffer
          (str8_list_join cmdln.inputs ⟨str8_lit "", str8_lit " ", str8_lit ""⟩)
          sent.info.msg_size ∈ (entry_point w cmdln).events) ∧
    (∀ value : Nat, Event.store_msg_size value ∈ (entry_point w cmdln).events →
      value ≤ u64_sub IPC_SHARED_MEMORY_BUFFER_SIZE sizeof_IPCInfo) ∧
    (∀ f : Frame,
      f.shared.info.msg_size ≤ u64_sub IPC_SHARED_MEMORY_BUFFER_SIZE sizeof_IPCInfo →
      f.shared.buffer.length = u64_sub IPC_SHARED_MEMORY_BUFFER_SIZE sizeof_IPCInfo →
      (cmd_string f).length = f.shared.info.msg_size ∧
      ∀ i : Nat, i < f.shared.info.msg_size → (cmd_string f)[i]? = f.shared.buffer[i]? ∧
        i < f.shared.buffer.length) := by
  refine ⟨⟨by decide, by decide, by decide⟩, ?_, ?_, ?_⟩
  · intro shared hmode hview hsem
    refine ⟨⟨⟨min (u64_sub IPC_SHARED_MEMORY_BUFFER_SIZE sizeof_IPCInfo)
        (str8_list_join cmdln.inputs ⟨str8_lit "", str8_lit " ", str8_lit ""⟩).length⟩,
      MemoryCopy shared.buffer
        (str8_list_join cmdln.inputs ⟨str8_lit "", str8_lit " ", str8_lit ""⟩)
        (min (u64_sub IPC_SHARED_MEMORY_BUFFER_SIZE sizeof_IPCInfo)
          (str8_list_join cmdln.inputs ⟨str8_lit "", str8_lit " ", str8_lit ""⟩).length)⟩,
      ?_, rfl, rfl, ?_⟩
    · simp only [entry_point, hmode, ipc_sender, hview, hsem, if_true]
    · simp only [entry_point, hmode, ipc_sender, hview, hsem, if_true]
      simp
  · intro value hmem
    have := entry_point_stores w cmdln _ hmem
    simpa [stores_at_most] using this
  · intro f hle hlen
    refine ⟨?_, ?_⟩
    · simp only [cmd_string, List.length_take]
      omega
    · intro i hi
      refine ⟨?_, by omega⟩
      simp [cmd_string, List.getElem?_take, hi]

/-- C19, on an example: the sender run with the command `run a.exe`, and the read of the
message `run` from a buffer of full size. -/
theorem ipc_msg_size_within_buffer_witness :
    (exec_mode ipc_cmdln = ExecMode.IPCSender ∧
     example_world.sender_view = some ⟨⟨0⟩, [0, 0, 0, 0, 0, 0, 0, 0]⟩ ∧
     example_world.sender_sem_take = true) ∧
    (∃ sent : IPCShared, (entry_point example_world ipc_cmdln).shared = some sent ∧
      sent.info.msg_size =
        min (u64_sub IPC_SHARED_MEMORY_BUFFER_SIZE sizeof_IPCInfo)
          (str8_list_join ipc_cmdln.inputs ⟨str8_lit "", str8_lit " ", str8_lit ""⟩).length) ∧
    (entry_point example_world ipc_cmdln).shared = some ⟨⟨9⟩, str8_lit "run a.exe"⟩ :=
  ⟨⟨by decide, rfl, rfl⟩,
    ((ipc_msg_size_within_buffer example_world ipc_cmdln).2.1 _ (by decide) rfl rfl).imp
      (fun _ h => ⟨h.1, h.2.1⟩),
    by decide⟩
/-! ## The main loop -/

theorem main_loop_eq_message_iterations (w : World) (jit_pid : Nat) (fs : List Frame) :
    main_loop w jit_pid fs false false false = message_iterations w fs := by
  induction fs with
  | nil => rfl
  | cons f fs ih =>
    rw [main_loop_cons, ih]
    simp [start_up_events, message_iterations]

theorem mem_message_iterations (w : World) (fs : List Frame) (e : Event)
    (he : e ∈ message_iterations w fs) :
    e = Event.update_and_render ∨ ∃ f ∈ fs, e ∈ ipc_receive_events w f := by
  induction fs with
  | nil => simp [message_iterations] at he
  | cons f fs ih =>
    simp only [message_iterations, List.mem_append, List.mem_cons] at he
    rcases he with he | he | he
    · exact Or.inr ⟨f, List.mem_cons_self _ _, he⟩
    · exact Or.inl he
    · split at he
      · simp at he
      · rcases ih he with h | ⟨g, hg, h⟩
        · exact Or.inl h
        · exact Or.inr ⟨g, List.mem_cons_of_mem _ hg, h⟩

theorem entry_point_normal (w : World) (cmdln : CmdLine)
    (hmode : exec_mode cmdln = ExecMode.Normal) :
    (entry_point w cmdln).events =
      prelude_events w cmdln ++ normal_start_events w cmdln ++
      main_loop w (jit_value w cmdln (str8_lit "jit_pid")) w.frames
        (cmdln.has_flag (str8_lit "auto_run")) (cmdln.has_flag (str8_lit "auto_step"))
        (jit_value w cmdln (str8_lit "jit_addr") != 0) := by
  simp [entry_point, hmode, normal_events, normal_start_events]

theorem normal_start_events_no_push (w : World) (cmdln : CmdLine) :
    ∀ e ∈ prelude_events w cmdln ++ normal_start_events w cmdln,
      e ≠ Event.update_and_render ∧ as_pushed_spec e = none := by
  intro e he
  rw [List.mem_append] at he
  rcases he with he | he
  · rcases mem_prelude_events w cmdln e he with rfl | rfl | rfl <;>
      exact ⟨(fun h => nomatch h), rfl⟩
  · simp only [normal_start_events, List.mem_append] at he
    rcases he with he | he
    · simp at he
      rcases he with h | h | h | h | h | h | h | h | h | h | h | h | h | h | h | h | h | h |
        h | h | h <;> subst h <;> exact ⟨(fun h => nomatch h), rfl⟩
    · unfold target_setup_events at he
      revert he
      repeat' split
      all_goals simp
      rintro (rfl | rfl | rfl | rfl | rfl | ⟨_, (rfl | rfl)⟩ | ⟨_, (rfl | rfl)⟩) <;>
        exact ⟨(fun h => nomatch h), rfl⟩

/-- C11, refuted as stated: with the flag `auto_run`, the command `LaunchAndRun` is pushed in
the first iteration by the start-up block and again in the second iteration, for a message
that names it; without the flag, the main loop still pushes it for that message. -/
theorem auto_run_pushed_again_counterexample :
    exec_mode auto_run_cmdln = ExecMode.Normal ∧
    auto_run_cmdln.has_flag (str8_lit "auto_run") = true ∧
    (entry_point example_world_launch auto_run_cmdln).events.drop 23 =
      [Event.os_semaphore_take, Event.os_semaphore_drop,
       Event.update_and_render,
       Event.df_push_cmd__root df_cmd_params_from_gfx
        (example_world_launch.df_cmd_spec_from_core_cmd_kind DF_CoreCmdKind.LaunchAndRun),
       Event.os_semaphore_take, Event.store_msg_size 0,
       Event.df_push_cmd__root ⟨DF_CmdParamsSource.query ⟨⟨1⟩, true⟩ 1 [], none, none⟩
        (example_world_launch.df_cmd_spec_from_core_cmd_kind DF_CoreCmdKind.LaunchAndRun),
       Event.os_semaphore_drop,
       Event.update_and_render] ∧
    (pushed_specs (entry_point example_world_launch auto_run_cmdln).events).count
      (example_world_launch.df_cmd_spec_from_core_cmd_kind DF_CoreCmdKind.LaunchAndRun) = 2 ∧
    exec_mode empty_cmdln = ExecMode.Normal ∧
    empty_cmdln.has_flag (str8_lit "auto_run") = false ∧
    (pushed_specs (entry_point example_world_launch empty_cmdln).events).count
      (example_world_launch.df_cmd_spec_from_core_cmd_kind DF_CoreCmdKind.LaunchAndRun) = 1 := by
  refine ⟨by decide, by decide, by decide, by decide, by decide, by decide, by decide⟩

/-- C11, amended: in normal mode the first iteration of the main loop runs the message block,
then `update_and_render`, then the start-up blocks, which push `LaunchAndRun` once if the flag
`auto_run` is given and not otherwise, then `StepInto` once if the flag `auto_step` is given
and not otherwise (then the attach command of a jit start); no command is pushed and
`update_and_render` is not called before this iteration; and every later iteration consists of
the message block and `update_and_render` alone, so that the start-up blocks push nothing more
and a later push is the push of a message block, for the command named by the message. -/
theorem start_up_commands_pushed_once (w : World) (cmdln : CmdLine) (f : Frame)
    (fs : List Frame)
    (hmode : exec_mode cmdln = ExecMode.Normal) (hframes : w.frames = f :: fs) :
    (entry_point w cmdln).events =
      (prelude_events w cmdln ++ normal_start_events w cmdln) ++
      ipc_receive_events w f ++ [Event.update_and_render] ++
      (if cmdln.has_flag (str8_lit "auto_run") then
        [Event.df_push_cmd__root df_cmd_params_from_gfx
          (w.df_cmd_spec_from_core_cmd_kind DF_CoreCmdKind.LaunchAndRun)]
       else []) ++
      (if cmdln.has_flag (str8_lit "auto_step") then
        [Event.df_push_cmd__root df_cmd_params_from_gfx
          (w.df_cmd_spec_from_core_cmd_kind DF_CoreCmdKind.StepInto)]
       else []) ++
      (if jit_value w cmdln (str8_lit "jit_addr") != 0 then
        [Event.df_push_cmd__root
          { df_cmd_params_from_gfx with id := some (jit_value w cmdln (str8_lit "jit_pid")) }
          (w.df_cmd_spec_from_core_cmd_kind DF_CoreCmdKind.Attach)]
       else []) ++
      (if f.no_windows_left then [] else message_iterations w fs) ∧
    (∀ e ∈ prelude_events w cmdln ++ normal_start_events w cmdln,
      e ≠ Event.update_and_render ∧ as_pushed_spec e = none) ∧
    (∀ e ∈ message_iterations w fs,
      e = Event.update_and_render ∨ ∃ g ∈ fs, e ∈ ipc_receive_events w g) := by
  refine ⟨?_, normal_start_events_no_push w cmdln, mem_message_iterations w fs⟩
  rw [entry_point_normal w cmdln hmode, hframes, main_loop_cons,
    main_loop_eq_message_iterations]
  simp [start_up_events, List.append_assoc]

/-- C11 as amended, on an example: the flag `auto_run` and two iterations. -/
theorem start_up_commands_pushed_once_witness :
    (exec_mode auto_run_cmdln = ExecMode.Normal ∧
     example_world_launch.frames =
      [⟨true, ⟨⟨0⟩, []⟩, [⟨⟨1⟩, true⟩], false⟩,
       ⟨true, ⟨⟨14⟩, str8_lit "launch_and_run"⟩, [⟨⟨1⟩, true⟩], true⟩]) ∧
    ∀ e ∈ message_iterations example_world_launch
        [⟨true, ⟨⟨14⟩, str8_lit "launch_and_run"⟩, [⟨⟨1⟩, true⟩], true⟩],
      e = Event.update_and_render ∨
      ∃ g ∈ [(⟨true, ⟨⟨14⟩, str8_lit "launch_and_run"⟩, [⟨⟨1⟩, true⟩], true⟩ : Frame)],
        e ∈ ipc_receive_events example_world_launch g :=
  ⟨⟨by decide, rfl⟩,
    (start_up_commands_pushed_once example_world_launch auto_run_cmdln _ _
      (by decide) rfl).2.2⟩

/-! ## The key-binding change -/

/-- The loop of the bind change block looks at the first event of the list and at no other:
after the first pass `event` is `next`, which is null. -/
theorem bind_change_loop_first_only (g : GfxWorld) (gfx : DF_GfxState)
    (events : List OS_Event) (first : OS_Event) (rest : List OS_Event) (passes : Nat) :
    bind_change_loop g gfx events (passes + 2) (first :: rest) [] =
      if is_bindable_press first then
        ⟨{ gfx with bind_change_active := false },
          g.os_eat_event
            (g.os_text events (g.os_codepoint_from_event_flags_and_key first.flags first.key))
            first,
          [GfxCall.df_unbind_spec gfx.bind_change_cmd_spec gfx.bind_change_binding,
           GfxCall.df_bind_spec gfx.bind_change_cmd_spec ⟨first.key, first.flags⟩,
           GfxCall.os_text (g.os_codepoint_from_event_flags_and_key first.flags first.key),
           GfxCall.os_eat_event first,
           GfxCall.df_push_cmd__root df_cmd_params_from_gfx g.cfg_write_cmd_spec]⟩
      else ⟨gfx, events, []⟩ := by
  by_cases h : is_bindable_press first = true
  · simp [bind_change_loop, h]
  · simp [bind_change_loop, h]

/-- The bind change block when neither `Esc` nor `Delete` was pressed and the first event of
the list is not a bindable press: nothing is rebound, whatever events follow the first. -/
theorem bind_change_skips_later_events (g : GfxWorld) (gfx : DF_GfxState)
    (first : OS_Event) (rest : List OS_Event)
    (hactive : gfx.bind_change_active = true)
    (hesc : g.os_key_press (first :: rest) OS_Key.Esc = none)
    (hdelete : g.os_key_press (first :: rest) OS_Key.Delete = none)
    (hfirst : is_bindable_press first = false) :
    bind_change g gfx (first :: rest) = ⟨gfx, first :: rest, []⟩ := by
  simp [bind_change, hactive, hesc, hdelete, bind_change_loop_first_only, hfirst]

/-- The bind change block when neither `Esc` nor `Delete` was pressed and the first event of
the list is a bindable press: the rebind is completed with that event. -/
theorem bind_change_takes_first_event (g : GfxWorld) (gfx : DF_GfxState)
    (first : OS_Event) (rest : List OS_Event)
    (hactive : gfx.bind_change_active = true)
    (hesc : g.os_key_press (first :: rest) OS_Key.Esc = none)
    (hdelete : g.os_key_press (first :: rest) OS_Key.Delete = none)
    (hfirst : is_bindable_press first = true) :
    bind_change g gfx (first :: rest) =
      ⟨{ gfx with bind_change_active := false },
        g.os_eat_event
          (g.os_text (first :: rest)
            (g.os_codepoint_from_event_flags_and_key first.flags first.key))
          first,
        [GfxCall.df_unbind_spec gfx.bind_change_cmd_spec gfx.bind_change_binding,
         GfxCall.df_bind_spec gfx.bind_change_cmd_spec ⟨first.key, first.flags⟩,
         GfxCall.os_text (g.os_codepoint_from_event_flags_and_key first.flags first.key),
         GfxCall.os_eat_event first,
         GfxCall.df_push_cmd__root df_cmd_params_from_gfx g.cfg_write_cmd_spec]⟩ := by
  simp [bind_change, hactive, hesc, hdelete, bind_change_loop_first_only, hfirst]

/-- C20, on the failing input: a binding change is active and the event list holds a mouse
move followed by a press of the key 65, which is a press of none of the excluded keys; the
bind change block leaves the binding change active, consumes no event and makes no call: the
previous binding is not unbound and the command is not bound to the key.  With the press alone
in the list the rebind is completed. -/
theorem bind_change_misses_later_press :
    example_bind_change.bind_change_active = true ∧
    is_bindable_press example_press = true ∧
    example_press ∈ [example_mouse_move, example_press] ∧
    bind_change example_gfx_world example_bind_change [example_mouse_move, example_press] =
      ⟨example_bind_change, [example_mouse_move, example_press], []⟩ ∧
    bind_change example_gfx_world example_bind_change [example_press] =
      ⟨{ example_bind_change with bind_change_active := false }, [],
        [GfxCall.df_unbind_spec 7 ⟨OS_Key.Other 66, 0⟩,
         GfxCall.df_bind_spec 7 ⟨OS_Key.Other 65, 0⟩,
         GfxCall.os_text 65,
         GfxCall.os_eat_event example_press,
         GfxCall.df_push_cmd__root df_cmd_params_from_gfx 20]⟩ := by
  refine ⟨by decide, by decide, by decide, by decide, by decide⟩

/-! ## Degraded conversions -/

/-- C12, refuted as stated: a conversion that completes with one degraded item.  The run
writes the output file and ends with exit status zero, but its calls are those of the run
without degraded items, none of which reports a count. -/
theorem degraded_conversion_counterexample :
    exec_mode convert_cmdln = ExecMode.Converter ∧
    example_world_degraded.degraded_items
      (example_world_degraded.pdb_convert_params_from_cmd_line convert_cmdln) = 1 ∧
    (entry_point example_world_degraded convert_cmdln).events =
      [Event.os_init,
       Event.os_make_directory (str8_lit "/home/u/raddbg"),
       Event.pdb_convert_params_from_cmd_line,
       Event.os_file_open [OS_AccessFlag.Read, OS_AccessFlag.Write] (str8_lit "a.rdi"),
       Event.pdbconv_convert ⟨str8_lit "a.rdi", [str8_lit "a.pdb"]⟩,
       Event.cons_bake_file ⟨1⟩,
       Event.os_file_write ⟨3⟩ ⟨0, 2⟩ [1, 2],
       Event.os_file_write ⟨3⟩ ⟨2, 3⟩ [3],
       Event.os_file_write ⟨3⟩ ⟨3, 6⟩ [4, 5, 6],
       Event.os_file_close ⟨3⟩] ∧
    (entry_point example_world_degraded convert_cmdln).events =
      (entry_point example_world convert_cmdln).events ∧
    (main example_world_degraded convert_cmdln).2 = 0 := by
  refine ⟨by decide, by decide, by decide, by decide, by decide⟩

/-- C12, amended: when the output file opens under a non-empty name and the conversion
completes, with or without degraded items, the run of converter mode calls `cons_bake_file`
and writes every node of the baked list to the output file, and the exit status is zero; the
entry point reads only the tree root of the conversion result, so its calls are the same for
every count of degraded items and none of them reports such a count. -/
theorem degraded_conversion_still_writes_output (w : World) (cmdln : CmdLine)
    (out : PDBCONV_Out)
    (hmode : exec_mode cmdln = ExecMode.Converter)
    (hopen : w.os_file_open [OS_AccessFlag.Read, OS_AccessFlag.Write]
      (w.pdb_convert_params_from_cmd_line cmdln).output_name ≠ os_handle_zero)
    (hout : w.pdbconv_convert (w.pdb_convert_params_from_cmd_line cmdln) = some out)
    (hname : (w.pdb_convert_params_from_cmd_line cmdln).output_name.length > 0) :
    (entry_point w cmdln).events =
      prelude_events w cmdln ++
      [Event.pdb_convert_params_from_cmd_line,
       Event.os_file_open [OS_AccessFlag.Read, OS_AccessFlag.Write]
        (w.pdb_convert_params_from_cmd_line cmdln).output_name,
       Event.pdbconv_convert (w.pdb_convert_params_from_cmd_line cmdln),
       Event.cons_bake_file out.root] ++
      bake_write_loop (out_file w cmdln) 0 (w.cons_bake_file out.root) ++
      [Event.os_file_close (out_file w cmdln)] ∧
    (file_writes (entry_point w cmdln).events).map Prod.snd = w.cons_bake_file out.root ∧
    (main w cmdln).2 = 0 ∧
    (WinMain w cmdln none).2 = 0 ∧
    (∀ count : PDBCONV_Params → Nat,
      (entry_point { w with degraded_items := count } cmdln).events =
        (entry_point w cmdln).events ∧
      (main { w with degraded_items := count } cmdln).2 = (main w cmdln).2) := by
  have hev : (entry_point w cmdln).events =
      prelude_events w cmdln ++
      [Event.pdb_convert_params_from_cmd_line,
       Event.os_file_open [OS_AccessFlag.Read, OS_AccessFlag.Write]
        (w.pdb_convert_params_from_cmd_line cmdln).output_name,
       Event.pdbconv_convert (w.pdb_convert_params_from_cmd_line cmdln),
       Event.cons_bake_file out.root] ++
      bake_write_loop (out_file w cmdln) 0 (w.cons_bake_file out.root) ++
      [Event.os_file_close (out_file w cmdln)] := by
    rw [entry_point_converter w cmdln hmode,
      converter_events_of_success w cmdln out hopen hout hname]
    simp [out_file]
  have hloop : ∀ (file : OS_Handle) (off : Nat) (list : List String8),
      (file_writes (bake_write_loop file off list)).map Prod.snd = list := by
    intro file off list
    induction list generalizing off with
    | nil => rfl
    | cons first rest ih => simp [bake_write_loop, file_writes_cons_write, ih]
  refine ⟨hev, ?_, rfl, rfl, fun count => ⟨?_, rfl⟩⟩
  rotate_left
  · rw [entry_point_converter _ cmdln hmode, entry_point_converter w cmdln hmode]
    rfl
  rw [hev, file_writes_append, file_writes_append, file_writes_append,
    file_writes_of_no_write _ (prelude_no_write w cmdln)]
  simp [file_writes, as_file_write]
  exact hloop _ _ _

/-- C12 as amended, on an example: a conversion that records one degraded item. -/
theorem degraded_conversion_still_writes_output_witness :
    (exec_mode convert_cmdln = ExecMode.Converter ∧
     example_world_degraded.degraded_items
      (example_world_degraded.pdb_convert_params_from_cmd_line convert_cmdln) = 1) ∧
    (file_writes (entry_point example_world_degraded convert_cmdln).events).map Prod.snd =
      [[1, 2], [3], [4, 5, 6]] :=
  ⟨⟨by decide, by decide⟩,
    (degraded_conversion_still_writes_output example_world_degraded convert_cmdln ⟨⟨1⟩⟩
      (by decide) (by decide) (by decide) (by decide)).2.1⟩

/-! ## Facts about the type graph builder -/

theorem mem_of_lookup_eq_some {α β : Type} [BEq α] [LawfulBEq α] (key : α) (value : β)
    (list : List (α × β)) (h : list.lookup key = some value) : (key, value) ∈ list := by
  induction list with
  | nil => simp at h
  | cons head rest ih =>
    obtain ⟨k, v⟩ := head
    simp only [List.lookup_cons] at h
    by_cases hk : key == k
    · simp [hk] at h
      have : key = k := by simpa using hk
      subst this; subst h
      exact List.mem_cons_self _ _
    · simp [hk] at h
      exact List.mem_cons_of_mem _ (ih h)

theorem lookup_eq_none_of_not_mem {α β : Type} [BEq α] [LawfulBEq α] (key : α)
    (list : List (α × β)) (h : ∀ entry ∈ list, entry.1 ≠ key) : list.lookup key = none := by
  induction list with
  | nil => rfl
  | cons head rest ih =>
    obtain ⟨k, v⟩ := head
    have hk : (key == k) = false := by
      have := h (k, v) (List.mem_cons_self _ _)
      simpa using fun e => this e.symm
    simp only [List.lookup_cons, hk]
    exact ih (fun entry he => h entry (List.mem_cons_of_mem _ he))

theorem lookup_cons_of_ne {α β : Type} [BEq α] [LawfulBEq α] (key k : α) (v : β)
    (list : List (α × β)) (h : key ≠ k) : ((k, v) :: list).lookup key = list.lookup key := by
  have hk : (key == k) = false := by simpa using h
  simp [List.lookup_cons, hk]

theorem lookup_cons_self {α β : Type} [BEq α] [LawfulBEq α] (k : α) (v : β)
    (list : List (α × β)) : ((k, v) :: list).lookup k = some v := by
  simp [List.lookup_cons]

/-- Two entries with the same second component are the same entry, when no second component
occurs twice. -/
theorem fst_eq_of_nodup_snd {α β : Type} (list : List (α × β)) (a1 a2 : α) (b : β)
    (hnodup : (list.map Prod.snd).Nodup) (h1 : (a1, b) ∈ list) (h2 : (a2, b) ∈ list) :
    a1 = a2 := by
  induction list with
  | nil => simp at h1
  | cons head rest ih =>
    simp only [List.map_cons, List.nodup_cons, List.mem_map, not_exists, not_and] at hnodup
    rcases List.mem_cons.1 h1 with e1 | m1
    · rcases List.mem_cons.1 h2 with e2 | m2
      · have := e1.trans e2.symm
        exact (Prod.mk.inj this).1
      · exact absurd (by rw [← e1]) (hnodup.1 (a2, b) m2)
    · rcases List.mem_cons.1 h2 with e2 | m2
      · exact absurd (by rw [← e2]) (hnodup.1 (a1, b) m1)
      · exact ih hnodup.2 m1 m2

theorem find_of_mem_nodup_snd {α : Type} (list : List (α × Nat)) (a : α) (b : Nat)
    (hnodup : (list.map Prod.snd).Nodup) (h : (a, b) ∈ list) :
    list.find? (fun entry => entry.2 == b) = some (a, b) ∧
    (list.filter (fun entry => entry.2 == b)).length = 1 := by
  induction list with
  | nil => simp at h
  | cons head rest ih =>
    simp only [List.map_cons, List.nodup_cons, List.mem_map, not_exists, not_and] at hnodup
    rcases List.mem_cons.1 h with e | m
    · subst e
      have hrest : rest.filter (fun entry => entry.2 == b) = [] := by
        rw [List.filter_eq_nil_iff]
        intro entry he hb
        have hb2 : entry.2 = b := by simpa using hb
        exact hnodup.1 entry he hb2
      simp [List.find?_cons, List.filter_cons, hrest]
    · have hne : (head.2 == b) = false := by
        have : head.2 ≠ b := fun e => hnodup.1 (a, b) m (by simp [e])
        simpa using this
      have := ih hnodup.2 m
      simp [List.find?_cons, List.filter_cons, hne, this.1, this.2]

theorem wf_lookup_inj (g : TypeGraph) (hwf : g.wf) (i j id : Nat)
    (hi : g.ids.lookup i = some id) (hj : g.ids.lookup j = some id) : i = j :=
  fst_eq_of_nodup_snd g.ids i j id hwf.2 (mem_of_lookup_eq_some _ _ _ hi)
    (mem_of_lookup_eq_some _ _ _ hj)

theorem wf_lookup_lt (g : TypeGraph) (hwf : g.wf) (i id : Nat)
    (hi : g.ids.lookup i = some id) : id < g.nodes.length :=
  hwf.1 (i, id) (mem_of_lookup_eq_some _ _ _ hi)

theorem assign_of_lookup (g : TypeGraph) (index id : Nat)
    (h : g.ids.lookup index = some id) : g.assign index = (g, id) := by
  simp [TypeGraph.assign, h]

/-- The assignment of an identifier keeps the invariant and the identifiers assigned before,
and the index has the returned identifier afterwards. -/
theorem assign_spec (g : TypeGraph) (hwf : g.wf) (index : Nat) :
    (g.assign index).1.wf ∧ g.keeps (g.assign index).1 ∧
    (g.assign index).1.ids.lookup index = some (g.assign index).2 ∧
    (∀ k, k < g.nodes.length → (g.assign index).1.nodes[k]? = g.nodes[k]?) ∧
    g.nodes.length ≤ (g.assign index).1.nodes.length := by
  cases h : g.ids.lookup index with
  | some id =>
    rw [assign_of_lookup g index id h]
    exact ⟨hwf, fun _ _ h => h, h, fun _ _ => rfl, Nat.le_refl _⟩
  | none =>
    have hassign : g.assign index =
        (⟨(index, g.nodes.length) :: g.ids, g.nodes ++ [none]⟩, g.nodes.length) := by
      simp [TypeGraph.assign, h]
    rw [hassign]
    refine ⟨⟨?_, ?_⟩, ?_, ?_, ?_, ?_⟩
    · intro entry he
      simp only [List.mem_cons] at he
      rcases he with rfl | he
      · simp
      · have := hwf.1 entry he
        simp only [List.length_append, List.length_singleton]
        omega
    · simp only [List.map_cons, List.nodup_cons]
      refine ⟨?_, hwf.2⟩
      intro hmem
      obtain ⟨entry, he, hid⟩ := List.mem_map.1 hmem
      have := hwf.1 entry he
      omega
    · intro j v hj
      have hne : j ≠ index := by
        intro e
        rw [e, h] at hj
        cases hj
      show ((index, g.nodes.length) :: g.ids).lookup j = some v
      rw [lookup_cons_of_ne j index _ _ hne]
      exact hj
    · exact lookup_cons_self _ _ _
    · intro k hk
      exact List.getElem?_append_left hk
    · simp

/-- The resolution of child references keeps the invariant and the identifiers assigned
before, and returns for each child the identifier its index has afterwards. -/
theorem resolve_children_spec (kind : TypeKind) (seen : Nat) (children : List Nat) :
    ∀ (g g2 : TypeGraph) (ids : List Nat), g.wf →
      resolve_children kind seen g children = some (g2, ids) →
      g2.wf ∧ g.keeps g2 ∧
      List.Forall₂ (fun child id => g2.ids.lookup child = some id) children ids ∧
      (∀ k, k < g.nodes.length → g2.nodes[k]? = g.nodes[k]?) ∧
      g.nodes.length ≤ g2.nodes.length := by
  induction children with
  | nil =>
    intro g g2 ids hwf h
    simp only [resolve_children, Option.some.injEq, Prod.mk.injEq] at h
    obtain ⟨rfl, rfl⟩ := h
    exact ⟨hwf, fun _ _ h => h, List.Forall₂.nil, fun _ _ => rfl, Nat.le_refl _⟩
  | cons child rest ih =>
    intro g g2 ids hwf h
    simp only [resolve_children] at h
    split at h
    · obtain ⟨hwf1, hkeep1, hlook1, hnodes1, hlen1⟩ := assign_spec g hwf child
      cases hrest : resolve_children kind seen (g.assign child).1 rest with
      | none => simp [hrest] at h
      | some result =>
        obtain ⟨g3, ids3⟩ := result
        simp only [hrest, Option.some.injEq, Prod.mk.injEq] at h
        obtain ⟨rfl, rfl⟩ := h
        obtain ⟨hwf3, hkeep3, hall3, hnodes3, hlen3⟩ := ih _ _ _ hwf1 hrest
        refine ⟨hwf3, fun j v hj => hkeep3 j v (hkeep1 j v hj), ?_, ?_, by omega⟩
        · exact List.Forall₂.cons (hkeep3 _ _ hlook1) hall3
        · intro k hk
          rw [hnodes3 k (by omega), hnodes1 k hk]
    · cases h

/-- The resolution of references to records that all have identifiers, each of which was seen
before or is referred to by an indirection kind, allocates nothing. -/
theorem resolve_children_of_assigned (kind : TypeKind) (seen : Nat) (g : TypeGraph)
    (children : List Nat)
    (hlegal : ∀ child ∈ children, child < seen ∨ kind.is_indirection = true)
    (hassigned : ∀ child ∈ children, (g.ids.lookup child).isSome = true) :
    resolve_children kind seen g children =
      some (g, children.map (fun child => (g.ids.lookup child).getD 0)) := by
  induction children with
  | nil => rfl
  | cons child rest ih =>
    obtain ⟨id, hid⟩ := Option.isSome_iff_exists.1 (hassigned child (List.mem_cons_self _ _))
    have hcond : (decide (child < seen) || kind.is_indirection) = true := by
      rcases hlegal child (List.mem_cons_self _ _) with h | h
      · simp [h]
      · simp [h]
    simp only [resolve_children, hcond, if_true, assign_of_lookup g child id hid]
    rw [ih (fun c hc => hlegal c (List.mem_cons_of_mem _ hc))
      (fun c hc => hassigned c (List.mem_cons_of_mem _ hc))]
    simp [hid]

/-- The processing of a record keeps the invariant and the identifiers assigned before, and
stores the node of the record under the identifier of its index. -/
theorem add_record_spec (g g2 : TypeGraph) (index : Nat) (record : TypeRecord)
    (hwf : g.wf) (h : add_record g index record = some g2) :
    g2.wf ∧ g.keeps g2 ∧
    ∃ id ids, g2.ids.lookup index = some id ∧
      g2.nodes[id]? = some (some ⟨record.kind, record.name, ids⟩) ∧
      List.Forall₂ (fun child cid => g2.ids.lookup child = some cid) record.children ids := by
  unfold add_record at h
  cases hres : resolve_children record.kind index g record.children with
  | none => simp [hres] at h
  | some result =>
    obtain ⟨g1, ids⟩ := result
    simp only [hres, Option.some.injEq] at h
    obtain ⟨hwf1, hkeep1, hall1, _, _⟩ := resolve_children_spec _ _ _ _ _ _ hwf hres
    obtain ⟨hwfa, hkeepa, hlooka, _, _⟩ := assign_spec g1 hwf1 index
    subst h
    refine ⟨⟨?_, hwfa.2⟩, fun j v hj => hkeepa j v (hkeep1 j v hj), _, ids, hlooka, ?_, ?_⟩
    · intro entry he
      simpa using hwfa.1 entry he
    · have hlt := wf_lookup_lt _ hwfa _ _ hlooka
      simp [hlt]
    · exact hall1.imp (fun _ _ h => hkeepa _ _ h)

/-- The forward pass keeps the invariant and the identifiers assigned before, and every record
it has processed has an identifier. -/
theorem build_from_spec (records : List TypeRecord) :
    ∀ (g g2 : TypeGraph) (index : Nat), g.wf → build_from g index records = some g2 →
      g2.wf ∧ g.keeps g2 ∧
      ∀ j, index ≤ j → j < index + records.length → (g2.ids.lookup j).isSome = true := by
  induction records with
  | nil =>
    intro g g2 index hwf h
    simp only [build_from, Option.some.injEq] at h
    subst h
    exact ⟨hwf, fun _ _ h => h, fun j h1 h2 => by simp at h2; omega⟩
  | cons record rest ih =>
    intro g g2 index hwf h
    simp only [build_from] at h
    cases hadd : add_record g index record with
    | none => simp [hadd] at h
    | some g1 =>
      simp only [hadd] at h
      obtain ⟨hwf1, hkeep1, id, _, hid, _, _⟩ := add_record_spec g g1 index record hwf hadd
      obtain ⟨hwf2, hkeep2, hseen⟩ := ih g1 g2 (index + 1) hwf1 h
      refine ⟨hwf2, fun j v hj => hkeep2 j v (hkeep1 j v hj), ?_⟩
      intro j h1 h2
      by_cases hj : j = index
      · subst hj
        simp [hkeep2 _ _ hid]
      · exact hseen j (by omega) (by simp at h2; omega)

theorem build_from_append (first second : List TypeRecord) :
    ∀ (g : TypeGraph) (index : Nat),
      build_from g index (first ++ second) =
        match build_from g index first with
        | none => none
        | some g1 => build_from g1 (index + first.length) second := by
  induction first with
  | nil => intro g index; simp [build_from]
  | cons record rest ih =>
    intro g index
    simp only [List.cons_append, build_from, List.length_cons]
    cases add_record g index record with
    | none => rfl
    | some g1 =>
      have : index + (rest.length + 1) = index + 1 + rest.length := by omega
      rw [this]
      exact ih g1 (index + 1)

theorem wf_empty : (⟨[], []⟩ : TypeGraph).wf := by
  constructor
  · intro entry he; cases he
  · simp

theorem inv_mono (d : Dedup) (handled1 handled2 : Nat → Prop)
    (h : ∀ id, handled1 id → handled2 id) (hinv : d.inv handled1) : d.inv handled2 :=
  ⟨fun entry he => h _ (hinv.1 entry he),
    fun entry he => ⟨h _ (hinv.2.1 entry he).1, (hinv.2.1 entry he).2⟩, hinv.2.2⟩

theorem canon_of_eq_self (d : Dedup) (handled : Nat → Prop) (hinv : d.inv handled)
    (id : Nat) (hid : ¬ handled id) : d.canon_of id = id := by
  have : d.canon.lookup id = none :=
    lookup_eq_none_of_not_mem id d.canon (fun entry he e => hid (e ▸ hinv.1 entry he))
  simp [Dedup.canon_of, this]

/-- The deduplication of a node that was not handled before: the node gets a canonical
identifier, under which the table holds its structural encoding; the entries of the table
stay; and the invariant holds with the node handled. -/
theorem add_spec (d : Dedup) (handled : Nat → Prop) (id : Nat) (node : TypeNode)
    (hinv : d.inv handled) (hnew : ¬ handled id) :
    ∃ canonical,
      (d.add id node).canon = (id, canonical) :: d.canon ∧
      (d.encoding node, canonical) ∈ (d.add id node).table ∧
      (d.add id node).table.lookup (d.encoding node) = some canonical ∧
      (∀ entry ∈ d.table, entry ∈ (d.add id node).table) ∧
      (d.add id node).inv (fun x => handled x ∨ x = id) := by
  have hstay : ∀ entry ∈ d.table, ∀ canonical : Nat,
      ((id, canonical) :: d.canon).lookup entry.2 = some entry.2 := by
    intro entry he canonical
    have hne : entry.2 ≠ id := fun e => hnew (e ▸ (hinv.2.1 entry he).1)
    rw [lookup_cons_of_ne _ _ _ _ hne]
    exact (hinv.2.1 entry he).2
  cases hlook : d.table.lookup (d.encoding node) with
  | some canonical =>
    have hadd : d.add id node = ⟨(id, canonical) :: d.canon, d.table⟩ := by
      simp [Dedup.add, hlook]
    rw [hadd]
    refine ⟨canonical, rfl, mem_of_lookup_eq_some _ _ _ hlook, hlook, fun _ h => h, ?_, ?_, ?_⟩
    · intro entry he
      rcases List.mem_cons.1 he with rfl | he
      · exact Or.inr rfl
      · exact Or.inl (hinv.1 entry he)
    · intro entry he
      exact ⟨Or.inl (hinv.2.1 entry he).1, hstay entry he canonical⟩
    · exact hinv.2.2
  | none =>
    have hadd : d.add id node =
        ⟨(id, id) :: d.canon, (d.encoding node, id) :: d.table⟩ := by
      simp [Dedup.add, hlook]
    rw [hadd]
    refine ⟨id, rfl, List.mem_cons_self _ _, lookup_cons_self _ _ _,
      fun _ h => List.mem_cons_of_mem _ h, ?_, ?_, ?_⟩
    · intro entry he
      rcases List.mem_cons.1 he with rfl | he
      · exact Or.inr rfl
      · exact Or.inl (hinv.1 entry he)
    · intro entry he
      rcases List.mem_cons.1 he with rfl | he
      · exact ⟨Or.inr rfl, lookup_cons_self _ _ _⟩
      · exact ⟨Or.inl (hinv.2.1 entry he).1, hstay entry he id⟩
    · simp only [List.map_cons, List.nodup_cons]
      refine ⟨?_, hinv.2.2⟩
      intro hmem
      obtain ⟨entry, he, hid⟩ := List.mem_map.1 hmem
      exact hnew (hid ▸ (hinv.2.1 entry he).1)

theorem dedup_succ (g : TypeGraph) (count : Nat) :
    dedup g (count + 1) = dedup_step g (dedup g count) count := by
  simp [dedup, List.range_succ, List.foldl_append]

theorem not_handled_of_lookup (g : TypeGraph) (hwf : g.wf) (count index id : Nat)
    (hindex : count ≤ index) (hid : g.ids.lookup index = some id) :
    ¬ g.handled count id := by
  rintro ⟨j, hj, hjid⟩
  have := wf_lookup_inj g hwf j index id hjid hid
  omega

theorem handled_mono (g : TypeGraph) (count id : Nat) (h : g.handled count id) :
    g.handled (count + 1) id := by
  obtain ⟨j, hj, hjid⟩ := h
  exact ⟨j, by omega, hjid⟩

/-- The invariant of deduplication holds after the nodes of the first `count` records. -/
theorem dedup_inv (g : TypeGraph) (hwf : g.wf) (count : Nat) :
    (dedup g count).inv (g.handled count) := by
  induction count with
  | zero =>
    refine ⟨fun entry he => ?_, fun entry he => ?_, ?_⟩
    · simp [dedup] at he
    · simp [dedup] at he
    · simp [dedup]
  | succ count ih =>
    rw [dedup_succ]
    cases hid : g.ids.lookup count with
    | none =>
      have hstep : dedup_step g (dedup g count) count = dedup g count := by
        simp [dedup_step, hid]
      rw [hstep]
      exact inv_mono _ _ _ (handled_mono g count) ih
    | some id =>
      cases hnode : g.nodes[id]? with
      | none =>
        have hstep : dedup_step g (dedup g count) count = dedup g count := by
          simp [dedup_step, hid, hnode]
        rw [hstep]
        exact inv_mono _ _ _ (handled_mono g count) ih
      | some slot =>
        cases slot with
        | none =>
          have hstep : dedup_step g (dedup g count) count = dedup g count := by
            simp [dedup_step, hid, hnode]
          rw [hstep]
          exact inv_mono _ _ _ (handled_mono g count) ih
        | some node =>
          have hstep : dedup_step g (dedup g count) count = (dedup g count).add id node := by
            simp [dedup_step, hid, hnode]
          rw [hstep]
          obtain ⟨_, _, _, _, _, hinv⟩ := add_spec (dedup g count) _ id node ih
            (not_handled_of_lookup g hwf count count id (Nat.le_refl _) hid)
          refine inv_mono _ _ _ ?_ hinv
          rintro x (hx | rfl)
          · exact handled_mono g count x hx
          · exact ⟨count, by omega, hid⟩

/-- The step of deduplication for a record whose node is known. -/
theorem dedup_succ_of_node (g : TypeGraph) (count id : Nat) (node : TypeNode)
    (hid : g.ids.lookup count = some id) (hnode : g.nodes[id]? = some (some node)) :
    dedup g (count + 1) = (dedup g count).add id node := by
  rw [dedup_succ]
  simp [dedup_step, hid, hnode]

theorem resolve_children_isSome (kind : TypeKind) (seen : Nat) (children : List Nat)
    (hlegal : ∀ child ∈ children, child < seen ∨ kind.is_indirection = true) :
    ∀ g : TypeGraph, ∃ result, resolve_children kind seen g children = some result := by
  induction children with
  | nil => intro g; exact ⟨_, rfl⟩
  | cons child rest ih =>
    intro g
    have hcond : (decide (child < seen) || kind.is_indirection) = true := by
      rcases hlegal child (List.mem_cons_self _ _) with h | h
      · simp [h]
      · simp [h]
    obtain ⟨result, hres⟩ := ih (fun c hc => hlegal c (List.mem_cons_of_mem _ hc))
      (g.assign child).1
    simp only [resolve_children, hcond, if_true, hres]
    exact ⟨_, rfl⟩

theorem add_record_isSome (g : TypeGraph) (index : Nat) (record : TypeRecord)
    (hlegal : ∀ child ∈ record.children, child < index ∨ record.kind.is_indirection = true) :
    ∃ g2, add_record g index record = some g2 := by
  obtain ⟨result, hres⟩ := resolve_children_isSome record.kind index record.children hlegal g
  simp only [add_record, hres]
  exact ⟨_, rfl⟩

/-- The forward pass over a legal stream does not fail. -/
theorem build_from_isSome (records : List TypeRecord) :
    ∀ (g : TypeGraph) (index : Nat),
      (∀ j record, records[j]? = some record →
        ∀ child ∈ record.children, child < index + j ∨ record.kind.is_indirection = true) →
      ∃ g2, build_from g index records = some g2 := by
  induction records with
  | nil => intro g index _; exact ⟨_, rfl⟩
  | cons record rest ih =>
    intro g index hlegal
    obtain ⟨g1, hadd⟩ := add_record_isSome g index record (by
      have := hlegal 0 record (by simp)
      simpa using this)
    obtain ⟨g2, hrest⟩ := ih g1 (index + 1) (by
      intro j r hj child hc
      have := hlegal (j + 1) r (by simpa using hj) child hc
      rcases this with h | h
      · exact Or.inl (by omega)
      · exact Or.inr h)
    simp only [build_from, hadd, hrest]
    exact ⟨_, rfl⟩

/-- The processing of a record leaves the nodes of the other identifiers as they are. -/
theorem add_record_nodes (g g2 : TypeGraph) (index : Nat) (record : TypeRecord)
    (hwf : g.wf) (h : add_record g index record = some g2) (k : Nat)
    (hk : k < g.nodes.length) (hne : g2.ids.lookup index ≠ some k) :
    g2.nodes[k]? = g.nodes[k]? := by
  unfold add_record at h
  cases hres : resolve_children record.kind index g record.children with
  | none => simp [hres] at h
  | some result =>
    obtain ⟨g1, ids⟩ := result
    simp only [hres, Option.some.injEq] at h
    obtain ⟨hwf1, _, _, hnodes1, hlen1⟩ := resolve_children_spec _ _ _ _ _ _ hwf hres
    obtain ⟨_, _, hlooka, hnodesa, _⟩ := assign_spec g1 hwf1 index
    subst h
    have hne2 : (g1.assign index).2 ≠ k := by
      intro e
      apply hne
      show (g1.assign index).1.ids.lookup index = some k
      rw [hlooka, e]
    show ((g1.assign index).1.nodes.set (g1.assign index).2 _)[k]? = g.nodes[k]?
    rw [List.getElem?_set_ne hne2, hnodesa k (by omega), hnodes1 k hk]

theorem add_record_length (g g2 : TypeGraph) (index : Nat) (record : TypeRecord)
    (hwf : g.wf) (h : add_record g index record = some g2) :
    g.nodes.length ≤ g2.nodes.length := by
  unfold add_record at h
  cases hres : resolve_children record.kind index g record.children with
  | none => simp [hres] at h
  | some result =>
    obtain ⟨g1, ids⟩ := result
    simp only [hres, Option.some.injEq] at h
    obtain ⟨hwf1, _, _, _, hlen1⟩ := resolve_children_spec _ _ _ _ _ _ hwf hres
    obtain ⟨_, _, _, _, hlena⟩ := assign_spec g1 hwf1 index
    subst h
    simp only [List.length_set]
    omega

/-- The forward pass leaves a node as it is, unless its identifier is that of one of the
records processed. -/
theorem build_from_nodes (records : List TypeRecord) :
    ∀ (g g2 : TypeGraph) (index : Nat), g.wf → build_from g index records = some g2 →
      ∀ k, k < g.nodes.length →
        (∀ j, index ≤ j → j < index + records.length → g2.ids.lookup j ≠ some k) →
        g2.nodes[k]? = g.nodes[k]? := by
  induction records with
  | nil =>
    intro g g2 index _ h k _ _
    simp only [build_from, Option.some.injEq] at h
    rw [h]
  | cons record rest ih =>
    intro g g2 index hwf h k hk hne
    simp only [build_from] at h
    cases hadd : add_record g index record with
    | none => simp [hadd] at h
    | some g1 =>
      simp only [hadd] at h
      obtain ⟨hwf1, _, id, _, hid, _, _⟩ := add_record_spec g g1 index record hwf hadd
      obtain ⟨_, hkeep2, _⟩ := build_from_spec rest g1 g2 (index + 1) hwf1 h
      have hlen := add_record_length g g1 index record hwf hadd
      rw [ih g1 g2 (index + 1) hwf1 h k (by omega)
        (fun j h1 h2 => hne j (by omega) (by simp; omega))]
      apply add_record_nodes g g1 index record hwf hadd k hk
      intro e
      exact hne index (Nat.le_refl _) (by simp) (hkeep2 _ _ e)

/-- The graph after the forward pass holds, for every record of the stream, the node of the
record under the identifier of its index, with the identifiers of the indices of its
children. -/
theorem build_from_node (records : List TypeRecord) :
    ∀ (g g2 : TypeGraph) (index : Nat), g.wf → build_from g index records = some g2 →
      ∀ j record, records[j]? = some record →
        ∃ id ids, g2.ids.lookup (index + j) = some id ∧
          g2.nodes[id]? = some (some ⟨record.kind, record.name, ids⟩) ∧
          List.Forall₂ (fun child cid => g2.ids.lookup child = some cid)
            record.children ids := by
  induction records with
  | nil => intro g g2 index _ _ j record hj; simp at hj
  | cons first rest ih =>
    intro g g2 index hwf h j record hj
    simp only [build_from] at h
    cases hadd : add_record g index first with
    | none => simp [hadd] at h
    | some g1 =>
      simp only [hadd] at h
      obtain ⟨hwf1, _, id, ids, hid, hnode, hall⟩ :=
        add_record_spec g g1 index first hwf hadd
      obtain ⟨hwf2, hkeep2, _⟩ := build_from_spec rest g1 g2 (index + 1) hwf1 h
      cases j with
      | zero =>
        simp only [List.getElem?_cons_zero, Option.some.injEq] at hj
        subst hj
        refine ⟨id, ids, hkeep2 _ _ hid, ?_, hall.imp (fun _ _ h => hkeep2 _ _ h)⟩
        have hlt : id < g1.nodes.length := wf_lookup_lt g1 hwf1 _ _ hid
        rw [build_from_nodes rest g1 g2 (index + 1) hwf1 h id hlt, hnode]
        intro j2 h1 _ e
        have := wf_lookup_inj g2 hwf2 j2 index id e (hkeep2 _ _ hid)
        omega
      | succ j =>
        simp only [List.getElem?_cons_succ] at hj
        obtain ⟨id2, ids2, h1, h2, h3⟩ := ih g1 g2 (index + 1) hwf1 h j record hj
        have he : index + 1 + j = index + (j + 1) := by omega
        rw [he] at h1
        exact ⟨id2, ids2, h1, h2, h3⟩

theorem forall2_lookup_unique (g : TypeGraph) (children ids1 ids2 : List Nat)
    (h1 : List.Forall₂ (fun child cid => g.ids.lookup child = some cid) children ids1)
    (h2 : List.Forall₂ (fun child cid => g.ids.lookup child = some cid) children ids2) :
    ids1 = ids2 := by
  induction h1 generalizing ids2 with
  | nil => cases h2; rfl
  | cons hhead _ ih =>
    cases h2 with
    | cons hhead2 htail2 =>
      have := hhead.symm.trans hhead2
      simp only [Option.some.injEq] at this
      rw [this, ih _ htail2]

theorem forall2_lookup_mem (g : TypeGraph) (children ids : List Nat)
    (h : List.Forall₂ (fun child cid => g.ids.lookup child = some cid) children ids) :
    (∀ child ∈ children, ∃ id ∈ ids, g.ids.lookup child = some id) ∧
    (∀ id ∈ ids, ∃ child ∈ children, g.ids.lookup child = some id) ∧
    ids.length = children.length := by
  induction h with
  | nil => simp
  | cons hhead _ ih =>
    refine ⟨?_, ?_, by simp [ih.2.2]⟩
    · intro child hc
      rcases List.mem_cons.1 hc with rfl | hc
      · exact ⟨_, List.mem_cons_self _ _, hhead⟩
      · obtain ⟨id, hid, hl⟩ := ih.1 child hc
        exact ⟨id, List.mem_cons_of_mem _ hid, hl⟩
    · intro id hid
      rcases List.mem_cons.1 hid with rfl | hid
      · exact ⟨_, List.mem_cons_self _ _, hhead⟩
      · obtain ⟨child, hc, hl⟩ := ih.2.1 id hid
        exact ⟨child, List.mem_cons_of_mem _ hc, hl⟩

/-- One more record: the table keeps its entries, a handled node keeps its canonical
identifier, and a structural encoding keeps the identifier under which it is known. -/
theorem dedup_succ_mono (g : TypeGraph) (hwf : g.wf) (m : Nat) :
    (∀ entry ∈ (dedup g m).table, entry ∈ (dedup g (m + 1)).table) ∧
    (∀ x, g.handled m x →
      (dedup g (m + 1)).canon.lookup x = (dedup g m).canon.lookup x) ∧
    (∀ key c, (dedup g m).table.lookup key = some c →
      (dedup g (m + 1)).table.lookup key = some c) := by
  rw [dedup_succ]
  cases hid : g.ids.lookup m with
  | none =>
    have hstep : dedup_step g (dedup g m) m = dedup g m := by simp [dedup_step, hid]
    rw [hstep]
    exact ⟨fun _ h => h, fun _ _ => rfl, fun _ _ h => h⟩
  | some id =>
    cases hnode : g.nodes[id]? with
    | none =>
      have hstep : dedup_step g (dedup g m) m = dedup g m := by
        simp [dedup_step, hid, hnode]
      rw [hstep]
      exact ⟨fun _ h => h, fun _ _ => rfl, fun _ _ h => h⟩
    | some slot =>
      cases slot with
      | none =>
        have hstep : dedup_step g (dedup g m) m = dedup g m := by
          simp [dedup_step, hid, hnode]
        rw [hstep]
        exact ⟨fun _ h => h, fun _ _ => rfl, fun _ _ h => h⟩
      | some node =>
        have hstep : dedup_step g (dedup g m) m = (dedup g m).add id node := by
          simp [dedup_step, hid, hnode]
        rw [hstep]
        have hnew := not_handled_of_lookup g hwf m m id (Nat.le_refl _) hid
        have hcanon : ∀ (x c : Nat), g.handled m x →
            ((id, c) :: (dedup g m).canon).lookup x = (dedup g m).canon.lookup x := by
          intro x c hx
          exact lookup_cons_of_ne _ _ _ _ (fun e => hnew (e ▸ hx))
        cases hlook : (dedup g m).table.lookup ((dedup g m).encoding node) with
        | some canonical =>
          have hadd : (dedup g m).add id node =
              ⟨(id, canonical) :: (dedup g m).canon, (dedup g m).table⟩ := by
            simp [Dedup.add, hlook]
          rw [hadd]
          exact ⟨fun _ h => h, fun x hx => hcanon x canonical hx, fun _ _ h => h⟩
        | none =>
          have hadd : (dedup g m).add id node =
              ⟨(id, id) :: (dedup g m).canon,
                ((dedup g m).encoding node, id) :: (dedup g m).table⟩ := by
            simp [Dedup.add, hlook]
          rw [hadd]
          refine ⟨fun _ h => List.mem_cons_of_mem _ h, fun x hx => hcanon x id hx, ?_⟩
          intro key c hkey
          have hne : key ≠ (dedup g m).encoding node := by
            intro e
            rw [e, hlook] at hkey
            cases hkey
          show (((dedup g m).encoding node, id) :: (dedup g m).table).lookup key = some c
          rw [lookup_cons_of_ne _ _ _ _ hne]
          exact hkey

/-- Later records: the table keeps its entries, a handled node keeps its canonical identifier,
and a structural encoding keeps the identifier under which it is known. -/
theorem dedup_mono (g : TypeGraph) (hwf : g.wf) (m0 m : Nat) (h : m0 ≤ m) :
    (∀ entry ∈ (dedup g m0).table, entry ∈ (dedup g m).table) ∧
    (∀ x, g.handled m0 x → (dedup g m).canon.lookup x = (dedup g m0).canon.lookup x) ∧
    (∀ key c, (dedup g m0).table.lookup key = some c →
      (dedup g m).table.lookup key = some c) := by
  induction m, h using Nat.le_induction with
  | base => exact ⟨fun _ h => h, fun _ _ => rfl, fun _ _ h => h⟩
  | succ m hm ih =>
    obtain ⟨s1, s2, s3⟩ := dedup_succ_mono g hwf m
    refine ⟨fun e he => s1 e (ih.1 e he), ?_, fun key c hk => s3 key c (ih.2.2 key c hk)⟩
    intro x hx
    have hxm : g.handled m x := by
      obtain ⟨j, hj, hjid⟩ := hx
      exact ⟨j, by omega, hjid⟩
    rw [s2 x hxm, ih.2.1 x hx]

/-- The deduplication of the node of a record, seen from the end: the node has a canonical
identifier, under which the table holds the structural encoding that the node had when it was
handled; and if that encoding was known before, the node has the identifier it was known
under. -/
theorem dedup_record (g : TypeGraph) (hwf : g.wf) (count index id : Nat) (node : TypeNode)
    (hindex : index < count) (hid : g.ids.lookup index = some id)
    (hnode : g.nodes[id]? = some (some node)) :
    ∃ canonical,
      (dedup g count).canon.lookup id = some canonical ∧
      ((dedup g index).encoding node, canonical) ∈ (dedup g count).table ∧
      (dedup g (index + 1)).table.lookup ((dedup g index).encoding node) = some canonical ∧
      (∀ known, (dedup g index).table.lookup ((dedup g index).encoding node) = some known →
        canonical = known) := by
  have hnew := not_handled_of_lookup g hwf index index id (Nat.le_refl _) hid
  obtain ⟨canonical, hcanon, hmem, hlook, _, _⟩ :=
    add_spec (dedup g index) _ id node (dedup_inv g hwf index) hnew
  rw [← dedup_succ_of_node g index id node hid hnode] at hcanon hmem hlook
  obtain ⟨m1, m2, _⟩ := dedup_mono g hwf (index + 1) count (by omega)
  refine ⟨canonical, ?_, m1 _ hmem, hlook, ?_⟩
  · rw [m2 id ⟨index, by omega, hid⟩, hcanon]
    exact lookup_cons_self _ _ _
  · intro known hknown
    have := (dedup_succ_mono g hwf index).2.2 _ _ hknown
    rw [hlook] at this
    exact Option.some.inj this

theorem canon_of_of_lookup (d : Dedup) (id canonical : Nat)
    (h : d.canon.lookup id = some canonical) : d.canon_of id = canonical := by
  simp [Dedup.canon_of, h]

/-- The forward pass and the deduplication of a legal stream. -/
theorem convert_types_of_legal (records : List TypeRecord) (hlegal : legal_stream records) :
    ∃ g, build records = some g ∧ g.wf ∧
      convert_types records = some ⟨g, dedup g records.length⟩ ∧
      ∀ index record, records[index]? = some record →
        ∃ id ids, g.ids.lookup index = some id ∧
          g.nodes[id]? = some (some ⟨record.kind, record.name, ids⟩) ∧
          List.Forall₂ (fun child cid => g.ids.lookup child = some cid)
            record.children ids := by
  obtain ⟨g, hg⟩ := build_from_isSome records ⟨[], []⟩ 0 (by
    intro j record hj child hc
    simpa using hlegal j record hj child hc)
  have hwf := (build_from_spec records _ g 0 wf_empty hg).1
  refine ⟨g, hg, hwf, ?_, ?_⟩
  · simp [convert_types, build, hg]
  · intro index record hrec
    have := build_from_node records _ g 0 wf_empty hg index record hrec
    simpa using this

/-- The canonical identifier of a record, seen from the end of the deduplication. -/
theorem identifier_of_record (g : TypeGraph) (hwf : g.wf) (count index id : Nat)
    (node : TypeNode) (hindex : index < count) (hid : g.ids.lookup index = some id)
    (hnode : g.nodes[id]? = some (some node)) :
    ∃ canonical,
      TypeTable.identifier ⟨g, dedup g count⟩ index = some canonical ∧
      ((dedup g index).encoding node, canonical) ∈ (dedup g count).table ∧
      (dedup g count).canon_of canonical = canonical ∧
      (∀ m, index < m → m ≤ count → (dedup g m).canon_of id = canonical) ∧
      (dedup g (index + 1)).table.lookup ((dedup g index).encoding node) = some canonical ∧
      (∀ known, (dedup g index).table.lookup ((dedup g index).encoding node) = some known →
        canonical = known) := by
  obtain ⟨canonical, hcanon, hmem, hlook, hknown⟩ :=
    dedup_record g hwf count index id node hindex hid hnode
  refine ⟨canonical, ?_, hmem, ?_, ?_, hlook, hknown⟩
  · simp [TypeTable.identifier, hid, canon_of_of_lookup _ _ _ hcanon]
  · exact canon_of_of_lookup _ _ _ ((dedup_inv g hwf count).2.1 _ hmem).2
  · intro m hm hmc
    have hhandled : g.handled m id := ⟨index, hm, hid⟩
    have := (dedup_mono g hwf m count hmc).2.1 id hhandled
    rw [hcanon] at this
    exact canon_of_of_lookup _ _ _ this.symm

/-- The node that the table holds under a canonical identifier, read back. -/
theorem node_of_entry (g : TypeGraph) (hwf : g.wf) (count : Nat) (key : TypeNode)
    (canonical : Nat) (hmem : (key, canonical) ∈ (dedup g count).table) :
    TypeTable.node ⟨g, dedup g count⟩ canonical = some ((dedup g count).encoding key) ∧
    TypeTable.count ⟨g, dedup g count⟩ canonical = 1 := by
  obtain ⟨hfind, hlen⟩ :=
    find_of_mem_nodup_snd _ key canonical (dedup_inv g hwf count).2.2 hmem
  exact ⟨by simp [TypeTable.node, hfind], by simpa [TypeTable.count] using hlen⟩

theorem lt_length_of_getElem? {α : Type} (list : List α) (index : Nat) (a : α)
    (h : list[index]? = some a) : index < list.length := by
  by_contra hlt
  rw [List.getElem?_eq_none (by omega)] at h
  cases h

/-- C14: a struct one of whose fields is a pointer to the struct itself, the pointer record
coming before the struct record in a legal stream, is converted: the conversion returns a
table, in which the struct has exactly one node and the pointer has a node; the node of the
struct has the pointer among its children, and the only child of the node of the pointer is
the struct. -/
theorem self_referential_struct_converts (records : List TypeRecord) (i j : Nat)
    (pname sname : String8) (fields : List Nat)
    (hlegal : legal_stream records)
    (hptr : records[i]? = some ⟨TypeKind.pointer, pname, [j]⟩)
    (hstruct : records[j]? = some ⟨TypeKind.aggregate, sname, fields⟩)
    (hfield : i ∈ fields) :
    ∃ t s p node,
      convert_types records = some t ∧
      t.identifier j = some s ∧ t.identifier i = some p ∧
      t.node s = some node ∧ t.count s = 1 ∧
      node.kind = TypeKind.aggregate ∧ node.name = sname ∧
      node.children.length = fields.length ∧ p ∈ node.children ∧
      t.node p = some ⟨TypeKind.pointer, pname, [s]⟩ ∧ t.count p = 1 ∧ s ≠ p := by
  have hij : i < j := by
    rcases hlegal j _ hstruct i hfield with h | h
    · exact h
    · simp [TypeKind.is_indirection] at h
  have hjn := lt_length_of_getElem? _ _ _ hstruct
  obtain ⟨g, _, hwf, hconv, hnodes⟩ := convert_types_of_legal records hlegal
  obtain ⟨praw, pids, hpid, hpnode, hpF⟩ := hnodes i _ hptr
  obtain ⟨sraw, sids, hsid, hsnode, hsF⟩ := hnodes j _ hstruct
  have hpids : pids = [sraw] := by
    cases hpF with
    | cons hhead htail =>
      cases htail
      rw [hsid] at hhead
      cases hhead
      rfl
  subst hpids
  obtain ⟨p, hpident, hpmem, hpfix, hpcanon, _, _⟩ :=
    identifier_of_record g hwf records.length i praw _ (by omega) hpid hpnode
  obtain ⟨s, hsident, hsmem, hsfix, hscanon, _, _⟩ :=
    identifier_of_record g hwf records.length j sraw _ hjn hsid hsnode
  have hsraw : (dedup g i).canon_of sraw = sraw :=
    canon_of_eq_self _ _ (dedup_inv g hwf i) sraw
      (not_handled_of_lookup g hwf i j sraw (by omega) hsid)
  have hpkey : (dedup g i).encoding ⟨TypeKind.pointer, pname, [sraw]⟩
      = ⟨TypeKind.pointer, pname, [sraw]⟩ := by
    simp [Dedup.encoding, hsraw]
  rw [hpkey] at hpmem
  obtain ⟨hsnodeT, hscount⟩ := node_of_entry g hwf records.length _ s hsmem
  obtain ⟨hpnodeT, hpcount⟩ := node_of_entry g hwf records.length _ p hpmem
  refine ⟨⟨g, dedup g records.length⟩, s, p, _, hconv, hsident, hpident, hsnodeT, hscount,
    rfl, rfl, ?_, ?_, ?_, hpcount, ?_⟩
  · simp [Dedup.encoding, (forall2_lookup_mem g _ _ hsF).2.2]
  · obtain ⟨cid, hcid, hlook⟩ := (forall2_lookup_mem g _ _ hsF).1 i hfield
    rw [hpid] at hlook
    cases hlook
    simp only [Dedup.encoding, List.map_map, List.mem_map, Function.comp]
    exact ⟨praw, hcid, by rw [hpcanon j hij (by omega), hpfix]⟩
  · rw [hpnodeT]
    simp [Dedup.encoding, hscanon records.length hjn (Nat.le_refl _)]
  · intro e
    subst e
    have := fst_eq_of_nodup_snd _ _ _ _ (dedup_inv g hwf records.length).2.2 hsmem hpmem
    simp [Dedup.encoding] at this

/-- A case of deduplication: two records of a legal stream with the same kind and the same ordered children, all
of which come before the first of the two, get the same identifier if and only if their names
are equal. -/
theorem dedup_merges_equal_shape_and_name (records : List TypeRecord) (i j : Nat)
    (kind : TypeKind) (nameA nameB : String8) (children : List Nat)
    (hlegal : legal_stream records)
    (hA : records[i]? = some ⟨kind, nameA, children⟩)
    (hB : records[j]? = some ⟨kind, nameB, children⟩)
    (hij : i < j) (hseen : ∀ child ∈ children, child < i) :
    ∃ t a b,
      convert_types records = some t ∧
      t.identifier i = some a ∧ t.identifier j = some b ∧
      (a = b ↔ nameA = nameB) := by
  have hjn := lt_length_of_getElem? _ _ _ hB
  obtain ⟨g, _, hwf, hconv, hnodes⟩ := convert_types_of_legal records hlegal
  obtain ⟨araw, aids, haid, hanode, haF⟩ := hnodes i _ hA
  obtain ⟨braw, bids, hbid, hbnode, hbF⟩ := hnodes j _ hB
  have hids : bids = aids := forall2_lookup_unique g _ _ _ hbF haF
  subst hids
  obtain ⟨a, haident, hamem, _, _, halook, _⟩ :=
    identifier_of_record g hwf records.length i araw _ (by omega) haid hanode
  obtain ⟨b, hbident, hbmem, _, _, _, hbknown⟩ :=
    identifier_of_record g hwf records.length j braw _ hjn hbid hbnode
  have hmap : bids.map (dedup g j).canon_of = bids.map (dedup g i).canon_of := by
    apply List.map_congr_left
    intro id hid
    obtain ⟨child, hchild, hlook⟩ := (forall2_lookup_mem g _ _ haF).2.1 id hid
    have hhandled : g.handled i id := ⟨child, hseen child hchild, hlook⟩
    have := (dedup_mono g hwf i j (by omega)).2.1 id hhandled
    simp [Dedup.canon_of, this]
  refine ⟨⟨g, dedup g records.length⟩, a, b, hconv, haident, hbident, ?_, ?_⟩
  · intro e
    subst e
    have := fst_eq_of_nodup_snd _ _ _ _ (dedup_inv g hwf records.length).2.2 hamem hbmem
    simp only [Dedup.encoding, TypeNode.mk.injEq] at this
    exact this.2.1
  · intro e
    subst e
    have hkey : (dedup g j).encoding ⟨kind, nameA, bids⟩
        = (dedup g i).encoding ⟨kind, nameA, bids⟩ := by
      simp [Dedup.encoding, hmap]
    have := (dedup_mono g hwf (i + 1) j (by omega)).2.2 _ _ halook
    rw [← hkey] at this
    exact (hbknown a this).symm

theorem example_self_struct_legal : legal_stream example_self_struct := by
  intro index record h child hchild
  rcases index with _ | _ | _ | index
  · simp [example_self_struct] at h
    subst h
    simp at hchild
  · simp [example_self_struct] at h
    subst h
    exact Or.inr rfl
  · simp [example_self_struct] at h
    subst h
    simp at hchild
    omega
  · simp [example_self_struct] at h

theorem example_dedup_structs_legal : legal_stream example_dedup_structs := by
  intro index record h child hchild
  rcases index with _ | _ | _ | _ | _ | index
  · simp [example_dedup_structs] at h
    subst h
    simp at hchild
  · simp [example_dedup_structs] at h
    subst h
    simp at hchild
    omega
  · simp [example_dedup_structs] at h
    subst h
    simp at hchild
    omega
  · simp [example_dedup_structs] at h
    subst h
    simp at hchild
    omega
  · simp [example_dedup_structs] at h
    subst h
    simp at hchild
    omega
  · simp [example_dedup_structs] at h

theorem self_referential_struct_converts_witness :
    legal_stream example_self_struct ∧
    example_self_struct[1]? = some ⟨TypeKind.pointer, [], [2]⟩ ∧
    example_self_struct[2]? = some ⟨TypeKind.aggregate, str8_lit "S", [0, 1]⟩ ∧
    1 ∈ [0, 1] ∧
    ∃ t s p node,
      convert_types example_self_struct = some t ∧
      t.identifier 2 = some s ∧ t.identifier 1 = some p ∧
      t.node s = some node ∧ t.count s = 1 ∧
      node.kind = TypeKind.aggregate ∧ node.name = str8_lit "S" ∧
      node.children.length = [0, 1].length ∧ p ∈ node.children ∧
      t.node p = some ⟨TypeKind.pointer, [], [s]⟩ ∧ t.count p = 1 ∧ s ≠ p :=
  ⟨example_self_struct_legal, rfl, rfl, by decide,
    self_referential_struct_converts example_self_struct 1 2 [] (str8_lit "S") [0, 1]
      example_self_struct_legal rfl rfl (by decide)⟩

theorem dedup_merges_equal_shape_and_name_witness :
    legal_stream example_dedup_structs ∧
    example_dedup_structs[3]? = some ⟨TypeKind.aggregate, str8_lit "A", [0]⟩ ∧
    example_dedup_structs[4]? = some ⟨TypeKind.aggregate, str8_lit "B", [0]⟩ ∧
    3 < 4 ∧ (∀ child ∈ [0], child < 3) ∧
    ∃ t a b,
      convert_types example_dedup_structs = some t ∧
      t.identifier 3 = some a ∧ t.identifier 4 = some b ∧
      (a = b ↔ str8_lit "A" = str8_lit "B") :=
  ⟨example_dedup_structs_legal, rfl, rfl, by decide, by decide,
    dedup_merges_equal_shape_and_name example_dedup_structs 3 4 TypeKind.aggregate
      (str8_lit "A") (str8_lit "B") [0] example_dedup_structs_legal rfl rfl (by decide)
      (by decide)⟩

/-- The two anonymous structs of the example stream get one identifier, the structs `A` and
`B` get two more. -/
theorem example_dedup_structs_identifiers :
    ∃ t, convert_types example_dedup_structs = some t ∧
      [t.identifier 1, t.identifier 2, t.identifier 3, t.identifier 4]
        = [some 1, some 1, some 3, some 4] ∧
      [t.count 1, t.count 2, t.count 3, t.count 4] = [1, 0, 1, 1] :=
  ⟨_, rfl, by decide, by decide⟩

/-- The nodes of the example stream with the self-referential struct. -/
theorem example_self_struct_nodes :
    ∃ t, convert_types example_self_struct = some t ∧
      [t.identifier 0, t.identifier 1, t.identifier 2] = [some 0, some 2, some 1] ∧
      t.node 1 = some ⟨TypeKind.aggregate, str8_lit "S", [0, 2]⟩ ∧
      t.node 2 = some ⟨TypeKind.pointer, [], [1]⟩ ∧
      [t.count 0, t.count 1, t.count 2] = [1, 1, 1] :=
  ⟨_, rfl, by decide, by decide, by decide, by decide⟩

theorem canon_of_lt (d : Dedup) (bound : Nat) (hcanon : ∀ entry ∈ d.canon, entry.2 < bound)
    (id : Nat) (hid : id < bound) : d.canon_of id < bound := by
  cases h : d.canon.lookup id with
  | none => simpa [Dedup.canon_of, h] using hid
  | some canonical =>
    simpa [Dedup.canon_of, h] using hcanon _ (mem_of_lookup_eq_some _ _ _ h)

theorem add_bound (d : Dedup) (bound id : Nat) (node : TypeNode)
    (hcanon : ∀ entry ∈ d.canon, entry.2 < bound)
    (htable : ∀ entry ∈ d.table, entry.2 < bound ∧ ∀ child ∈ entry.1.children, child < bound)
    (hid : id < bound) (hnode : ∀ child ∈ node.children, child < bound) :
    (∀ entry ∈ (d.add id node).canon, entry.2 < bound) ∧
    (∀ entry ∈ (d.add id node).table,
      entry.2 < bound ∧ ∀ child ∈ entry.1.children, child < bound) := by
  cases hlook : d.table.lookup (d.encoding node) with
  | some canonical =>
    have hadd : d.add id node = ⟨(id, canonical) :: d.canon, d.table⟩ := by
      simp [Dedup.add, hlook]
    rw [hadd]
    refine ⟨?_, htable⟩
    intro entry he
    rcases List.mem_cons.1 he with rfl | he
    · exact (htable _ (mem_of_lookup_eq_some _ _ _ hlook)).1
    · exact hcanon entry he
  | none =>
    have hadd : d.add id node = ⟨(id, id) :: d.canon, (d.encoding node, id) :: d.table⟩ := by
      simp [Dedup.add, hlook]
    rw [hadd]
    constructor
    · intro entry he
      rcases List.mem_cons.1 he with rfl | he
      · exact hid
      · exact hcanon entry he
    · intro entry he
      rcases List.mem_cons.1 he with rfl | he
      · refine ⟨hid, ?_⟩
        intro child hchild
        simp only [Dedup.encoding, List.mem_map] at hchild
        obtain ⟨raw, hraw, rfl⟩ := hchild
        exact canon_of_lt d bound hcanon raw (hnode raw hraw)
      · exact htable entry he

/-- The identifiers of the deduplication name slots of the node table. -/
theorem dedup_bound (g : TypeGraph) (hwf : g.wf) (limit : Nat)
    (hnodes : ∀ index id node, index < limit → g.ids.lookup index = some id →
      g.nodes[id]? = some (some node) → ∀ child ∈ node.children, child < g.nodes.length)
    (count : Nat) (hcount : count ≤ limit) :
    (∀ entry ∈ (dedup g count).canon, entry.2 < g.nodes.length) ∧
    (∀ entry ∈ (dedup g count).table,
      entry.2 < g.nodes.length ∧ ∀ child ∈ entry.1.children, child < g.nodes.length) := by
  induction count with
  | zero => simp [dedup]
  | succ count ih =>
    have ih := ih (by omega)
    rw [dedup_succ]
    cases hid : g.ids.lookup count with
    | none =>
      have hstep : dedup_step g (dedup g count) count = dedup g count := by
        simp [dedup_step, hid]
      rw [hstep]
      exact ih
    | some id =>
      cases hnode : g.nodes[id]? with
      | none =>
        have hstep : dedup_step g (dedup g count) count = dedup g count := by
          simp [dedup_step, hid, hnode]
        rw [hstep]
        exact ih
      | some slot =>
        cases slot with
        | none =>
          have hstep : dedup_step g (dedup g count) count = dedup g count := by
            simp [dedup_step, hid, hnode]
          rw [hstep]
          exact ih
        | some node =>
          have hstep : dedup_step g (dedup g count) count = (dedup g count).add id node := by
            simp [dedup_step, hid, hnode]
          rw [hstep]
          exact add_bound _ _ id node ih.1 ih.2 (wf_lookup_lt g hwf count id hid)
            (hnodes count id node (by omega) hid hnode)

/-- The type nodes that the conversion of a legal stream gives name slots of the type-node
table, whatever the units: the result is well-formed. -/
theorem convert_types_wf (records : List TypeRecord) (hlegal : legal_stream records)
    (units : List ConvertedUnit) :
    ∃ types, convert_types records = some types ∧
      ConversionResult.wf ⟨types, units⟩ := by
  obtain ⟨g, _, hwf, hconv, hnodes⟩ := convert_types_of_legal records hlegal
  refine ⟨_, hconv, ?_⟩
  have hbound := dedup_bound g hwf records.length (by
    intro index id node hindex hid hnode child hchild
    obtain ⟨record, hrecord⟩ : ∃ record, records[index]? = some record :=
      ⟨records[index], List.getElem?_eq_getElem hindex⟩
    obtain ⟨id2, ids, hid2, hnode2, hforall⟩ := hnodes index record hrecord
    rw [hid] at hid2
    cases hid2
    rw [hnode] at hnode2
    cases hnode2
    obtain ⟨raw, _, hraw⟩ := (forall2_lookup_mem g _ _ hforall).2.1 child hchild
    exact wf_lookup_lt g hwf raw child hraw) records.length (Nat.le_refl _)
  intro entry he
  refine ⟨(hbound.2 entry he).1, ?_⟩
  intro child hchild
  simp only [Dedup.encoding, List.mem_map] at hchild
  obtain ⟨raw, hraw, rfl⟩ := hchild
  exact canon_of_lt _ _ hbound.1 raw ((hbound.2 entry he).2 raw hraw)

/-! ## Facts about the baker and the reader -/

theorem length_le_bytes (width value : Nat) : (le_bytes width value).length = width := by
  induction width generalizing value with
  | zero => rfl
  | succ width ih => simp [le_bytes, ih]

theorem le_value_le_bytes (width value : Nat) :
    le_value (le_bytes width value) = value % 256 ^ width := by
  induction width generalizing value with
  | zero => simp [le_bytes, le_value, Nat.mod_one]
  | succ width ih =>
    simp only [le_bytes, le_value, ih]
    rw [pow_succ, Nat.mul_comm (256 ^ width) 256, Nat.mod_mul]

theorem le_value_le_bytes_u64 (value : Nat) (h : value < 2 ^ 64) :
    le_value (le_bytes 8 value) = value := by
  rw [le_value_le_bytes]
  exact Nat.mod_eq_of_lt (by norm_num at h ⊢; exact h)

theorem holds_at_sub (file : String8) (offset : Nat) (a b c : String8)
    (h : holds_at file offset (a ++ b ++ c)) : holds_at file (offset + a.length) b := by
  obtain ⟨before, after, hfile, hlen⟩ := h
  exact ⟨before ++ a, c ++ after, by simp [hfile], by simp [hlen]⟩

theorem holds_at_le (file : String8) (offset : Nat) (bytes : String8)
    (h : holds_at file offset bytes) : offset + bytes.length ≤ file.length := by
  obtain ⟨before, after, hfile, hlen⟩ := h
  simp [hfile, ← hlen]

theorem read_bytes_of_holds_at (file : String8) (offset : Nat) (bytes : String8)
    (h : holds_at file offset bytes) : read_bytes file offset bytes.length = some bytes := by
  have hle := holds_at_le file offset bytes h
  obtain ⟨before, after, hfile, hlen⟩ := h
  subst hlen
  simp only [read_bytes, hle, if_true, hfile, List.append_assoc, List.drop_left]
  simp

theorem read_u64_of_holds_at (file : String8) (offset value : Nat)
    (h : holds_at file offset (le_bytes 8 value)) (hvalue : value < 2 ^ 64) :
    read_u64 file offset = some value := by
  have := read_bytes_of_holds_at file offset _ h
  rw [length_le_bytes] at this
  simp [read_u64, this, le_value_le_bytes_u64 value hvalue]

theorem read_u64s_of_holds_at (file : String8) (values : List Nat) (offset : Nat)
    (h : holds_at file offset (values.map (le_bytes 8)).flatten)
    (hvalues : ∀ value ∈ values, value < 2 ^ 64) :
    read_u64s file offset values.length = some values := by
  induction values generalizing offset with
  | nil => rfl
  | cons value rest ih =>
    have hhead : holds_at file offset (le_bytes 8 value) := by
      have := holds_at_sub file offset [] (le_bytes 8 value) (rest.map (le_bytes 8)).flatten
        (by simpa using h)
      simpa using this
    have htail : holds_at file (offset + 8) (rest.map (le_bytes 8)).flatten := by
      have := holds_at_sub file offset (le_bytes 8 value) (rest.map (le_bytes 8)).flatten []
        (by simpa using h)
      simpa [length_le_bytes] using this
    simp only [List.length_cons, read_u64s,
      read_u64_of_holds_at file offset value hhead (hvalues value (List.mem_cons_self _ _)),
      ih (offset + 8) htail (fun v hv => hvalues v (List.mem_cons_of_mem _ hv))]

mutual
theorem emit_size (offsets : List Nat → Option Nat) :
    ∀ (node : ConsNode) (pieces : List String8),
      node.emit offsets = .ok pieces → pieces.flatten.length = node.size
  | .scalar value, pieces, h => by
    simp only [ConsNode.emit, Except.ok.injEq] at h
    subst h
    simp [ConsNode.size, length_le_bytes]
  | .blob bytes, pieces, h => by
    simp only [ConsNode.emit, Except.ok.injEq] at h
    subst h
    simp [ConsNode.size]
  | .list children, pieces, h => by
    simp only [ConsNode.emit] at h
    simpa [ConsNode.size] using emit_list_size offsets children pieces h
  | .ref target, pieces, h => by
    simp only [ConsNode.emit] at h
    cases htarget : offsets target with
    | none => simp [htarget] at h
    | some offset =>
      simp only [htarget, Except.ok.injEq] at h
      subst h
      simp [ConsNode.size, length_le_bytes]
theorem emit_list_size (offsets : List Nat → Option Nat) :
    ∀ (children : List ConsNode) (pieces : List String8),
      ConsNode.emit_list offsets children = .ok pieces →
      pieces.flatten.length = ConsNode.sizes children
  | [], pieces, h => by
    simp only [ConsNode.emit_list, Except.ok.injEq] at h
    subst h
    simp [ConsNode.sizes]
  | child :: rest, pieces, h => by
    simp only [ConsNode.emit_list] at h
    cases hchild : child.emit offsets with
    | error e => simp [hchild] at h
    | ok head =>
      cases hrest : ConsNode.emit_list offsets rest with
      | error e => simp [hchild, hrest] at h
      | ok tail =>
        simp only [hchild, hrest, Except.ok.injEq] at h
        subst h
        simp [ConsNode.sizes, emit_size offsets child head hchild,
          emit_list_size offsets rest tail hrest]
end

/-- Pass 2 on a list: the bytes of a child lie in the bytes of the list after the bytes of the
children before it. -/
theorem emit_list_getElem (offsets : List Nat → Option Nat) (children : List ConsNode)
    (pieces : List String8) (h : ConsNode.emit_list offsets children = .ok pieces)
    (i : Nat) (child : ConsNode) (hchild : children[i]? = some child) :
    ∃ part, child.emit offsets = .ok part ∧
      holds_at pieces.flatten (ConsNode.sizes (children.take i)) part.flatten := by
  induction children generalizing i pieces with
  | nil => simp at hchild
  | cons first rest ih =>
    simp only [ConsNode.emit_list] at h
    cases hfirst : first.emit offsets with
    | error e => simp [hfirst] at h
    | ok head =>
      cases hrest : ConsNode.emit_list offsets rest with
      | error e => simp [hfirst, hrest] at h
      | ok tail =>
        simp only [hfirst, hrest, Except.ok.injEq] at h
        subst h
        cases i with
        | zero =>
          simp only [List.getElem?_cons_zero, Option.some.injEq] at hchild
          subst hchild
          exact ⟨head, hfirst, [], tail.flatten, by simp, by simp [ConsNode.sizes]⟩
        | succ i =>
          simp only [List.getElem?_cons_succ] at hchild
          obtain ⟨part, hpart, before, after, hfile, hlen⟩ := ih tail hrest i hchild
          refine ⟨part, hpart, head.flatten ++ before, after, ?_, ?_⟩
          · simp [hfile]
          · simp [ConsNode.sizes, hlen, emit_size offsets first head hfirst]

/-- Pass 2 and pass 1 agree: the bytes of the node at a path lie in the bytes of the tree at
the offset that pass 1 assigned to the path. -/
theorem emit_node_at (offsets : List Nat → Option Nat) (path : List Nat) :
    ∀ (tree : ConsNode) (pieces : List String8) (node : ConsNode) (base : Nat),
      tree.emit offsets = .ok pieces → tree.node_at path = some node →
      ∃ offset part before after,
        tree.offset_at base path = some offset ∧ node.emit offsets = .ok part ∧
        pieces.flatten = before ++ part.flatten ++ after ∧ base + before.length = offset := by
  induction path with
  | nil =>
    intro tree pieces node base htree hnode
    simp only [ConsNode.node_at, Option.some.injEq] at hnode
    subst hnode
    exact ⟨base, pieces, [], [], by simp [ConsNode.offset_at], htree, by simp, by simp⟩
  | cons i rest ih =>
    intro tree pieces node base htree hnode
    cases tree with
    | scalar value => simp [ConsNode.node_at] at hnode
    | blob bytes => simp [ConsNode.node_at] at hnode
    | ref target => simp [ConsNode.node_at] at hnode
    | list children =>
      simp only [ConsNode.node_at] at hnode
      cases hchild : children[i]? with
      | none => simp [hchild] at hnode
      | some child =>
        simp only [hchild] at hnode
        simp only [ConsNode.emit] at htree
        obtain ⟨part, hpart, before1, after1, hfile1, hlen1⟩ :=
          emit_list_getElem offsets children pieces htree i child hchild
        obtain ⟨offset, sub, before2, after2, hoff, hsub, hfile2, hlen2⟩ :=
          ih child part node (base + ConsNode.sizes (children.take i)) hpart hnode
        refine ⟨offset, sub, before1 ++ before2, after2 ++ after1, ?_, hsub, ?_, ?_⟩
        · simp [ConsNode.offset_at, hchild, hoff]
        · simp [hfile1, hfile2]
        · simp only [List.length_append]
          omega

theorem node_at_append (path rest : List Nat) :
    ∀ (tree node : ConsNode), tree.node_at path = some node →
      tree.node_at (path ++ rest) = node.node_at rest := by
  induction path with
  | nil =>
    intro tree node h
    simp only [ConsNode.node_at, Option.some.injEq] at h
    subst h
    rfl
  | cons i path ih =>
    intro tree node h
    cases tree with
    | scalar value => simp [ConsNode.node_at] at h
    | blob bytes => simp [ConsNode.node_at] at h
    | ref target => simp [ConsNode.node_at] at h
    | list children =>
      simp only [ConsNode.node_at] at h
      cases hchild : children[i]? with
      | none => simp [hchild] at h
      | some child =>
        simp only [hchild] at h
        simp only [List.cons_append, ConsNode.node_at, hchild]
        exact ih child node h

theorem offset_at_append (path rest : List Nat) :
    ∀ (tree node : ConsNode) (base offset : Nat), tree.node_at path = some node →
      tree.offset_at base path = some offset →
      tree.offset_at base (path ++ rest) = node.offset_at offset rest := by
  induction path with
  | nil =>
    intro tree node base offset h hoff
    simp only [ConsNode.node_at, Option.some.injEq] at h
    simp only [ConsNode.offset_at, Option.some.injEq] at hoff
    subst h; subst hoff
    rfl
  | cons i path ih =>
    intro tree node base offset h hoff
    cases tree with
    | scalar value => simp [ConsNode.node_at] at h
    | blob bytes => simp [ConsNode.node_at] at h
    | ref target => simp [ConsNode.node_at] at h
    | list children =>
      simp only [ConsNode.node_at] at h
      simp only [ConsNode.offset_at] at hoff
      cases hchild : children[i]? with
      | none => simp [hchild] at h
      | some child =>
        simp only [hchild] at h hoff
        simp only [List.cons_append, ConsNode.offset_at, hchild]
        exact ih child node _ offset h hoff

theorem sizes_take_le (children : List ConsNode) (i : Nat) (child : ConsNode)
    (h : children[i]? = some child) :
    ConsNode.sizes (children.take i) + child.size ≤ ConsNode.sizes children := by
  induction children generalizing i with
  | nil => simp at h
  | cons first rest ih =>
    cases i with
    | zero =>
      simp only [List.getElem?_cons_zero, Option.some.injEq] at h
      subst h
      simp [ConsNode.sizes]
    | succ i =>
      simp only [List.getElem?_cons_succ] at h
      have := ih i h
      simp only [List.take_succ_cons, ConsNode.sizes]
      omega

theorem sizes_of_const (stride : Nat) (children : List ConsNode)
    (h : ∀ child ∈ children, child.size = stride) :
    ConsNode.sizes children = stride * children.length := by
  induction children with
  | nil => simp [ConsNode.sizes]
  | cons first rest ih =>
    simp only [ConsNode.sizes, List.length_cons, h first (List.mem_cons_self _ _),
      ih (fun child hc => h child (List.mem_cons_of_mem _ hc))]
    ring

theorem sizes_take_of_const (stride : Nat) (children : List ConsNode)
    (h : ∀ child ∈ children, child.size = stride) (i : Nat) (hi : i ≤ children.length) :
    ConsNode.sizes (children.take i) = stride * i := by
  rw [sizes_of_const stride (children.take i) (fun child hc => h child (List.mem_of_mem_take hc))]
  simp [List.length_take, hi]

/-- Pass 1 gives every node of the tree an offset, and the node lies inside the tree. -/
theorem offset_at_of_node_at (path : List Nat) :
    ∀ (tree node : ConsNode) (base : Nat), tree.node_at path = some node →
      ∃ offset, tree.offset_at base path = some offset ∧
        base ≤ offset ∧ offset + node.size ≤ base + tree.size := by
  induction path with
  | nil =>
    intro tree node base h
    simp only [ConsNode.node_at, Option.some.injEq] at h
    subst h
    exact ⟨base, by simp [ConsNode.offset_at], Nat.le_refl _, Nat.le_refl _⟩
  | cons i path ih =>
    intro tree node base h
    cases tree with
    | scalar value => simp [ConsNode.node_at] at h
    | blob bytes => simp [ConsNode.node_at] at h
    | ref target => simp [ConsNode.node_at] at h
    | list children =>
      simp only [ConsNode.node_at] at h
      cases hchild : children[i]? with
      | none => simp [hchild] at h
      | some child =>
        simp only [hchild] at h
        obtain ⟨offset, hoff, hle, hsize⟩ :=
          ih child node (base + ConsNode.sizes (children.take i)) h
        have := sizes_take_le children i child hchild
        refine ⟨offset, by simp [ConsNode.offset_at, hchild, hoff], by omega, ?_⟩
        simp only [ConsNode.size]
        omega

/-- The offset of a child of a list. -/
theorem offset_at_child (tree : ConsNode) (path : List Nat) (children : List ConsNode)
    (offset i : Nat) (child : ConsNode) (hnode : tree.node_at path = some (.list children))
    (hoff : tree.offset_at 0 path = some offset) (hchild : children[i]? = some child) :
    tree.node_at (path ++ [i]) = some child ∧
    tree.offset_at 0 (path ++ [i]) = some (offset + ConsNode.sizes (children.take i)) := by
  rw [node_at_append path [i] tree _ hnode, offset_at_append path [i] tree _ 0 offset hnode hoff]
  simp [ConsNode.node_at, ConsNode.offset_at, hchild]

mutual
theorem emit_ok_of_targets (offsets : List Nat → Option Nat) :
    ∀ (node : ConsNode), (∀ target ∈ node.targets, ∃ offset, offsets target = some offset) →
      ∃ pieces, node.emit offsets = .ok pieces
  | .scalar value, _ => ⟨_, rfl⟩
  | .blob bytes, _ => ⟨_, rfl⟩
  | .list children, h => by
    simp only [ConsNode.emit]
    exact emit_list_ok_of_targets offsets children (by simpa [ConsNode.targets] using h)
  | .ref target, h => by
    obtain ⟨offset, hoff⟩ := h target (by simp [ConsNode.targets])
    exact ⟨[le_bytes 8 offset], by simp [ConsNode.emit, hoff]⟩
theorem emit_list_ok_of_targets (offsets : List Nat → Option Nat) :
    ∀ (children : List ConsNode),
      (∀ target ∈ ConsNode.targets_list children, ∃ offset, offsets target = some offset) →
      ∃ pieces, ConsNode.emit_list offsets children = .ok pieces
  | [], _ => ⟨_, rfl⟩
  | child :: rest, h => by
    obtain ⟨head, hhead⟩ := emit_ok_of_targets offsets child
      (fun target ht => h target (by simp [ConsNode.targets_list, ht]))
    obtain ⟨tail, htail⟩ := emit_list_ok_of_targets offsets rest
      (fun target ht => h target (by simp [ConsNode.targets_list, ht]))
    exact ⟨head ++ tail, by simp [ConsNode.emit_list, hhead, htail]⟩
end

theorem mem_targets_list (children : List ConsNode) (target : List Nat) :
    target ∈ ConsNode.targets_list children ↔ ∃ child ∈ children, target ∈ child.targets := by
  induction children with
  | nil => simp [ConsNode.targets_list]
  | cons first rest ih => simp [ConsNode.targets_list, ih]

/-- The baker on a tree all of whose internal references name nodes of the tree: baking gives
a blob, whose bytes hold, for every node of the tree, the bytes of the node at the offset of
the node. -/
theorem cons_bake_spec (root : ConsNode)
    (h : ∀ target ∈ root.targets, ∃ node, root.node_at target = some node) :
    ∃ blob, cons_bake root = .ok blob ∧ blob.holds root := by
  obtain ⟨pieces, hpieces⟩ := emit_ok_of_targets (root.offset_at 0) root (by
    intro target ht
    obtain ⟨node, hnode⟩ := h target ht
    obtain ⟨offset, hoff, _⟩ := offset_at_of_node_at target root node 0 hnode
    exact ⟨offset, hoff⟩)
  refine ⟨⟨pieces, root.targets.filterMap
    (fun target => (root.offset_at 0 target).map (fun offset => (target, offset)))⟩,
    by simp only [cons_bake, hpieces], ?_, ?_⟩
  · exact emit_size _ root pieces hpieces
  · intro path node hnode
    obtain ⟨offset, part, before, after, hoff, hpart, hfile, hlen⟩ :=
      emit_node_at (root.offset_at 0) path root pieces node 0 hpieces hnode
    obtain ⟨offset2, hoff2, _, hsize⟩ := offset_at_of_node_at path root node 0 hnode
    rw [hoff] at hoff2
    cases hoff2
    exact ⟨offset, part, hoff, hpart, ⟨before, after, hfile, by omega⟩, by omega⟩

theorem slots_getElem (out : ConversionResult) (id : Nat) (h : id < out.type_count) :
    out.slots[id]? = some (out.types.node id) := by
  simp [ConversionResult.slots, List.getElem?_range h]

theorem node_at_section (out : ConversionResult) :
    (cons_root out).node_at [0] = some (cons_header out) ∧
    (cons_root out).node_at [1] = some (cons_directory out) ∧
    (cons_root out).node_at [2] = some (cons_strings out) ∧
    (cons_root out).node_at [3] = some (cons_types out) ∧
    (cons_root out).node_at [4] = some (cons_index out) ∧
    (cons_root out).node_at [5] = some (.list (out.units.enum.map cons_unit)) :=
  ⟨rfl, rfl, rfl, rfl, rfl, rfl⟩

theorem node_at_type_record (out : ConversionResult) (id : Nat) (h : id < out.type_count) :
    (cons_types out) = .list (out.slots.enum.map (fun entry => cons_type_record entry.1 entry.2)) ∧
    (out.slots.enum.map (fun entry => cons_type_record entry.1 entry.2))[id]? =
      some (cons_type_record id (out.types.node id)) := by
  simp [cons_types, List.getElem?_enum, slots_getElem out id h]

theorem node_at_type_name (out : ConversionResult) (id : Nat) (h : id < out.type_count) :
    (cons_root out).node_at [2, 0, id] = some (cons_type_name (out.types.node id)) := by
  simp [cons_root, cons_strings, ConsNode.node_at, slots_getElem out id h]

theorem node_at_type_children (out : ConversionResult) (id : Nat) (h : id < out.type_count) :
    (cons_root out).node_at [4, id] = some (cons_type_children (out.types.node id)) := by
  simp [cons_root, cons_index, ConsNode.node_at, slots_getElem out id h]

theorem node_at_type (out : ConversionResult) (id : Nat) (h : id < out.type_count) :
    (cons_root out).node_at [3, id] = some (cons_type_record id (out.types.node id)) := by
  simp [cons_root, cons_types, ConsNode.node_at, List.getElem?_enum, slots_getElem out id h]

theorem node_at_symbol_table (out : ConversionResult) (u : Nat) (unit : ConvertedUnit)
    (h : out.units[u]? = some unit) :
    (cons_root out).node_at [5, u, 0] = some (cons_symbol_table [2, 1, u, 0] unit.procs) ∧
    (cons_root out).node_at [5, u, 1] = some (cons_symbol_table [2, 1, u, 1] unit.vars) := by
  simp [cons_root, cons_unit, ConsNode.node_at, List.getElem?_enum, h, cons_symbol_table]

theorem node_at_symbol_name (out : ConversionResult) (u : Nat) (unit : ConvertedUnit)
    (h : out.units[u]? = some unit) (k : Nat) (symbol : ConvertedSymbol) :
    (unit.procs[k]? = some symbol →
      (cons_root out).node_at [2, 1, u, 0, k] = some (.blob symbol.name)) ∧
    (unit.vars[k]? = some symbol →
      (cons_root out).node_at [2, 1, u, 1, k] = some (.blob symbol.name)) := by
  constructor
  · intro hk
    simp [cons_root, cons_strings, cons_unit_names, cons_symbol_names, ConsNode.node_at, h, hk]
  · intro hk
    simp [cons_root, cons_strings, cons_unit_names, cons_symbol_names, ConsNode.node_at, h, hk]

theorem unit_entries_getElem (units : List ConvertedUnit) (base u : Nat) (unit : ConvertedUnit)
    (h : units[u]? = some unit) :
    ((units.enumFrom base).flatMap cons_unit_entries)[2 * u]? =
      some (cons_directory_entry 4 [5, base + u, 0] (cons_stride * unit.procs.length)) ∧
    ((units.enumFrom base).flatMap cons_unit_entries)[2 * u + 1]? =
      some (cons_directory_entry 5 [5, base + u, 1] (cons_stride * unit.vars.length)) := by
  induction units generalizing base u with
  | nil => simp at h
  | cons first rest ih =>
    cases u with
    | zero =>
      simp only [List.getElem?_cons_zero, Option.some.injEq] at h
      subst h
      simp [List.enumFrom, cons_unit_entries]
    | succ u =>
      simp only [List.getElem?_cons_succ] at h
      have := ih (base + 1) u h
      have h1 : 2 * (u + 1) = 2 * u + 2 := by ring
      have h2 : 2 * (u + 1) + 1 = 2 * u + 1 + 2 := by ring
      have h3 : base + 1 + u = base + (u + 1) := by ring
      rw [h3] at this
      simp only [List.enumFrom, List.flatMap_cons, h1, h2]
      simpa [cons_unit_entries] using this

theorem length_unit_entries (units : List ConvertedUnit) (base : Nat) :
    ((units.enumFrom base).flatMap cons_unit_entries).length = 2 * units.length := by
  induction units generalizing base with
  | nil => simp
  | cons first rest ih =>
    simp only [List.enumFrom, List.flatMap_cons, List.length_append, ih, List.length_cons]
    simp [cons_unit_entries]
    ring


theorem mem_unit_entries (units : List ConvertedUnit) (base : Nat) (entry : ConsNode)
    (h : entry ∈ (units.enumFrom base).flatMap cons_unit_entries) :
    ∃ u unit, units[u]? = some unit ∧
      (entry = cons_directory_entry 4 [5, base + u, 0] (cons_stride * unit.procs.length) ∨
       entry = cons_directory_entry 5 [5, base + u, 1] (cons_stride * unit.vars.length)) := by
  simp only [List.mem_flatMap] at h
  obtain ⟨pair, hpair, hentry⟩ := h
  obtain ⟨u, unit⟩ := pair
  have hu := List.mk_mem_enumFrom_iff_le_and_getElem?_sub.1 hpair
  refine ⟨u - base, unit, hu.2, ?_⟩
  have hbase : base + (u - base) = u := by omega
  rw [hbase]
  simpa [cons_unit_entries] using hentry

theorem targets_type_record (id : Nat) (slot : Option TypeNode) (target : List Nat)
    (h : target ∈ (cons_type_record id slot).targets) : target = [2, 0, id] ∨ target = [4, id] := by
  cases slot with
  | none => simp [cons_type_record, ConsNode.targets, ConsNode.targets_list] at h
  | some node => simpa [cons_type_record, ConsNode.targets, ConsNode.targets_list] using h

theorem targets_type_children (slot : Option TypeNode) (target : List Nat)
    (h : target ∈ (cons_type_children slot).targets) :
    ∃ node child, slot = some node ∧ child ∈ node.children ∧ target = [3, child] := by
  cases slot with
  | none => simp [cons_type_children, ConsNode.targets, ConsNode.targets_list] at h
  | some node =>
    simp only [cons_type_children, ConsNode.targets, mem_targets_list, List.mem_map] at h
    obtain ⟨_, ⟨child, hchild, rfl⟩, htarget⟩ := h
    exact ⟨node, child, rfl, hchild, by simpa [ConsNode.targets] using htarget⟩

theorem targets_symbol_table (names : List Nat) (symbols : List ConvertedSymbol)
    (target : List Nat) (h : target ∈ (cons_symbol_table names symbols).targets) :
    ∃ k symbol, symbols[k]? = some symbol ∧ target = names ++ [k] := by
  simp only [cons_symbol_table, ConsNode.targets, mem_targets_list, List.mem_map] at h
  obtain ⟨_, ⟨⟨k, symbol⟩, hentry, rfl⟩, htarget⟩ := h
  have hk := List.mk_mem_enum_iff_getElem?.1 hentry
  exact ⟨k, symbol, hk,
    by simpa [cons_symbol_record, ConsNode.targets, ConsNode.targets_list] using htarget⟩

theorem mem_slots (out : ConversionResult) (slot : Option TypeNode) (h : slot ∈ out.slots) :
    ∃ id, id < out.type_count ∧ slot = out.types.node id := by
  simp only [ConversionResult.slots, List.mem_map, List.mem_range] at h
  obtain ⟨id, hid, rfl⟩ := h
  exact ⟨id, hid, rfl⟩

theorem node_of_wf (out : ConversionResult) (hwf : out.wf) (id : Nat) (node : TypeNode)
    (h : out.types.node id = some node) :
    id < out.type_count ∧ ∀ child ∈ node.children, child < out.type_count := by
  simp only [TypeTable.node, Option.map_eq_some'] at h
  obtain ⟨entry, hfind, rfl⟩ := h
  have hmem := List.mem_of_find?_eq_some hfind
  have hid : entry.2 = id := by simpa using List.find?_some hfind
  rw [← hid]
  exact hwf entry hmem

/-- The internal references of the tree of a well-formed result name nodes of the tree. -/
theorem cons_root_targets (out : ConversionResult) (hwf : out.wf) :
    ∀ target ∈ (cons_root out).targets, ∃ node, (cons_root out).node_at target = some node := by
  intro target h
  simp only [cons_root, ConsNode.targets, ConsNode.targets_list, List.mem_append,
    List.append_nil, mem_targets_list, List.mem_map] at h
  rcases h with h | h | h | h | h | h
  · have : target = [1] := by
      simpa [cons_header, ConsNode.targets, ConsNode.targets_list] using h
    exact ⟨_, this ▸ (node_at_section out).2.1⟩
  · simp only [cons_directory, ConsNode.targets, mem_targets_list, cons_directory_entries,
      List.mem_append, List.mem_cons, List.mem_singleton, List.not_mem_nil, or_false] at h
    obtain ⟨entry, hentry, htarget⟩ := h
    rcases hentry with (rfl | rfl | rfl) | hentry
    · have : target = [2] := by
        simpa [cons_directory_entry, ConsNode.targets, ConsNode.targets_list] using htarget
      exact ⟨_, this ▸ (node_at_section out).2.2.1⟩
    · have : target = [3] := by
        simpa [cons_directory_entry, ConsNode.targets, ConsNode.targets_list] using htarget
      exact ⟨_, this ▸ (node_at_section out).2.2.2.1⟩
    · have : target = [4] := by
        simpa [cons_directory_entry, ConsNode.targets, ConsNode.targets_list] using htarget
      exact ⟨_, this ▸ (node_at_section out).2.2.2.2.1⟩
    · obtain ⟨u, unit, hu, hcase⟩ := mem_unit_entries out.units 0 entry hentry
      rcases hcase with rfl | rfl
      · have : target = [5, u, 0] := by
          simpa [cons_directory_entry, ConsNode.targets, ConsNode.targets_list] using htarget
        exact ⟨_, this ▸ (node_at_symbol_table out u unit hu).1⟩
      · have : target = [5, u, 1] := by
          simpa [cons_directory_entry, ConsNode.targets, ConsNode.targets_list] using htarget
        exact ⟨_, this ▸ (node_at_symbol_table out u unit hu).2⟩
  · simp only [cons_strings, ConsNode.targets, ConsNode.targets_list, List.mem_append,
      List.append_nil, mem_targets_list, List.mem_map] at h
    rcases h with ⟨_, ⟨slot, _, rfl⟩, htarget⟩ | ⟨_, ⟨unit, _, rfl⟩, htarget⟩
    · cases slot <;> simp [cons_type_name, ConsNode.targets] at htarget
    · simp only [cons_unit_names, cons_symbol_names, ConsNode.targets, ConsNode.targets_list,
        List.mem_append, List.append_nil, mem_targets_list, List.mem_map] at htarget
      rcases htarget with ⟨_, ⟨_, _, rfl⟩, hblob⟩ | ⟨_, ⟨_, _, rfl⟩, hblob⟩ <;>
        simp [ConsNode.targets] at hblob
  · simp only [cons_types, ConsNode.targets, mem_targets_list, List.mem_map] at h
    obtain ⟨_, ⟨⟨id, slot⟩, hentry, rfl⟩, htarget⟩ := h
    have hslot := List.mk_mem_enum_iff_getElem?.1 hentry
    have hid : id < out.type_count := by
      have := (List.getElem?_eq_some.1 hslot).1
      simpa [ConversionResult.slots] using this
    rcases targets_type_record id slot target htarget with rfl | rfl
    · exact ⟨_, node_at_type_name out id hid⟩
    · exact ⟨_, node_at_type_children out id hid⟩
  · simp only [cons_index, ConsNode.targets, mem_targets_list, List.mem_map] at h
    obtain ⟨_, ⟨slot, hslot, rfl⟩, htarget⟩ := h
    obtain ⟨id, _, rfl⟩ := mem_slots out slot hslot
    obtain ⟨node, child, hnode, hchild, rfl⟩ := targets_type_children _ target htarget
    exact ⟨_, node_at_type out child ((node_of_wf out hwf id node hnode).2 child hchild)⟩
  · obtain ⟨_, ⟨⟨u, unit⟩, hentry, rfl⟩, htarget⟩ := h
    have hu := List.mk_mem_enum_iff_getElem?.1 hentry
    simp only [cons_unit, ConsNode.targets, ConsNode.targets_list, List.mem_append,
      List.append_nil] at htarget
    rcases htarget with htarget | htarget
    · obtain ⟨k, symbol, hk, rfl⟩ := targets_symbol_table _ _ target htarget
      exact ⟨_, (node_at_symbol_name out u unit hu k symbol).1 hk⟩
    · obtain ⟨k, symbol, hk, rfl⟩ := targets_symbol_table _ _ target htarget
      exact ⟨_, (node_at_symbol_name out u unit hu k symbol).2 hk⟩

/-- The scalars of a record of the tree, read from the blob. -/
theorem read_record (root : ConsNode) (blob : BakedBlob) (hblob : blob.holds root)
    (path : List Nat) (node : ConsNode) (offset : Nat)
    (values : List Nat) (hnode : root.node_at path = some node)
    (hoff : root.offset_at 0 path = some offset)
    (hemit : ∀ part, node.emit (root.offset_at 0) = .ok part →
      part.flatten = (values.map (le_bytes 8)).flatten)
    (hvalues : ∀ value ∈ values, value < 2 ^ 64) :
    read_u64s blob.bytes offset values.length = some values := by
  obtain ⟨offset2, part, hoff2, hpart, hholds, _⟩ := hblob.2 path node hnode
  rw [hoff] at hoff2
  cases hoff2
  rw [hemit part hpart] at hholds
  exact read_u64s_of_holds_at blob.bytes values offset hholds hvalues

/-- The offset of a node of the tree is below the size of the tree. -/
theorem offset_lt (root : ConsNode) (hsize : root.size < 2 ^ 64) (path : List Nat)
    (offset : Nat) (node : ConsNode) (hnode : root.node_at path = some node)
    (hoff : root.offset_at 0 path = some offset) :
    offset < 2 ^ 64 ∧ node.size < 2 ^ 64 ∧ offset + node.size ≤ root.size := by
  obtain ⟨offset2, hoff2, _, hle⟩ := offset_at_of_node_at path root node 0 hnode
  rw [hoff] at hoff2
  cases hoff2
  omega

theorem node_at_of_offset_at (path : List Nat) :
    ∀ (tree : ConsNode) (base offset : Nat), tree.offset_at base path = some offset →
      ∃ node, tree.node_at path = some node := by
  induction path with
  | nil => intro tree base offset _; exact ⟨tree, by simp [ConsNode.node_at]⟩
  | cons i path ih =>
    intro tree base offset h
    cases tree with
    | scalar value => simp [ConsNode.offset_at] at h
    | blob bytes => simp [ConsNode.offset_at] at h
    | ref target => simp [ConsNode.offset_at] at h
    | list children =>
      simp only [ConsNode.offset_at] at h
      cases hchild : children[i]? with
      | none => simp [hchild] at h
      | some child =>
        simp only [hchild] at h
        obtain ⟨node, hnode⟩ := ih child _ offset h
        exact ⟨node, by simp [ConsNode.node_at, hchild, hnode]⟩

theorem emit_header (out : ConversionResult) (offsets : List Nat → Option Nat)
    (directory : Nat) (hdir : offsets [1] = some directory) (part : List String8)
    (h : (cons_header out).emit offsets = .ok part) :
    part.flatten = ([cons_magic, cons_version, directory, 3 + 2 * out.units.length].map
      (le_bytes 8)).flatten := by
  simp only [cons_header, ConsNode.emit, ConsNode.emit_list, hdir, Except.ok.injEq] at h
  subst h
  simp

theorem emit_directory_entry (tag length offset : Nat) (target : List Nat)
    (offsets : List Nat → Option Nat) (htarget : offsets target = some offset)
    (part : List String8) (h : (cons_directory_entry tag target length).emit offsets = .ok part) :
    part.flatten = ([tag, offset, length].map (le_bytes 8)).flatten := by
  simp only [cons_directory_entry, ConsNode.emit, ConsNode.emit_list, htarget,
    Except.ok.injEq] at h
  subst h
  simp

theorem size_directory_entry (out : ConversionResult) :
    ∀ entry ∈ cons_directory_entries out, entry.size = 24 := by
  intro entry h
  simp only [cons_directory_entries, List.mem_append, List.mem_cons, List.mem_singleton,
    List.not_mem_nil, or_false] at h
  rcases h with (rfl | rfl | rfl) | h
  · simp [cons_directory_entry, ConsNode.size, ConsNode.sizes]
  · simp [cons_directory_entry, ConsNode.size, ConsNode.sizes]
  · simp [cons_directory_entry, ConsNode.size, ConsNode.sizes]
  · obtain ⟨u, unit, _, hcase⟩ := mem_unit_entries out.units 0 entry h
    rcases hcase with rfl | rfl <;> simp [cons_directory_entry, ConsNode.size, ConsNode.sizes]

theorem length_directory_entries (out : ConversionResult) :
    (cons_directory_entries out).length = 3 + 2 * out.units.length := by
  rw [cons_directory_entries, List.length_append, List.enum, length_unit_entries]
  rfl

/-- The entry of the section directory at an index, read from the blob: it has the tag and the
length of the entry of the tree, and the offset of the target of the entry. -/
theorem reader_section_spec (out : ConversionResult) (blob : BakedBlob)
    (hblob : blob.holds (cons_root out)) (hsize : (cons_root out).size < 2 ^ 64)
    (index tag length : Nat) (target : List Nat)
    (hentry : (cons_directory_entries out)[index]? =
      some (cons_directory_entry tag target length))
    (htag : tag < 2 ^ 64) (hlength : length < 2 ^ 64) :
    ∃ offset, (cons_root out).offset_at 0 target = some offset ∧
      reader_section blob.bytes index = some ⟨tag, offset, length⟩ := by
  have hroot : (cons_root out).node_at [] = some (.list [cons_header out, cons_directory out,
      cons_strings out, cons_types out, cons_index out,
      .list (out.units.enum.map cons_unit)]) := rfl
  have hroot0 : (cons_root out).offset_at 0 [] = some 0 := by
    simp [ConsNode.offset_at]
  obtain ⟨hn0, ho0⟩ := offset_at_child _ [] _ 0 0 (cons_header out) hroot hroot0 rfl
  obtain ⟨hn1, ho1⟩ := offset_at_child _ [] _ 0 1 (cons_directory out) hroot hroot0 rfl
  simp only [List.nil_append] at hn0 ho0 hn1 ho1
  have ho0 : (cons_root out).offset_at 0 [0] = some 0 := by
    simpa [ConsNode.sizes] using ho0
  obtain ⟨directory, ho1⟩ : ∃ directory, (cons_root out).offset_at 0 [1] = some directory :=
    ⟨_, ho1⟩
  have hindex : index < (cons_directory_entries out).length :=
    (List.getElem?_eq_some.1 hentry).1
  obtain ⟨hne, hoe⟩ := offset_at_child _ [1] _ _ index _ hn1 ho1 hentry
  rw [sizes_take_of_const 24 _ (size_directory_entry out) index (by omega)] at hoe
  simp only [List.singleton_append] at hne hoe
  obtain ⟨_, part, _, hpart, _, _⟩ := hblob.2 _ _ hne
  have htarget : ∃ offset, (cons_root out).offset_at 0 target = some offset := by
    cases h : (cons_root out).offset_at 0 target with
    | some offset => exact ⟨offset, rfl⟩
    | none => simp [cons_directory_entry, ConsNode.emit, ConsNode.emit_list, h] at hpart
  obtain ⟨offset, htarget⟩ := htarget
  obtain ⟨section_node, hsection⟩ := node_at_of_offset_at target _ 0 offset htarget
  have hd := offset_lt _ hsize [1] _ _ hn1 ho1
  have hcount : 3 + 2 * out.units.length < 2 ^ 64 := by
    have := hd.2.2
    rw [cons_directory, ConsNode.size, sizes_of_const 24 _ (size_directory_entry out),
      length_directory_entries] at this
    omega
  have hheader : read_u64s blob.bytes 0 4 =
      some [cons_magic, cons_version, directory, 3 + 2 * out.units.length] :=
    read_record _ blob hblob [0] _ _
      [cons_magic, cons_version, directory, 3 + 2 * out.units.length] hn0 ho0
      (emit_header out _ _ ho1)
      (by
        intro value hvalue
        simp only [List.mem_cons, List.mem_singleton, List.not_mem_nil, or_false] at hvalue
        rcases hvalue with rfl | rfl | rfl | rfl
        · norm_num [cons_magic]
        · norm_num [cons_version]
        · exact hd.1
        · exact hcount)
  have hrecord : read_u64s blob.bytes (directory + 24 * index) 3 =
      some [tag, offset, length] :=
    read_record _ blob hblob [1, index] _ _ [tag, offset, length] hne hoe
      (emit_directory_entry tag length offset target _ htarget)
      (by
        intro value hvalue
        simp only [List.mem_cons, List.mem_singleton, List.not_mem_nil, or_false] at hvalue
        rcases hvalue with rfl | rfl | rfl
        · exact htag
        · exact (offset_lt _ hsize target _ _ hsection htarget).1
        · exact hlength)
  have hlt : index < 3 + 2 * out.units.length := by
    rw [← length_directory_entries]
    exact hindex
  refine ⟨offset, htarget, ?_⟩
  simp [reader_section, hheader, hlt, hrecord]

/-- The record at an index of a table of the tree, read from the blob. -/
theorem reader_record_spec (root : ConsNode) (blob : BakedBlob) (hblob : blob.holds root)
    (path : List Nat) (records : List ConsNode) (table_offset : Nat)
    (htable : root.node_at path = some (.list records))
    (hoff : root.offset_at 0 path = some table_offset)
    (hstride : ∀ record ∈ records, record.size = cons_stride)
    (index : Nat) (record : ConsNode) (hrecord : records[index]? = some record)
    (values : List Nat) (hlength : values.length = 5)
    (hemit : ∀ part, record.emit (root.offset_at 0) = .ok part →
      part.flatten = (values.map (le_bytes 8)).flatten)
    (hvalues : ∀ value ∈ values, value < 2 ^ 64) (tag : Nat) :
    root.node_at (path ++ [index]) = some record ∧
    root.offset_at 0 (path ++ [index]) = some (table_offset + cons_stride * index) ∧
    reader_record blob.bytes ⟨tag, table_offset, cons_stride * records.length⟩ index
      = some values := by
  have hindex : index < records.length := (List.getElem?_eq_some.1 hrecord).1
  obtain ⟨hnode, hoffset⟩ := offset_at_child root path records table_offset index record
    htable hoff hrecord
  rw [sizes_take_of_const cons_stride records hstride index (by omega)] at hoffset
  have hread := read_record root blob hblob _ _ _ values hnode hoffset hemit hvalues
  rw [hlength] at hread
  have hguard : cons_stride * (index + 1) ≤ cons_stride * records.length :=
    Nat.mul_le_mul_left _ hindex
  exact ⟨hnode, hoffset, by simp only [reader_record, hguard, if_true, hread]⟩

theorem size_type_record (id : Nat) (slot : Option TypeNode) :
    (cons_type_record id slot).size = cons_stride := by
  cases slot <;> simp [cons_type_record, ConsNode.size, ConsNode.sizes, cons_stride]

theorem size_symbol_record (names : List Nat) (entry : Nat × ConvertedSymbol) :
    (cons_symbol_record names entry).size = cons_stride := by
  simp [cons_symbol_record, ConsNode.size, ConsNode.sizes, cons_stride]

theorem of_tag_tag (kind : TypeKind) : TypeKind.of_tag kind.tag = some kind := by
  cases kind <;> rfl

theorem tag_lt (kind : TypeKind) : kind.tag < 2 ^ 64 := by
  cases kind <;> norm_num [TypeKind.tag]

theorem emit_type_record (id : Nat) (node : TypeNode) (offsets : List Nat → Option Nat)
    (name children : Nat) (hname : offsets [2, 0, id] = some name)
    (hchildren : offsets [4, id] = some children) (part : List String8)
    (h : (cons_type_record id (some node)).emit offsets = .ok part) :
    part.flatten = ([node.kind.tag, name, node.name.length, node.children.length,
      children].map (le_bytes 8)).flatten := by
  simp only [cons_type_record, ConsNode.emit, ConsNode.emit_list, hname, hchildren,
    Except.ok.injEq] at h
  subst h
  simp

theorem emit_symbol_record (names : List Nat) (entry : Nat × ConvertedSymbol)
    (offsets : List Nat → Option Nat) (name : Nat)
    (hname : offsets (names ++ [entry.1]) = some name) (part : List String8)
    (h : (cons_symbol_record names entry).emit offsets = .ok part) :
    part.flatten = ([name, entry.2.name.length, entry.2.type_id,
      if entry.2.address.isSome then 1 else 0, entry.2.address.getD 0].map
        (le_bytes 8)).flatten := by
  simp only [cons_symbol_record, ConsNode.emit, ConsNode.emit_list, hname,
    Except.ok.injEq] at h
  subst h
  simp

theorem emit_type_children (children : List Nat) (offsets : List Nat → Option Nat)
    (table_offset : Nat)
    (hoffsets : ∀ child ∈ children,
      offsets [3, child] = some (table_offset + cons_stride * child))
    (part : List String8)
    (h : ConsNode.emit_list offsets (children.map (fun child => .ref [3, child])) = .ok part) :
    part.flatten = ((children.map (fun child => table_offset + cons_stride * child)).map
      (le_bytes 8)).flatten := by
  induction children generalizing part with
  | nil =>
    simp only [List.map_nil, ConsNode.emit_list, Except.ok.injEq] at h
    subst h
    rfl
  | cons child rest ih =>
    simp only [List.map_cons, ConsNode.emit_list, ConsNode.emit,
      hoffsets child (List.mem_cons_self _ _)] at h
    cases hrest : ConsNode.emit_list offsets (rest.map (fun child => .ref [3, child])) with
    | error e => simp [hrest] at h
    | ok tail =>
      simp only [hrest, Except.ok.injEq] at h
      subst h
      have := ih (fun c hc => hoffsets c (List.mem_cons_of_mem _ hc)) tail hrest
      simp [this]

/-- The type node of an identifier, read from the blob, is the node of the result. -/
theorem reader_type_node_spec (out : ConversionResult) (blob : BakedBlob)
    (hblob : blob.holds (cons_root out)) (hwf : out.wf)
    (hsize : (cons_root out).size < 2 ^ 64) (id : Nat) (node : TypeNode)
    (h : out.types.node id = some node) : reader_type_node blob.bytes id = some node := by
  obtain ⟨hid, hbound⟩ := node_of_wf out hwf id node h
  have hlen : (out.slots.enum.map (fun entry => cons_type_record entry.1 entry.2)).length
      = out.type_count := by
    simp [ConversionResult.slots]
  have hstride : ∀ record ∈ out.slots.enum.map (fun entry => cons_type_record entry.1 entry.2),
      record.size = cons_stride := by
    intro record hrecord
    obtain ⟨entry, _, rfl⟩ := List.mem_map.1 hrecord
    exact size_type_record _ _
  have htypes : (cons_root out).node_at [3] = some (.list
      (out.slots.enum.map (fun entry => cons_type_record entry.1 entry.2))) :=
    (node_at_section out).2.2.2.1
  obtain ⟨table_offset, hoff, _, htable_size⟩ := offset_at_of_node_at [3] _ _ 0 htypes
  rw [ConsNode.size, sizes_of_const cons_stride _ hstride, hlen] at htable_size
  obtain ⟨table_offset2, hoff2, hsection⟩ := reader_section_spec out blob hblob hsize 1 2
    (cons_stride * out.type_count) [3] (by simp [cons_directory_entries]) (by norm_num)
    (by omega)
  rw [hoff] at hoff2
  cases hoff2
  have hrecords : ∀ i, i < out.type_count →
      (out.slots.enum.map (fun entry => cons_type_record entry.1 entry.2))[i]? =
        some (cons_type_record i (out.types.node i)) := by
    intro i hi
    simp [List.getElem?_enum, slots_getElem out i hi]
  obtain ⟨name_offset, hname, _, _⟩ :=
    offset_at_of_node_at [2, 0, id] _ _ 0 (node_at_type_name out id hid)
  obtain ⟨children_offset, hchildren, _, _⟩ :=
    offset_at_of_node_at [4, id] _ _ 0 (node_at_type_children out id hid)
  have hname_lt := offset_lt _ hsize _ _ _ (node_at_type_name out id hid) hname
  have hchildren_lt := offset_lt _ hsize _ _ _ (node_at_type_children out id hid) hchildren
  rw [h] at hname_lt hchildren_lt
  simp only [cons_type_name, ConsNode.size] at hname_lt
  have hcount : node.children.length < 2 ^ 64 := by
    have := hchildren_lt.2.1
    simp only [cons_type_children, ConsNode.size] at this
    rw [sizes_of_const 8 _ (by
      intro c hc
      obtain ⟨child, _, rfl⟩ := List.mem_map.1 hc
      rfl)] at this
    simp only [List.length_map] at this
    omega
  have hrecord := (reader_record_spec _ blob hblob [3] _ table_offset htypes hoff hstride id _
    (hrecords id hid)
    [node.kind.tag, name_offset, node.name.length, node.children.length, children_offset] rfl
    (by
      rw [h]
      exact emit_type_record id node _ _ _ hname hchildren)
    (by
      intro value hvalue
      simp only [List.mem_cons, List.mem_singleton, List.not_mem_nil, or_false] at hvalue
      rcases hvalue with rfl | rfl | rfl | rfl | rfl
      · exact tag_lt _
      · exact hname_lt.1
      · exact hname_lt.2.1
      · exact hcount
      · exact hchildren_lt.1) 2).2.2
  rw [hlen] at hrecord
  have hbytes : read_bytes blob.bytes name_offset node.name.length = some node.name := by
    obtain ⟨offset, part, hoffset, hpart, hholds, _⟩ :=
      hblob.2 _ _ (node_at_type_name out id hid)
    rw [hname] at hoffset
    cases hoffset
    rw [h] at hpart
    simp only [cons_type_name, ConsNode.emit, Except.ok.injEq] at hpart
    subst hpart
    exact read_bytes_of_holds_at _ _ _ (by simpa using hholds)
  have hchild : ∀ child ∈ node.children,
      (cons_root out).offset_at 0 [3, child] = some (table_offset + cons_stride * child) ∧
      table_offset + cons_stride * child < 2 ^ 64 := by
    intro child hc
    obtain ⟨offset, hoffset, _, hle⟩ :=
      offset_at_of_node_at [3, child] _ _ 0 (node_at_type out child (hbound child hc))
    have hrecord_offset := (offset_at_child _ [3] _ table_offset child _ htypes hoff
      (hrecords child (hbound child hc))).2
    rw [sizes_take_of_const cons_stride _ hstride child (by
      rw [hlen]
      exact Nat.le_of_lt (hbound child hc))] at hrecord_offset
    simp only [List.singleton_append] at hrecord_offset
    rw [hrecord_offset] at hoffset
    cases hoffset
    exact ⟨hrecord_offset, by omega⟩
  have hoffsets : read_u64s blob.bytes children_offset node.children.length =
      some (node.children.map (fun child => table_offset + cons_stride * child)) := by
    have := read_record _ blob hblob [4, id] _ children_offset
      (node.children.map (fun child => table_offset + cons_stride * child))
      (node_at_type_children out id hid) hchildren
      (by
        rw [h]
        intro part hpart
        simp only [cons_type_children, ConsNode.emit] at hpart
        exact emit_type_children node.children _ table_offset
          (fun child hc => (hchild child hc).1) part hpart)
      (by
        intro value hvalue
        obtain ⟨child, hc, rfl⟩ := List.mem_map.1 hvalue
        exact (hchild child hc).2)
    simpa using this
  have hback : (node.children.map (fun child => table_offset + cons_stride * child)).map
      (fun offset => (offset - table_offset) / cons_stride) = node.children := by
    rw [List.map_map]
    conv_rhs => rw [← List.map_id node.children]
    apply List.map_congr_left
    intro child _
    simp [cons_stride]
  simp [reader_type_node, hsection, hrecord, of_tag_tag, hbytes, hoffsets, hback]

/-- The symbol at an index of a table of a unit, read from the blob, is the symbol of the
result. -/
theorem reader_symbol_spec (out : ConversionResult) (blob : BakedBlob)
    (hblob : blob.holds (cons_root out)) (hsize : (cons_root out).size < 2 ^ 64)
    (slot tag : Nat) (path names : List Nat) (symbols : List ConvertedSymbol)
    (hentry : (cons_directory_entries out)[slot]? =
      some (cons_directory_entry tag path (cons_stride * symbols.length)))
    (htag : tag < 2 ^ 64)
    (htable : (cons_root out).node_at path = some (cons_symbol_table names symbols))
    (hnames : ∀ k symbol, symbols[k]? = some symbol →
      (cons_root out).node_at (names ++ [k]) = some (.blob symbol.name))
    (hfits : ∀ symbol ∈ symbols, symbol.type_id < 2 ^ 64 ∧ symbol.address.getD 0 < 2 ^ 64)
    (k : Nat) (symbol : ConvertedSymbol) (hk : symbols[k]? = some symbol) :
    reader_symbol blob.bytes slot tag k = some symbol := by
  have hlen : (symbols.enum.map (cons_symbol_record names)).length = symbols.length := by
    simp
  have hstride : ∀ record ∈ symbols.enum.map (cons_symbol_record names),
      record.size = cons_stride := by
    intro record hrecord
    obtain ⟨entry, _, rfl⟩ := List.mem_map.1 hrecord
    exact size_symbol_record _ _
  obtain ⟨table_offset, hoff, _, htable_size⟩ := offset_at_of_node_at path _ _ 0 htable
  rw [cons_symbol_table, ConsNode.size, sizes_of_const cons_stride _ hstride, hlen]
    at htable_size
  obtain ⟨table_offset2, hoff2, hsection⟩ := reader_section_spec out blob hblob hsize slot tag
    (cons_stride * symbols.length) path hentry htag (by omega)
  rw [hoff] at hoff2
  cases hoff2
  obtain ⟨name_offset, hname, _, _⟩ :=
    offset_at_of_node_at (names ++ [k]) _ _ 0 (hnames k symbol hk)
  have hname_lt := offset_lt _ hsize _ _ _ (hnames k symbol hk) hname
  simp only [ConsNode.size] at hname_lt
  have hsymbol := hfits symbol (List.getElem?_mem hk)
  have hrecord := (reader_record_spec _ blob hblob path _ table_offset htable hoff hstride k
    (cons_symbol_record names (k, symbol)) (by simp [List.getElem?_enum, hk])
    [name_offset, symbol.name.length, symbol.type_id,
      if symbol.address.isSome then 1 else 0, symbol.address.getD 0] rfl
    (emit_symbol_record names (k, symbol) _ name_offset hname)
    (by
      intro value hvalue
      simp only [List.mem_cons, List.mem_singleton, List.not_mem_nil, or_false] at hvalue
      rcases hvalue with rfl | rfl | rfl | rfl | rfl
      · exact hname_lt.1
      · exact hname_lt.2.1
      · exact hsymbol.1
      · split <;> norm_num
      · exact hsymbol.2) tag).2.2
  rw [hlen] at hrecord
  have hbytes : read_bytes blob.bytes name_offset symbol.name.length = some symbol.name := by
    obtain ⟨offset, part, hoffset, hpart, hholds, _⟩ := hblob.2 _ _ (hnames k symbol hk)
    rw [hname] at hoffset
    cases hoffset
    simp only [ConsNode.emit, Except.ok.injEq] at hpart
    subst hpart
    exact read_bytes_of_holds_at _ _ _ (by simpa using hholds)
  obtain ⟨name, type_id, address⟩ := symbol
  cases address <;> simp [reader_symbol, hsection, hrecord, hbytes]

theorem mem_symbols (out : ConversionResult) (u : Nat) (unit : ConvertedUnit)
    (hu : out.units[u]? = some unit) (symbol : ConvertedSymbol)
    (h : symbol ∈ unit.procs ∨ symbol ∈ unit.vars) : symbol ∈ out.symbols := by
  simp only [ConversionResult.symbols, List.mem_flatMap, List.mem_append]
  exact ⟨unit, List.getElem?_mem hu, h⟩

/-- C13: round trip through conversion and baking.  For a result of the conversion whose type
nodes name slots of the type-node table and which fits the scalars of the output file, the
baker gives a blob, and a reader over the bytes of the blob retrieves every type node by its
identifier, and every procedure and variable by its unit and its index, with the field values
of the result. -/
theorem bake_round_trip (out : ConversionResult) (hwf : out.wf) (hfits : out.fits) :
    ∃ blob, cons_bake (cons_root out) = .ok blob ∧
      (∀ id node, out.types.node id = some node →
        reader_type_node blob.bytes id = some node) ∧
      (∀ u unit k symbol, out.units[u]? = some unit → unit.procs[k]? = some symbol →
        reader_procedure blob.bytes u k = some symbol) ∧
      (∀ u unit k symbol, out.units[u]? = some unit → unit.vars[k]? = some symbol →
        reader_variable blob.bytes u k = some symbol) := by
  obtain ⟨blob, hbake, hblob⟩ := cons_bake_spec (cons_root out) (cons_root_targets out hwf)
  refine ⟨blob, hbake, ?_, ?_, ?_⟩
  · intro id node h
    exact reader_type_node_spec out blob hblob hwf hfits.1 id node h
  · intro u unit k symbol hu hk
    have hentry := (unit_entries_getElem out.units 0 u unit hu).1
    simp only [Nat.zero_add] at hentry
    exact reader_symbol_spec out blob hblob hfits.1 (3 + 2 * u) 4 [5, u, 0] [2, 1, u, 0]
      unit.procs
      (by
        rw [cons_directory_entries, List.getElem?_append_right (by simp)]
        simpa [List.enum] using hentry)
      (by norm_num) (node_at_symbol_table out u unit hu).1
      (fun j symbol hj => (node_at_symbol_name out u unit hu j symbol).1 hj)
      (fun symbol hs => hfits.2 symbol (mem_symbols out u unit hu symbol (Or.inl hs)))
      k symbol hk
  · intro u unit k symbol hu hk
    have hentry := (unit_entries_getElem out.units 0 u unit hu).2
    simp only [Nat.zero_add] at hentry
    exact reader_symbol_spec out blob hblob hfits.1 (3 + 2 * u + 1) 5 [5, u, 1] [2, 1, u, 1]
      unit.vars
      (by
        rw [cons_directory_entries, List.getElem?_append_right (by simp; omega)]
        have : 3 + 2 * u + 1 - 3 = 2 * u + 1 := by omega
        simpa [List.enum, this] using hentry)
      (by norm_num) (node_at_symbol_table out u unit hu).2
      (fun j symbol hj => (node_at_symbol_name out u unit hu j symbol).2 hj)
      (fun symbol hs => hfits.2 symbol (mem_symbols out u unit hu symbol (Or.inr hs)))
      k symbol hk

theorem example_types_eq : convert_types example_self_struct = some example_types := rfl

theorem example_result_wf : example_result.wf := by
  unfold ConversionResult.wf
  decide

theorem example_result_fits : example_result.fits := by
  unfold ConversionResult.fits
  decide

/-- C13 on an example: the type nodes of the self-referential struct and one unit. -/
theorem bake_round_trip_witness :
    example_result.wf ∧ example_result.fits ∧
    ∃ blob, cons_bake (cons_root example_result) = .ok blob ∧
      (∀ id node, example_result.types.node id = some node →
        reader_type_node blob.bytes id = some node) ∧
      (∀ u unit k symbol, example_result.units[u]? = some unit →
        unit.procs[k]? = some symbol → reader_procedure blob.bytes u k = some symbol) ∧
      (∀ u unit k symbol, example_result.units[u]? = some unit →
        unit.vars[k]? = some symbol → reader_variable blob.bytes u k = some symbol) :=
  ⟨example_result_wf, example_result_fits,
    bake_round_trip example_result example_result_wf example_result_fits⟩

set_option maxRecDepth 100000 in
/-- The example result, baked and read back. -/
theorem example_result_read_back :
    ∃ blob, cons_bake (cons_root example_result) = .ok blob ∧
      blob.bytes.length = 433 ∧
      blob.bytes.take 6 = str8_lit "raddbg" ∧
      read_u64s blob.bytes 0 4 = some [cons_magic, cons_version, 32, 5] ∧
      reader_type_node blob.bytes 1 = some ⟨TypeKind.aggregate, str8_lit "S", [0, 2]⟩ ∧
      reader_type_node blob.bytes 2 = some ⟨TypeKind.pointer, [], [1]⟩ ∧
      reader_type_node blob.bytes 3 = none ∧
      reader_procedure blob.bytes 0 0 = some ⟨str8_lit "main", 0, some 4096⟩ ∧
      reader_variable blob.bytes 0 0 = some ⟨str8_lit "head", 2, none⟩ ∧
      reader_variable blob.bytes 0 1 = some ⟨str8_lit "count", 0, some 8192⟩ ∧
      reader_variable blob.bytes 0 2 = none :=
  ⟨_, rfl, by decide, by decide, by decide, by decide, by decide, by decide, by decide,
    by decide, by decide, by decide⟩

/-! ## Facts about the hotkey block -/

/-- The hotkey block at a press that matches a bound command and has the flag
`OS_EventFlag_Alt`, when `df_window_from_os_handle` returns no window for the event: the
parameters are those of `df_cmd_params_from_gfx`, the event is eaten, the command is pushed,
and then the block stores through the null pointer. -/
theorem take_hotkeys_loop_null_window (h : HotkeyWorld) (e : OS_Event) (next events : List OS_Event)
    (spec : DF_CmdSpec) (hkind : e.kind = OS_EventKind.Press)
    (hspec : hotkey_spec (h.df_cmd_spec_list_from_binding ⟨e.key, e.flags⟩) = some spec)
    (halt : e.flags &&& h.OS_EventFlag_Alt ≠ 0)
    (hwindow : h.df_window_from_os_handle e.window = none) :
    take_hotkeys_loop h (e :: next) events =
      ⟨h.os_eat_event events e,
        [HotkeyCall.os_eat_event e,
         HotkeyCall.df_push_cmd__root df_cmd_params_from_gfx (some spec)
           h.command_fast_path_cmd_spec],
        some e⟩ := by
  simp [take_hotkeys_loop, hkind, hspec, halt, hwindow]

theorem after_null_window_store (calls : List HotkeyCall) (rest : Hotkeys) :
    (rest.after calls).null_window_store = rest.null_window_store := rfl

theorem after_nil (rest : Hotkeys) : rest.after [] = rest := by
  cases rest
  rfl

/-- The hotkey block at an event that does not store through a null window pointer: the loop
goes on to the next event. -/
theorem take_hotkeys_loop_continue (h : HotkeyWorld) (e : OS_Event)
    (next events : List OS_Event)
    (hp : (reaches_window_store h e && (h.df_window_from_os_handle e.window).isNone) = false) :
    ∃ events2 calls,
      take_hotkeys_loop h (e :: next) events = (take_hotkeys_loop h next events2).after calls := by
  by_cases hkind : e.kind = OS_EventKind.Press
  · cases hspec : hotkey_spec (h.df_cmd_spec_list_from_binding ⟨e.key, e.flags⟩) with
    | none =>
      exact ⟨events, [HotkeyCall.df_gfx_request_frame],
        by simp [take_hotkeys_loop, hkind, hspec]⟩
    | some spec =>
      by_cases halt : e.flags &&& h.OS_EventFlag_Alt = 0
      · exact ⟨h.os_eat_event events e, _, by simp [take_hotkeys_loop, hkind, hspec, halt]; rfl⟩
      · cases hwindow : h.df_window_from_os_handle e.window with
        | none => simp [reaches_window_store, hkind, hspec, halt, hwindow] at hp
        | some w =>
          exact ⟨h.os_eat_event events e, _,
            by simp [take_hotkeys_loop, hkind, hspec, halt, hwindow]; rfl⟩
  · by_cases htext : e.kind = OS_EventKind.Text
    · exact ⟨events, _, by simp [take_hotkeys_loop, hkind, htext]; rfl⟩
    · exact ⟨events, [], by simp [take_hotkeys_loop, hkind, htext, after_nil]⟩

/-- The hotkey block stores through a null window pointer exactly when some event that reaches
the store has no window: it does so at the first such event. -/
theorem take_hotkeys_loop_null_window_store (h : HotkeyWorld) (pending events : List OS_Event) :
    (take_hotkeys_loop h pending events).null_window_store =
      pending.find? (fun e =>
        reaches_window_store h e && (h.df_window_from_os_handle e.window).isNone) := by
  induction pending generalizing events with
  | nil => rfl
  | cons e next ih =>
    cases hp : (reaches_window_store h e && (h.df_window_from_os_handle e.window).isNone) with
    | true =>
      simp only [List.find?_cons, hp]
      simp only [reaches_window_store, Bool.and_eq_true, beq_iff_eq, bne_iff_ne, ne_eq,
        Option.isSome_iff_exists, Option.isNone_iff_eq_none] at hp
      obtain ⟨⟨⟨hkind, spec, hspec⟩, halt⟩, hwindow⟩ := hp
      rw [take_hotkeys_loop_null_window h e next events spec hkind hspec halt hwindow]
    | false =>
      simp only [List.find?_cons, hp]
      obtain ⟨events2, calls, hstep⟩ := take_hotkeys_loop_continue h e next events hp
      rw [hstep, after_null_window_store, ih]

/-- Every store that the hotkey block completes goes to the window that
`df_window_from_os_handle` returned for an event of the list. -/
theorem take_hotkeys_loop_stores (h : HotkeyWorld) (pending events : List OS_Event)
    (w : DF_Window) (value : Nat)
    (hcall : HotkeyCall.store_menu_bar_focus_press_started w value
      ∈ (take_hotkeys_loop h pending events).calls) :
    ∃ e ∈ pending, reaches_window_store h e = true ∧
      h.df_window_from_os_handle e.window = some w ∧ value = 0 := by
  induction pending generalizing events with
  | nil => simp [take_hotkeys_loop] at hcall
  | cons e next ih =>
    have hrest : ∀ events2,
        HotkeyCall.store_menu_bar_focus_press_started w value
          ∈ (take_hotkeys_loop h next events2).calls →
        ∃ e2 ∈ e :: next, reaches_window_store h e2 = true ∧
          h.df_window_from_os_handle e2.window = some w ∧ value = 0 := by
      intro events2 h2
      obtain ⟨e2, hmem, hfacts⟩ := ih events2 h2
      exact ⟨e2, List.mem_cons_of_mem _ hmem, hfacts⟩
    by_cases hkind : e.kind = OS_EventKind.Press
    · cases hspec : hotkey_spec (h.df_cmd_spec_list_from_binding ⟨e.key, e.flags⟩) with
      | none =>
        simp [take_hotkeys_loop, hkind, hspec, Hotkeys.after] at hcall
        exact hrest _ hcall
      | some spec =>
        by_cases halt : e.flags &&& h.OS_EventFlag_Alt = 0
        · simp [take_hotkeys_loop, hkind, hspec, halt, Hotkeys.after] at hcall
          exact hrest _ hcall
        · cases hwindow : h.df_window_from_os_handle e.window with
          | none => simp [take_hotkeys_loop, hkind, hspec, halt, hwindow] at hcall
          | some w2 =>
            simp [take_hotkeys_loop, hkind, hspec, halt, hwindow, Hotkeys.after] at hcall
            rcases hcall with ⟨rfl, rfl⟩ | hcall
            · exact ⟨e, List.mem_cons_self _ _,
                by simp [reaches_window_store, hkind, hspec, halt], hwindow, rfl⟩
            · exact hrest _ hcall
    · by_cases htext : e.kind = OS_EventKind.Text
      · simp [take_hotkeys_loop, hkind, htext, Hotkeys.after] at hcall
        exact hrest _ hcall
      · simp [take_hotkeys_loop, hkind, htext] at hcall
        exact hrest _ hcall

/-- C21, on the code: a press of a bound key with the modifier Alt in an OS window for which
`df_window_from_os_handle` returns no window.  The hotkey block takes the parameters from
`df_cmd_params_from_gfx`, since the window is missing, eats the event, pushes the command,
and then stores to `menu_bar_focus_press_started` through the null window pointer.  The same
press in the window of the frontend stores to that window. -/
theorem hotkey_alt_press_stores_to_missing_window :
    example_hotkey_world.df_window_from_os_handle example_alt_press.window = none ∧
    reaches_window_store example_hotkey_world example_alt_press = true ∧
    take_hotkeys example_hotkey_world [example_alt_press] =
      ⟨[],
        [HotkeyCall.os_eat_event example_alt_press,
         HotkeyCall.df_push_cmd__root df_cmd_params_from_gfx (some 30) 40],
        some example_alt_press⟩ ∧
    take_hotkeys example_hotkey_world [example_alt_press_in_window] =
      ⟨[],
        [HotkeyCall.os_eat_event example_alt_press_in_window,
         HotkeyCall.df_push_cmd__root (df_cmd_params_from_window ⟨⟨1⟩, true⟩) (some 30) 40,
         HotkeyCall.store_menu_bar_focus_press_started ⟨⟨1⟩, true⟩ 0,
         HotkeyCall.df_gfx_request_frame],
        none⟩ := by
  refine ⟨by decide, by decide, by decide, by decide⟩

/-! ## Deduplication, record by record -/

/-- Kind and children take part in the encoding: in the stream of the self-referential struct,
the anonymous pointer and the struct `S` stay distinct, and in the stream of the twins the two
anonymous pointers, which name different structs, stay distinct. -/
theorem example_kind_and_children_distinct :
    (∃ t, convert_types example_twin_structs = some t ∧
      t.identifier 0 = some 1 ∧ t.identifier 2 = some 3 ∧
      t.identifier 0 ≠ t.identifier 1) ∧
    (∃ t, convert_types example_self_struct = some t ∧
      t.identifier 1 ≠ t.identifier 2) :=
  ⟨⟨_, rfl, by decide, by decide, by decide⟩, ⟨_, rfl, by decide⟩⟩

end Raddbg
